import Mathlib

/-!
# OS analytical dashboard: scheduling, allocation and deadlock engine

A shallow embedding of the computational core of `script.js`
(`executeFCFS`, `executeSJF`, `executeRoundRobin`, `executePriority`,
`executeFirstFit`, `executeBestFit`, `executeWorstFit`, `detectDeadlock`)
together with theorems about it.

Conventions of the embedding.

* JavaScript numbers are modelled by `Int` (times, sizes, matrix entries) and
  by `Nat` (array indices, the process id).  The engine only adds, subtracts
  and compares them.  The numbers of the code are doubles: on integers up to
  `2 ^ 53` its sums and differences are those of `Int`, and the theorems that
  need exact sums assume `SafeIntegerTimes`.  Fractional times, on which the
  code rounds, are embedded in the section on `Binary64`.
* A JavaScript array is a `List`; `push` appends at the end.
* A property that may be `null` before a run is an `Option`.
* A `while` loop is a function that is structurally recursive on a step
  budget and answers `none` when the budget is used up; the theorems show
  that the budget handed over by the callers is never used up.
-/

namespace OSDashboard

/-! ## Data model -/

/-- Status tag of a process record. -/
inductive Status where
  | Ready
  | Completed
  | Allocated
  | Failed
  | Deadlocked
  | Safe
deriving DecidableEq, Repr

/-- Process record: the fields typed in by the user (`processName`,
`arrivalTime`, `burstTime`, `priority`, `memorySize`, and in deadlock mode the
texts `resourcesHeld` and `resourcesRequested`), the `id`, and the result
fields that an engine run overrides in its decorated copy
(`{...process, startTime, finishTime, ...}`). -/
structure ProcessRecord where
  id : Nat
  processName : String
  arrivalTime : Int
  burstTime : Int
  priority : Int
  memorySize : Int
  status : Status
  startTime : Option Int
  finishTime : Option Int
  waitingTime : Option Int
  turnaroundTime : Option Int
  allocatedPosition : Option Int
  resourcesHeld : Option String := none
  resourcesRequested : Option String := none
deriving DecidableEq, Repr

/-- Entry of the `schedule` array (the Gantt timeline). -/
structure TimelineEntry where
  process : String
  start : Int
  finish : Int
  color : Nat
deriving DecidableEq, Repr

/-- Result envelope of a scheduling run (`metrics` is a function of
`results` and is not stored). -/
structure ScheduleOutput where
  algorithm : String
  schedule : List TimelineEntry
  results : List ProcessRecord
deriving DecidableEq, Repr

/-- Index into the ten-colour palette: `getProcessColor` computes
`colors[processId % colors.length]`. -/
def getProcessColor (processId : Nat) : Nat := processId % 10

/-- The fields of a record that a run copies unchanged from its input. -/
def ProcessRecord.inputFields (p : ProcessRecord) :
    Nat × String × Int × Int × Int × Int :=
  (p.id, p.processName, p.arrivalTime, p.burstTime, p.priority, p.memorySize)

/-! ## First come first serve -/

/-- Comparator handed to `sort` by `executeFCFS`:
`(a, b) => a.arrivalTime - b.arrivalTime`. -/
def compareArrival (a b : ProcessRecord) : Int := a.arrivalTime - b.arrivalTime

/-- One insertion of the stable sort: `p` stood before every element of the
list in the input, so it stays before the first element it does not exceed. -/
def insertByArrival (p : ProcessRecord) : List ProcessRecord → List ProcessRecord
  | [] => [p]
  | q :: qs =>
    if compareArrival p q ≤ 0 then p :: q :: qs else q :: insertByArrival p qs

/-- The call `[...processes].sort((a, b) => a.arrivalTime - b.arrivalTime)`:
`Array.prototype.sort` is a stable sort; it is embedded as the stable
insertion sort under the comparator. -/
def sortByArrival : List ProcessRecord → List ProcessRecord
  | [] => []
  | p :: ps => insertByArrival p (sortByArrival ps)

/-- Body of the `forEach` of `executeFCFS`, iterated over the sorted list
with the running `currentTime`, `schedule` and `results`. -/
def fcfsLoop : List ProcessRecord → Int → List TimelineEntry → List ProcessRecord →
    List TimelineEntry × List ProcessRecord
  | [], _, schedule, results => (schedule, results)
  | process :: rest, currentTime, schedule, results =>
    let startTime := max currentTime process.arrivalTime
    let finishTime := startTime + process.burstTime
    let waitingTime := startTime - process.arrivalTime
    let turnaroundTime := finishTime - process.arrivalTime
    fcfsLoop rest finishTime
      (schedule ++ [{ process := process.processName, start := startTime,
                      finish := finishTime, color := getProcessColor process.id }])
      (results ++ [{ process with
                      startTime := some startTime, finishTime := some finishTime,
                      waitingTime := some waitingTime,
                      turnaroundTime := some turnaroundTime,
                      status := Status.Completed }])

/-- Embedding of `executeFCFS`. -/
def executeFCFS (processes : List ProcessRecord) : ScheduleOutput :=
  let sortedProcesses := sortByArrival processes
  let out := fcfsLoop sortedProcesses 0 [] []
  { algorithm := "First Come First Serve (FCFS)", schedule := out.1, results := out.2 }

/-- Value of `currentTime` when the `k`-th entry of `results` was produced:
`0` for the first entry, the finish time of the entry before it otherwise. -/
def clockBefore (results : List ProcessRecord) : Nat → Int
  | 0 => 0
  | k + 1 => (results[k]?.bind (fun r => r.finishTime)).getD 0

/-! ## Shortest job first and priority scheduling -/

/-- The call `Math.min(...xs)` on a non-empty argument list (the engine only calls it
with `remaining` non-empty; the value for no argument is never used). -/
def minOfList : List Int → Int
  | [] => 0
  | x :: xs => xs.foldl min x

/-- The call `available.reduce((min, p) => key(p) < key(min) ? p : min)`: a left fold
whose accumulator starts as the first element.  An element is paired with its
position in `remaining`, which stands for the identity of the object. -/
def reduceMin (key : ProcessRecord → Int) :
    Nat × ProcessRecord → List (Nat × ProcessRecord) → Nat × ProcessRecord
  | m, [] => m
  | m, p :: rest => reduceMin key (if key p.2 < key m.2 then p else m) rest

/-- The `while (remaining.length > 0)` loop shared, up to the selection key,
by `executeSJF` (key `burstTime`) and `executePriority` (key `priority`).
`remaining.splice(remaining.indexOf(shortest), 1)` removes the selected
object, i.e. the element at the position it was found at. -/
def selectionLoop (key : ProcessRecord → Int) :
    Nat → Int → List ProcessRecord → List TimelineEntry → List ProcessRecord →
    Option (List TimelineEntry × List ProcessRecord)
  | _, _, [], schedule, results => some (schedule, results)
  | 0, _, _ :: _, _, _ => none
  | fuel + 1, currentTime, r :: rs, schedule, results =>
    let remaining := r :: rs
    let available := remaining.enum.filter (fun p => p.2.arrivalTime ≤ currentTime)
    match available with
    | [] =>
      selectionLoop key fuel (minOfList (remaining.map (fun p => p.arrivalTime)))
        remaining schedule results
    | first :: others =>
      let shortest := reduceMin key first others
      let startTime := currentTime
      let finishTime := startTime + shortest.2.burstTime
      let waitingTime := startTime - shortest.2.arrivalTime
      let turnaroundTime := finishTime - shortest.2.arrivalTime
      selectionLoop key fuel finishTime (remaining.eraseIdx shortest.1)
        (schedule ++ [{ process := shortest.2.processName, start := startTime,
                        finish := finishTime, color := getProcessColor shortest.2.id }])
        (results ++ [{ shortest.2 with
                        startTime := some startTime, finishTime := some finishTime,
                        waitingTime := some waitingTime,
                        turnaroundTime := some turnaroundTime,
                        status := Status.Completed }])

/-- Embedding of `executeSJF`.  Every process costs the loop at most two
passes (one clock jump, one selection), hence the budget. -/
def executeSJF (processes : List ProcessRecord) : Option ScheduleOutput :=
  (selectionLoop (fun p => p.burstTime) (2 * processes.length) 0 processes [] []).map
    fun out => { algorithm := "Shortest Job First (SJF)",
                 schedule := out.1, results := out.2 }

/-- Embedding of `executePriority`. -/
def executePriority (processes : List ProcessRecord) : Option ScheduleOutput :=
  (selectionLoop (fun p => p.priority) (2 * processes.length) 0 processes [] []).map
    fun out => { algorithm := "Priority Scheduling",
                 schedule := out.1, results := out.2 }

/-! ## Round robin -/

/-- Element of `processQueue`: `{ ...p, remainingTime: p.burstTime,
startTime: null }`.  `owner` is the position of `p` in `processes`; it stands
for the identity of the JavaScript object and is never read by the engine. -/
structure RRItem where
  owner : Nat
  proc : ProcessRecord
  remainingTime : Int
deriving DecidableEq, Repr

/-- Variables of the loop of `executeRoundRobin`.  Every timeline entry is
kept together with the owner of the queue element it was pushed for. -/
structure RRState where
  currentTime : Int
  readyQueue : List RRItem
  completed : List RRItem
  schedule : List (Nat × TimelineEntry)
  results : List ProcessRecord
deriving DecidableEq, Repr

/-- The fixed quantum of `executeRoundRobin`. -/
def quantum : Int := 3

/-- The statement `if (current.startTime === null) current.startTime = currentTime`. -/
def markStarted (currentTime : Int) (current : RRItem) : RRItem :=
  if current.proc.startTime = none then
    { current with proc := { current.proc with startTime := some currentTime } }
  else current

/-- The loop `while (completed.length < processes.length)` of
`executeRoundRobin`, `total` being `processes.length`; it answers the values
of the variables when the loop is left. -/
def rrLoop (total : Nat) : Nat → RRState → Option RRState
  | fuel, st =>
    if st.completed.length < total then
      match st.readyQueue with
      | [] => some st
      | head :: rest =>
        match fuel with
        | 0 => none
        | fuel + 1 =>
          let current := markStarted st.currentTime head
          let executeTime := min quantum current.remainingTime
          let schedule := st.schedule ++
            [(current.owner,
              { process := current.proc.processName, start := st.currentTime,
                finish := st.currentTime + executeTime,
                color := getProcessColor current.proc.id })]
          let remainingTime := current.remainingTime - executeTime
          let currentTime := st.currentTime + executeTime
          if remainingTime > 0 then
            let requeued : RRItem := { current with remainingTime := remainingTime }
            rrLoop total fuel
              { currentTime := currentTime, readyQueue := rest ++ [requeued],
                completed := st.completed, schedule := schedule, results := st.results }
          else
            let finished : ProcessRecord := { current.proc with finishTime := some currentTime }
            let waitingTime := currentTime - finished.arrivalTime - finished.burstTime
            let turnaroundTime := currentTime - finished.arrivalTime
            let done : RRItem :=
              { owner := current.owner, proc := finished, remainingTime := remainingTime }
            let result : ProcessRecord :=
              { finished with waitingTime := some waitingTime,
                              turnaroundTime := some turnaroundTime,
                              status := Status.Completed }
            rrLoop total fuel
              { currentTime := currentTime, readyQueue := rest,
                completed := st.completed ++ [done], schedule := schedule,
                results := st.results ++ [result] }
    else some st

/-- The array `processes.map(p => ({ ...p, remainingTime: p.burstTime, startTime: null }))`. -/
def processQueue (processes : List ProcessRecord) : List RRItem :=
  processes.enum.map fun ip =>
    { owner := ip.1, proc := { ip.2 with startTime := none },
      remainingTime := ip.2.burstTime }

/-- Step budget of the round robin loop: a slice lowers the remaining time of
its process by at least one unit, or completes the process. -/
def rrFuel (processes : List ProcessRecord) : Nat :=
  (processes.map fun p => p.burstTime.toNat + 1).sum

/-- The run of the loop of `executeRoundRobin` from its initial state. -/
def roundRobinRun (processes : List ProcessRecord) : Option RRState :=
  rrLoop processes.length (rrFuel processes)
    { currentTime := 0, readyQueue := processQueue processes, completed := [],
      schedule := [], results := [] }

/-- Embedding of `executeRoundRobin`. -/
def executeRoundRobin (processes : List ProcessRecord) : Option ScheduleOutput :=
  (roundRobinRun processes).map fun st =>
    { algorithm := "Round Robin (Quantum = 3)",
      schedule := st.schedule.map Prod.snd, results := st.results }

/-! ## Contiguous memory allocation -/

/-- Result envelope of an allocation run (`results` is the same array as
`allocations`; `metrics` is a function of the other fields). -/
structure AllocationOutput where
  algorithm : String
  memory : List Nat
  allocations : List ProcessRecord
deriving DecidableEq, Repr

/-- The constant `totalMemory` of the three allocation functions. -/
def totalMemory : Nat := 100

/-- Inner loop of `executeFirstFit`:
`for (j = i; j < i + memorySize; j++) if (memory[j] !== 0) canAllocate = false`. -/
def canAllocateAt (memory : List Nat) (i : Nat) (memorySize : Int) : Bool :=
  (List.range memorySize.toNat).all fun d => decide (memory[i + d]? = some 0)

/-- The loop `for (j = start; j < start + memorySize; j++) memory[j] = value`. -/
def writeBlock (memory : List Nat) (start : Nat) (memorySize : Int) (value : Nat) :
    List Nat :=
  (List.range memorySize.toNat).foldl (fun m d => m.set (start + d) value) memory

/-- Search loop of `executeFirstFit`:
`for (i = 0; i <= totalMemory - memorySize; i++)`, left at the first `i` with
`canAllocate`. -/
def firstFitSearch (memory : List Nat) (memorySize : Int) : Option Nat :=
  (List.range ((totalMemory : Int) - memorySize + 1).toNat).find?
    fun i => canAllocateAt memory i memorySize

/-- Inner loop of the scans of `executeBestFit` and `executeWorstFit`:
`while (i < totalMemory && memory[i] === 0) { blockSize++; i++; }`, answering
`blockSize`.  The first argument bounds the number of passes; the callers
hand over `totalMemory - i`, which the loop cannot exceed. -/
def freeBlockSize (memory : List Nat) : Nat → Nat → Nat
  | 0, _ => 0
  | fuel + 1, i =>
    if i < totalMemory ∧ memory[i]? = some 0 then freeBlockSize memory fuel (i + 1) + 1
    else 0

/-- The test `blockSize < bestSize`, where `none` stands for `Infinity`. -/
def belowBest (blockSize : Nat) : Option Nat → Bool
  | none => true
  | some bestSize => decide (blockSize < bestSize)

/-- Scan of `executeBestFit`: `while (i < totalMemory) { ... }` over the
variables `i`, `bestPosition`, `bestSize`; answers `bestPosition`. -/
def bestFitScan (memory : List Nat) (memorySize : Int) :
    Nat → Nat → Int → Option Nat → Option Int
  | fuel, i, bestPosition, bestSize =>
    if i < totalMemory then
      match fuel with
      | 0 => none
      | fuel + 1 =>
        if memory[i]? = some 0 then
          let blockSize := freeBlockSize memory (totalMemory - i) i
          let start := i
          if (blockSize : Int) ≥ memorySize ∧ belowBest blockSize bestSize = true then
            bestFitScan memory memorySize fuel (i + blockSize) (start : Int) (some blockSize)
          else
            bestFitScan memory memorySize fuel (i + blockSize) bestPosition bestSize
        else
          bestFitScan memory memorySize fuel (i + 1) bestPosition bestSize
    else some bestPosition

/-- Scan of `executeWorstFit` over `i`, `worstPosition`, `worstSize`; answers
`worstPosition`. -/
def worstFitScan (memory : List Nat) (memorySize : Int) :
    Nat → Nat → Int → Int → Option Int
  | fuel, i, worstPosition, worstSize =>
    if i < totalMemory then
      match fuel with
      | 0 => none
      | fuel + 1 =>
        if memory[i]? = some 0 then
          let blockSize := freeBlockSize memory (totalMemory - i) i
          let start := i
          if (blockSize : Int) ≥ memorySize ∧ (blockSize : Int) > worstSize then
            worstFitScan memory memorySize fuel (i + blockSize) (start : Int) (blockSize : Int)
          else
            worstFitScan memory memorySize fuel (i + blockSize) worstPosition worstSize
        else
          worstFitScan memory memorySize fuel (i + 1) worstPosition worstSize
    else some worstPosition

/-- Placement decided by `executeFirstFit` for one process: the offset when
`allocated` becomes true, nothing otherwise. -/
def firstFitPlace (memory : List Nat) (memorySize : Int) : Option (Option Nat) :=
  some (firstFitSearch memory memorySize)

/-- Placement decided by `executeBestFit` for one process: `bestPosition`
when `bestPosition !== -1`, nothing otherwise.  Every pass of the scan moves
`i` forward, so `totalMemory` passes are enough. -/
def bestFitPlace (memory : List Nat) (memorySize : Int) : Option (Option Nat) :=
  (bestFitScan memory memorySize totalMemory 0 (-1) none).map fun bestPosition =>
    if bestPosition ≠ -1 then some bestPosition.toNat else none

/-- Placement decided by `executeWorstFit` for one process. -/
def worstFitPlace (memory : List Nat) (memorySize : Int) : Option (Option Nat) :=
  (worstFitScan memory memorySize totalMemory 0 (-1) (-1)).map fun worstPosition =>
    if worstPosition ≠ -1 then some worstPosition.toNat else none

/-- Body of the `processes.forEach((process, index) => ...)` of the three
allocation functions, which differ only in how the position is found: on
success the cells of the block receive `index + 1` and the decorated copy has
status `Allocated`; otherwise memory is left alone and the copy has
`allocatedPosition: -1` and status `Failed`.  Answers the memory array and the
record pushed to `allocations`. -/
def allocateOne (place : List Nat → Int → Option (Option Nat)) (memory : List Nat)
    (index : Nat) (process : ProcessRecord) : Option (List Nat × ProcessRecord) :=
  match place memory process.memorySize with
  | none => none
  | some (some position) =>
    some (writeBlock memory position process.memorySize (index + 1),
          { process with allocatedPosition := some (position : Int),
                         status := Status.Allocated })
  | some none =>
    some (memory, { process with allocatedPosition := some (-1), status := Status.Failed })

/-- The `processes.forEach((process, index) => ...)` of the three allocation
functions over the running `memory` and `allocations`. -/
def allocationLoop (place : List Nat → Int → Option (Option Nat)) :
    List (Nat × ProcessRecord) → List Nat → List ProcessRecord →
    Option (List Nat × List ProcessRecord)
  | [], memory, allocations => some (memory, allocations)
  | (index, process) :: rest, memory, allocations =>
    match allocateOne place memory index process with
    | none => none
    | some (memory2, allocation) =>
      allocationLoop place rest memory2 (allocations ++ [allocation])

/-- The array `new Array(totalMemory).fill(0)`. -/
def emptyMemory : List Nat := List.replicate totalMemory 0

/-- Embedding of `executeFirstFit`. -/
def executeFirstFit (processes : List ProcessRecord) : Option AllocationOutput :=
  (allocationLoop firstFitPlace processes.enum emptyMemory []).map fun out =>
    { algorithm := "First Fit Memory Allocation", memory := out.1, allocations := out.2 }

/-- Embedding of `executeBestFit`. -/
def executeBestFit (processes : List ProcessRecord) : Option AllocationOutput :=
  (allocationLoop bestFitPlace processes.enum emptyMemory []).map fun out =>
    { algorithm := "Best Fit Memory Allocation", memory := out.1, allocations := out.2 }

/-- Embedding of `executeWorstFit`. -/
def executeWorstFit (processes : List ProcessRecord) : Option AllocationOutput :=
  (allocationLoop worstFitPlace processes.enum emptyMemory []).map fun out =>
    { algorithm := "Worst Fit Memory Allocation", memory := out.1, allocations := out.2 }

/-! ## Deadlock detection -/

/-- Value returned by `detectDeadlock`. -/
structure DeadlockResult where
  deadlocked : Bool
  deadlockedProcesses : List Nat
deriving DecidableEq, Repr

/-- The loop
`for (j = 0; j < resources; j++) if (request[i][j] > work[j]) canProceed = false`. -/
def canProceed (requestRow work : List Int) (resources : Nat) : Bool :=
  (List.range resources).all fun j => decide (¬ (requestRow.getD j 0 > work.getD j 0))

/-- The loop `for (j = 0; j < resources; j++) work[j] += allocation[i][j]`. -/
def releaseInto (work allocationRow : List Int) (resources : Nat) : List Int :=
  (List.range resources).foldl
    (fun w j => w.set j (w.getD j 0 + allocationRow.getD j 0)) work

/-- Variables changed by one scan of `detectDeadlock`. -/
structure ScanState where
  work : List Int
  finish : List Bool
  found : Bool
deriving DecidableEq, Repr

/-- Body of `for (let i = 0; i < processes; i++)` in `detectDeadlock`;
`!finish[i]` also holds for an index outside of `finish`. -/
def scanStep (allocation request : List (List Int)) (resources : Nat)
    (st : ScanState) (i : Nat) : ScanState :=
  if st.finish.getD i false = false then
    if canProceed (request.getD i []) st.work resources then
      { work := releaseInto st.work (allocation.getD i []) resources,
        finish := st.finish.set i true, found := true }
    else st
  else st

/-- One pass of the body of `while (found)`: `found = false`, then the scan
over all processes. -/
def scanRound (allocation request : List (List Int)) (resources : Nat)
    (work : List Int) (finish : List Bool) : ScanState :=
  (List.range allocation.length).foldl (scanStep allocation request resources)
    { work := work, finish := finish, found := false }

/-- The loop `while (found)` of `detectDeadlock`; `found` is true on entry,
so the body runs before the flag is looked at.  Answers the final `finish`. -/
def detectLoop (allocation request : List (List Int)) (resources : Nat) :
    Nat → List Int → List Bool → Option (List Bool)
  | 0, _, _ => none
  | fuel + 1, work, finish =>
    let st := scanRound allocation request resources work finish
    if st.found then detectLoop allocation request resources fuel st.work st.finish
    else some st.finish

/-- Embedding of `detectDeadlock`.  A round that sets `found` finishes a
process, so the loop makes at most `processes + 1` rounds. -/
def detectDeadlock (allocation request : List (List Int)) (available : List Int) :
    Option DeadlockResult :=
  let processes := allocation.length
  let resources := available.length
  (detectLoop allocation request resources (processes + 1) available
      (List.replicate processes false)).map fun finish =>
    let deadlockedProcesses :=
      (List.range processes).filter fun i => finish.getD i false = false
    { deadlocked := decide (deadlockedProcesses.length > 0),
      deadlockedProcesses := deadlockedProcesses }

/-! ## Shortest remaining time first -/

/-- Embedding of `executeSRTF`: `return executeSJF();`. -/
def executeSRTF (processes : List ProcessRecord) : Option ScheduleOutput :=
  executeSJF processes

/-! ## Metrics -/

/-- Embedding of `calculateFragmentation`: the `forEach` over the memory
array with the variables `fragments` and `inFreeBlock`. -/
def calculateFragmentation (memory : List Nat) : Nat :=
  (memory.foldl
    (fun (st : Nat × Bool) (block : Nat) =>
      if block = 0 ∧ st.2 = false then (st.1 + 1, true)
      else if block ≠ 0 then (st.1, false)
      else st)
    (0, false)).1

/-- Value of a metric: a JavaScript number that may be `NaN` or infinite.  A
finite value is kept exact; the formatting by `toFixed` is not modelled, so a
field holds the number that is printed (`finite 0` for the text `'0'`). -/
inductive JSNumber where
  | finite (q : ℚ)
  | nan
  | posInfinity
  | negInfinity
deriving DecidableEq

/-- The quotient `a / b` of two integers as JavaScript computes it: dividing by
zero raises nothing and gives `NaN` or an infinity. -/
def jsDivide (a b : Int) : JSNumber :=
  if b = 0 then
    if a = 0 then JSNumber.nan
    else if 0 < a then JSNumber.posInfinity
    else JSNumber.negInfinity
  else JSNumber.finite ((a : ℚ) / (b : ℚ))

/-- The call `Math.max(...xs)`; `none` stands for `-Infinity`, the value for
no argument. -/
def maxOfList : List Int → Option Int
  | [] => none
  | x :: xs => some (xs.foldl max x)

/-- Value returned by `calculateMetrics`. -/
structure Metrics where
  averageWaitingTime : JSNumber
  averageTurnaroundTime : JSNumber
  cpuUtilization : JSNumber
  throughput : JSNumber
  totalProcesses : Nat
  totalExecutionTime : JSNumber
deriving DecidableEq

/-- Embedding of `calculateMetrics`; `p.waitingTime || 0` reads a missing
value as `0`. -/
def calculateMetrics (results : List ProcessRecord) : Metrics :=
  let totalWaitingTime := results.foldl (fun sum p => sum + p.waitingTime.getD 0) (0 : Int)
  let totalTurnaroundTime := results.foldl (fun sum p => sum + p.turnaroundTime.getD 0) (0 : Int)
  let totalBurstTime := results.foldl (fun sum p => sum + p.burstTime) (0 : Int)
  let totalTime := maxOfList (results.map fun p => p.finishTime.getD 0)
  { averageWaitingTime := jsDivide totalWaitingTime results.length,
    averageTurnaroundTime := jsDivide totalTurnaroundTime results.length,
    cpuUtilization :=
      match totalTime with
      | some t =>
        if 0 < t then JSNumber.finite (((totalBurstTime : ℚ) / (t : ℚ)) * 100)
        else JSNumber.finite 0
      | none => JSNumber.finite 0,
    throughput :=
      match totalTime with
      | some t =>
        if 0 < t then JSNumber.finite ((results.length : ℚ) / (t : ℚ))
        else JSNumber.finite 0
      | none => JSNumber.finite 0,
    totalProcesses := results.length,
    totalExecutionTime :=
      match totalTime with
      | some t => JSNumber.finite (t : ℚ)
      | none => JSNumber.negInfinity }

/-! ## Deadlock detection on the fixed dataset -/

/-- The `metrics` object built by `executeDeadlockDetection`. -/
structure DeadlockMetrics where
  totalProcesses : Nat
  deadlockedProcesses : Nat
  safeProcesses : Int
deriving DecidableEq, Repr

/-- Result envelope of `executeDeadlockDetection`. -/
structure DeadlockOutput where
  algorithm : String
  allocation : List (List Int)
  request : List (List Int)
  available : List Int
  deadlocked : Bool
  deadlockedProcesses : List Nat
  results : List ProcessRecord
  metrics : DeadlockMetrics
deriving DecidableEq, Repr

/-- Embedding of `executeDeadlockDetection`: the matrices are the constants
of the function, the process list only supplies the records to decorate. -/
def executeDeadlockDetection (processes : List ProcessRecord) : Option DeadlockOutput :=
  let allocation : List (List Int) := [[0, 1, 0], [2, 0, 0], [3, 0, 2], [2, 1, 1], [0, 0, 2]]
  let request : List (List Int) := [[0, 0, 0], [2, 0, 2], [0, 0, 0], [1, 0, 0], [0, 0, 2]]
  let available : List Int := [3, 3, 2]
  (detectDeadlock allocation request available).map fun deadlockResult =>
    { algorithm := "Deadlock Detection",
      allocation := allocation,
      request := request,
      available := available,
      deadlocked := deadlockResult.deadlocked,
      deadlockedProcesses := deadlockResult.deadlockedProcesses,
      results := processes.enum.map fun ip =>
        { ip.2 with
          status := if deadlockResult.deadlockedProcesses.contains ip.1
                    then Status.Deadlocked else Status.Safe },
      metrics :=
        { totalProcesses := processes.length,
          deadlockedProcesses := deadlockResult.deadlockedProcesses.length,
          safeProcesses :=
            (processes.length : Int) - (deadlockResult.deadlockedProcesses.length : Int) } }

/-! ## Validation of the form data -/

/-- The values of the operation selector (`currentOperation`). -/
inductive Operation where
  | fcfs
  | sjf
  | srtf
  | rr
  | priority
  | firstfit
  | bestfit
  | worstfit
  | detection
deriving DecidableEq, Repr

/-- The object built by `gatherProcessData`.  A text field is `none` when the
form has no such input; a number field is `none` when `parseFloat` gave `NaN`
or the form has no such input (`isNaN` is true in both cases). -/
structure FormData where
  processName : Option String
  arrivalTime : Option Int
  burstTime : Option Int
  priority : Option Int
  memorySize : Option Int
  resourcesHeld : Option String
  resourcesRequested : Option String
deriving DecidableEq, Repr

/-- White space and line terminators of ECMAScript, the characters that
`String.prototype.trim` removes. -/
def isJSWhiteSpace (c : Char) : Bool :=
  c.val = 0x0009 || c.val = 0x000A || c.val = 0x000B || c.val = 0x000C || c.val = 0x000D ||
  c.val = 0x0020 || c.val = 0x00A0 || c.val = 0x1680 ||
  (0x2000 ≤ c.val && c.val ≤ 0x200A) ||
  c.val = 0x2028 || c.val = 0x2029 || c.val = 0x202F || c.val = 0x205F ||
  c.val = 0x3000 || c.val = 0xFEFF

/-- The method `trim` of a text: white space is removed at both ends. -/
def jsTrim (s : String) : String :=
  String.mk ((s.data.dropWhile isJSWhiteSpace).reverse.dropWhile isJSWhiteSpace).reverse

/-- Truthiness of a text value: `undefined` and the empty text are falsy. -/
def truthy : Option String → Bool
  | none => false
  | some s => decide (s ≠ "")

/-- The test `isNaN(x) || bad(x)` on a number field. -/
def nanOr (x : Option Int) (bad : Int → Bool) : Bool :=
  match x with
  | none => true
  | some v => bad v

/-- Embedding of `validateProcessData`, for the operation selected in the
form; the answer is the truthiness of the returned value. -/
def validateProcessData (currentOperation : Operation) (data : FormData) : Bool :=
  if truthy data.processName = false ∨ jsTrim (data.processName.getD "") = "" then false
  else if currentOperation = Operation.detection then
    truthy data.resourcesHeld && truthy data.resourcesRequested
  else if nanOr data.arrivalTime (fun v => decide (v < 0)) then false
  else if nanOr data.burstTime (fun v => decide (v ≤ 0)) then false
  else
    match currentOperation with
    | Operation.priority =>
      if nanOr data.priority (fun v => decide (v < 1) || decide (v > 10)) then false else true
    | Operation.firstfit | Operation.bestfit | Operation.worstfit =>
      if nanOr data.memorySize (fun v => decide (v ≤ 0)) then false else true
    | _ => true

/-- The field `metrics` of a scheduling result: `calculateMetrics(results)`. -/
def ScheduleOutput.metrics (out : ScheduleOutput) : Metrics :=
  calculateMetrics out.results

/-! ## The number arithmetic of the code on fractional times

`gatherProcessData` reads the number fields with `parseFloat`, so a time may
be a fraction such as `0.1`, and the code then adds and subtracts IEEE 754
double precision numbers, rounding every result to the nearest double.  On
integers up to `2 ^ 53` these operations are exact and are the operations of
`Int` used above.  This section embeds the rounding arithmetic and, with it,
`executeFCFS`, `executeRoundRobin` and the utilization of `calculateMetrics`
once more, for runs on fractional times.

Every finite double is an integer multiple of `2 ^ (-1074)`.  In this section
a number is held as that integer, its count of units: the number `1` is
`2 ^ 1074`.  Comparisons, `Math.max` and `Math.min` of two numbers are those of
their counts.  Overflow to `Infinity` (results of `2 ^ 1024` and more) and the
sign of zero are not modelled. -/

namespace Binary64

/-- Count of units of the number `1`. -/
def unitsOfOne : Nat := 2 ^ 1074

/-- Number of binary digits of `n`, counted by halving `n` at most `steps`
times. -/
def bitLengthAux : Nat → Nat → Nat
  | 0, _ => 0
  | steps + 1, n => if n = 0 then 0 else bitLengthAux steps (n / 2) + 1

/-- Number of binary digits of `n`. -/
def bitLength (n : Nat) : Nat := bitLengthAux n n

/-- The integer nearest to the fraction `n / d`; of two nearest integers, the
even one. -/
def roundHalfEven (n d : Nat) : Nat :=
  let q := n / d
  let r := n % d
  if 2 * r < d then q
  else if d < 2 * r then q + 1
  else if q % 2 = 0 then q else q + 1

/-- The double nearest to `n / d` units (round to nearest, ties to even): a
double has at most 53 significant binary digits, so the digits of `n / d`
beyond the first 53 are rounded away. -/
def roundNat (n d : Nat) : Nat :=
  let e := bitLength (n / d) - 53
  roundHalfEven n (d * 2 ^ e) * 2 ^ e

/-- The double nearest to `n / d` units, for any sign of `n`. -/
def round (n : Int) (d : Nat) : Int :=
  if 0 ≤ n then (roundNat n.toNat d : Int) else -(roundNat (-n).toNat d : Int)

/-- The sum `a + b` of two numbers. -/
def add (a b : Int) : Int := round (a + b) 1

/-- The difference `a - b` of two numbers. -/
def sub (a b : Int) : Int := round (a - b) 1

/-- The product `a * b` of two numbers. -/
def mul (a b : Int) : Int := round (a * b) unitsOfOne

/-- The quotient `a / b` of two numbers, `b` not zero. -/
def div (a b : Int) : Int :=
  if 0 ≤ b then round (a * unitsOfOne) b.toNat else round (-(a * unitsOfOne)) (-b).toNat

/-- The integer literal `k`. -/
def ofInt (k : Int) : Int := round (k * unitsOfOne) 1

/-- The value `parseFloat` gives for the decimal text of the fraction `n / d`:
the double nearest to it. -/
def ofDecimal (n : Int) (d : Nat) : Int := round (n * unitsOfOne) d

/-- Comparator `(a, b) => a.arrivalTime - b.arrivalTime`. -/
def compareArrival (a b : ProcessRecord) : Int := sub a.arrivalTime b.arrivalTime

/-- One insertion of the stable sort under `compareArrival`. -/
def insertByArrival (p : ProcessRecord) : List ProcessRecord → List ProcessRecord
  | [] => [p]
  | q :: qs =>
    if compareArrival p q ≤ 0 then p :: q :: qs else q :: insertByArrival p qs

/-- The call `[...processes].sort((a, b) => a.arrivalTime - b.arrivalTime)`. -/
def sortByArrival : List ProcessRecord → List ProcessRecord
  | [] => []
  | p :: ps => insertByArrival p (sortByArrival ps)

/-- Body of the `forEach` of `executeFCFS` in the rounding arithmetic. -/
def fcfsLoop : List ProcessRecord → Int → List TimelineEntry → List ProcessRecord →
    List TimelineEntry × List ProcessRecord
  | [], _, schedule, results => (schedule, results)
  | process :: rest, currentTime, schedule, results =>
    let startTime := max currentTime process.arrivalTime
    let finishTime := add startTime process.burstTime
    let waitingTime := sub startTime process.arrivalTime
    let turnaroundTime := sub finishTime process.arrivalTime
    fcfsLoop rest finishTime
      (schedule ++ [{ process := process.processName, start := startTime,
                      finish := finishTime, color := getProcessColor process.id }])
      (results ++ [{ process with
                      startTime := some startTime, finishTime := some finishTime,
                      waitingTime := some waitingTime,
                      turnaroundTime := some turnaroundTime,
                      status := Status.Completed }])

/-- Embedding of `executeFCFS` in the rounding arithmetic. -/
def executeFCFS (processes : List ProcessRecord) : ScheduleOutput :=
  let sortedProcesses := sortByArrival processes
  let out := fcfsLoop sortedProcesses 0 [] []
  { algorithm := "First Come First Serve (FCFS)", schedule := out.1, results := out.2 }

/-- The fixed quantum `3` of `executeRoundRobin`. -/
def quantum : Int := ofInt 3

/-- The loop `while (completed.length < processes.length)` of
`executeRoundRobin` in the rounding arithmetic. -/
def rrLoop (total : Nat) : Nat → RRState → Option RRState
  | fuel, st =>
    if st.completed.length < total then
      match st.readyQueue with
      | [] => some st
      | head :: rest =>
        match fuel with
        | 0 => none
        | fuel + 1 =>
          let current := markStarted st.currentTime head
          let executeTime := min quantum current.remainingTime
          let schedule := st.schedule ++
            [(current.owner,
              { process := current.proc.processName, start := st.currentTime,
                finish := add st.currentTime executeTime,
                color := getProcessColor current.proc.id })]
          let remainingTime := sub current.remainingTime executeTime
          let currentTime := add st.currentTime executeTime
          if remainingTime > 0 then
            let requeued : RRItem := { current with remainingTime := remainingTime }
            rrLoop total fuel
              { currentTime := currentTime, readyQueue := rest ++ [requeued],
                completed := st.completed, schedule := schedule, results := st.results }
          else
            let finished : ProcessRecord := { current.proc with finishTime := some currentTime }
            let waitingTime := sub (sub currentTime finished.arrivalTime) finished.burstTime
            let turnaroundTime := sub currentTime finished.arrivalTime
            let done : RRItem :=
              { owner := current.owner, proc := finished, remainingTime := remainingTime }
            let result : ProcessRecord :=
              { finished with waitingTime := some waitingTime,
                              turnaroundTime := some turnaroundTime,
                              status := Status.Completed }
            rrLoop total fuel
              { currentTime := currentTime, readyQueue := rest,
                completed := st.completed ++ [done], schedule := schedule,
                results := st.results ++ [result] }
    else some st

/-- Step budget of the round robin loop on fractional times: one slice per
started quantum of every burst time, and one more.  (A burst time so large
that subtracting the quantum is rounded away would need more.) -/
def rrFuel (processes : List ProcessRecord) : Nat :=
  (processes.map fun p => (p.burstTime / quantum).toNat + 2).sum

/-- The run of the loop of `executeRoundRobin` from its initial state. -/
def roundRobinRun (processes : List ProcessRecord) : Option RRState :=
  rrLoop processes.length (rrFuel processes)
    { currentTime := 0, readyQueue := processQueue processes, completed := [],
      schedule := [], results := [] }

/-- Embedding of `executeRoundRobin` in the rounding arithmetic. -/
def executeRoundRobin (processes : List ProcessRecord) : Option ScheduleOutput :=
  (roundRobinRun processes).map fun st =>
    { algorithm := "Round Robin (Quantum = 3)",
      schedule := st.schedule.map Prod.snd, results := st.results }

/-- The value `totalBurstTime` of `calculateMetrics`:
`results.reduce((sum, p) => sum + p.burstTime, 0)`. -/
def totalBurstTime (results : List ProcessRecord) : Int :=
  results.foldl (fun sum p => add sum p.burstTime) 0

/-- The value `totalTime` of `calculateMetrics`:
`Math.max(...results.map(p => p.finishTime || 0))`, `none` for `-Infinity`. -/
def totalTime (results : List ProcessRecord) : Option Int :=
  maxOfList (results.map fun p => p.finishTime.getD 0)

/-- The expression `(totalBurstTime / totalTime) * 100` of `calculateMetrics`. -/
def utilizationOf (totalBurstTime totalTime : Int) : Int :=
  mul (div totalBurstTime totalTime) (ofInt 100)

/-- The field `cpuUtilization` of `calculateMetrics` before `toFixed(1)`:
`totalTime > 0 ? (totalBurstTime / totalTime) * 100 : 0`. -/
def cpuUtilization (results : List ProcessRecord) : Int :=
  match totalTime results with
  | some t => if 0 < t then utilizationOf (totalBurstTime results) t else 0
  | none => 0

end Binary64

/-! ## Auxiliary definitions used by the statements and proofs -/

/-- A record as the schedulers decorate it when it is started at `startTime`. -/
def completedAt (startTime : Int) (p : ProcessRecord) : ProcessRecord :=
  { p with startTime := some startTime,
           finishTime := some (startTime + p.burstTime),
           waitingTime := some (startTime - p.arrivalTime),
           turnaroundTime := some (startTime + p.burstTime - p.arrivalTime),
           status := Status.Completed }

/-- The timeline entry pushed for a record started at `startTime`. -/
def sliceAt (startTime : Int) (p : ProcessRecord) : TimelineEntry :=
  { process := p.processName, start := startTime,
    finish := startTime + p.burstTime, color := getProcessColor p.id }

/-- The entries that `fcfsLoop` appends to `results`, front to back. -/
def fcfsResults : Int → List ProcessRecord → List ProcessRecord
  | _, [] => []
  | t, p :: ps =>
    completedAt (max t p.arrivalTime) p :: fcfsResults (max t p.arrivalTime + p.burstTime) ps

/-- The entries that `fcfsLoop` appends to `schedule`, front to back. -/
def fcfsSchedule : Int → List ProcessRecord → List TimelineEntry
  | _, [] => []
  | t, p :: ps =>
    sliceAt (max t p.arrivalTime) p :: fcfsSchedule (max t p.arrivalTime + p.burstTime) ps

/-- The clock before the `k`-th of a list of results, for a clock that
starts at `t`. -/
def clockFrom (t : Int) (results : List ProcessRecord) : Nat → Int
  | 0 => t
  | k + 1 => (results[k]?.bind (fun r => r.finishTime)).getD 0

/-- The sample process list of `getSampleDataForOperation`. -/
def sampleProcesses : List ProcessRecord :=
  [ { id := 1, processName := "P1", arrivalTime := 0, burstTime := 6, priority := 2,
      memorySize := 25, status := Status.Ready, startTime := none, finishTime := none,
      waitingTime := none, turnaroundTime := none, allocatedPosition := none },
    { id := 2, processName := "P2", arrivalTime := 1, burstTime := 4, priority := 1,
      memorySize := 15, status := Status.Ready, startTime := none, finishTime := none,
      waitingTime := none, turnaroundTime := none, allocatedPosition := none },
    { id := 3, processName := "P3", arrivalTime := 2, burstTime := 8, priority := 3,
      memorySize := 35, status := Status.Ready, startTime := none, finishTime := none,
      waitingTime := none, turnaroundTime := none, allocatedPosition := none },
    { id := 4, processName := "P4", arrivalTime := 3, burstTime := 3, priority := 2,
      memorySize := 20, status := Status.Ready, startTime := none, finishTime := none,
      waitingTime := none, turnaroundTime := none, allocatedPosition := none },
    { id := 5, processName := "P5", arrivalTime := 4, burstTime := 5, priority := 4,
      memorySize := 30, status := Status.Ready, startTime := none, finishTime := none,
      waitingTime := none, turnaroundTime := none, allocatedPosition := none } ]

/-- The run of a selection scheduler (`executeSJF`, `executePriority`) as the
specification words it.  `SelectionTrace key clock notYetRun results` says:
`results` is obtained from the processes `notYetRun` (kept in input order),
with `clock` the previous finish time (`0` initially), by starting one
process after the other, where the next process `p` starts at `t` such that

* `t` is `clock` if some not-yet-run process has arrived by `clock`, and the
  minimum arrival time among the not-yet-run processes otherwise;
* `p` has arrived by `t`;
* `p` has the smallest key among the not-yet-run processes arrived by `t`;
* no process before `p` in input order, arrived by `t`, has the same key;

and the remaining processes are run the same way from the finish time
`t + p.burstTime` of `p`. -/
inductive SelectionTrace (key : ProcessRecord → Int) :
    Int → List ProcessRecord → List ProcessRecord → Prop where
  | done (clock : Int) : SelectionTrace key clock [] []
  | run (clock t : Int) (notYetRun : List ProcessRecord) (i : Nat) (p : ProcessRecord)
      (later : List ProcessRecord)
      (hstart : ((∃ q ∈ notYetRun, q.arrivalTime ≤ clock) ∧ t = clock) ∨
        ((∀ q ∈ notYetRun, clock < q.arrivalTime) ∧
          (∃ q ∈ notYetRun, q.arrivalTime = t) ∧ ∀ q ∈ notYetRun, t ≤ q.arrivalTime))
      (hselected : notYetRun[i]? = some p)
      (harrived : p.arrivalTime ≤ t)
      (hsmallest : ∀ q ∈ notYetRun, q.arrivalTime ≤ t → key p ≤ key q)
      (hearliest : ∀ (j : Nat) (q : ProcessRecord), j < i → notYetRun[j]? = some q →
        q.arrivalTime ≤ t → key p < key q)
      (hlater : SelectionTrace key (t + p.burstTime) (notYetRun.eraseIdx i) later) :
      SelectionTrace key clock notYetRun (completedAt t p :: later)

/-- The timeline entry that goes with a result of a scheduler. -/
def sliceOfResult (r : ProcessRecord) : TimelineEntry :=
  { process := r.processName, start := r.startTime.getD 0,
    finish := r.finishTime.getD 0, color := getProcessColor r.id }

/-- The timeline entry pushed for the queue element `c` at time `t`. -/
def rrSlice (t : Int) (c : RRItem) : Nat × TimelineEntry :=
  ((markStarted t c).owner,
   { process := (markStarted t c).proc.processName, start := t,
     finish := t + min quantum (markStarted t c).remainingTime,
     color := getProcessColor (markStarted t c).proc.id })

/-- The queue element `c` as it is put back after a slice at time `t`. -/
def rrRequeued (t : Int) (c : RRItem) : RRItem :=
  { markStarted t c with
    remainingTime := (markStarted t c).remainingTime
      - min quantum (markStarted t c).remainingTime }

/-- The record of `c` when its slice at time `t` completes it:
`current.finishTime = currentTime`. -/
def rrFinished (t : Int) (c : RRItem) : ProcessRecord :=
  { (markStarted t c).proc with
    finishTime := some (t + min quantum (markStarted t c).remainingTime) }

/-- The queue element `c` as it is put into `completed` after its last slice. -/
def rrDone (t : Int) (c : RRItem) : RRItem :=
  { owner := (markStarted t c).owner, proc := rrFinished t c,
    remainingTime := (markStarted t c).remainingTime
      - min quantum (markStarted t c).remainingTime }

/-- The result pushed when the slice of `c` at time `t` completes it. -/
def rrResult (t : Int) (c : RRItem) : ProcessRecord :=
  { rrFinished t c with
    waitingTime := some (t + min quantum (markStarted t c).remainingTime
      - (rrFinished t c).arrivalTime - (rrFinished t c).burstTime),
    turnaroundTime := some (t + min quantum (markStarted t c).remainingTime
      - (rrFinished t c).arrivalTime),
    status := Status.Completed }

/-- The passes of the round robin loop from clock `t` and ready queue `q`,
as a relation: the third argument lists the timeline entries pushed (with
their owners), the fourth the results pushed. -/
inductive RRTrace : Int → List RRItem → List (Nat × TimelineEntry) →
    List ProcessRecord → Prop where
  | done (t : Int) : RRTrace t [] [] []
  | again (t : Int) (c : RRItem) (rest : List RRItem) (sl : List (Nat × TimelineEntry))
      (rs : List ProcessRecord)
      (hmore : c.remainingTime - min quantum c.remainingTime > 0)
      (hrest : RRTrace (t + min quantum c.remainingTime) (rest ++ [rrRequeued t c]) sl rs) :
      RRTrace t (c :: rest) (rrSlice t c :: sl) rs
  | finished (t : Int) (c : RRItem) (rest : List RRItem)
      (sl : List (Nat × TimelineEntry)) (rs : List ProcessRecord)
      (hdone : ¬ c.remainingTime - min quantum c.remainingTime > 0)
      (hrest : RRTrace (t + min quantum c.remainingTime) rest sl rs) :
      RRTrace t (c :: rest) (rrSlice t c :: sl) (rrResult t c :: rs)

/-- Budget needed by the round robin loop for a ready queue. -/
def rrMeasure (q : List RRItem) : Nat :=
  (q.map fun c => c.remainingTime.toNat + 1).sum

/-- Length of a timeline entry. -/
def TimelineEntry.duration (e : TimelineEntry) : Int := e.finish - e.start

/-- Time executed for the process `owner` by the first `k` timeline entries. -/
def executedBefore (sl : List (Nat × TimelineEntry)) (owner k : Nat) : Int :=
  (((sl.take k).filter fun x => decide (x.1 = owner)).map fun x => x.2.duration).sum

/-- A timeline whose entries follow one another without gap from time `t`. -/
def contiguousFrom : Int → List TimelineEntry → Prop
  | _, [] => True
  | t, e :: es => e.start = t ∧ contiguousFrom e.finish es

/-- Every input process has exactly one entry in `results` (same id, name,
arrival time, burst time, priority and memory size), and every entry has
status `Completed` and a finish time. -/
def EveryProcessCompleted (processes results : List ProcessRecord) : Prop :=
  (results.map ProcessRecord.inputFields).Perm (processes.map ProcessRecord.inputFields) ∧
  ∀ r ∈ results, r.status = Status.Completed ∧ ∃ f : Int, r.finishTime = some f

/-- The derived times of a result: `turnaroundTime = finishTime - arrivalTime`
and `waitingTime = turnaroundTime - burstTime`. -/
def TimesConsistent (r : ProcessRecord) : Prop :=
  ∃ f ta w : Int, r.finishTime = some f ∧ r.turnaroundTime = some ta ∧
    r.waitingTime = some w ∧ ta = f - r.arrivalTime ∧ w = ta - r.burstTime

/-- Units of resource `r` held in total by the processes of `seq`. -/
def heldBy (allocation : List (List Int)) (seq : List Nat) (r : Nat) : Int :=
  (seq.map fun p => (allocation.getD p []).getD r 0).sum

/-- A sequence of distinct processes in which every process finds its whole
request within `available` plus the allocations of the processes before it. -/
def SafeSequence (allocation request : List (List Int)) (available : List Int)
    (seq : List Nat) : Prop :=
  seq.Nodup ∧ (∀ p ∈ seq, p < allocation.length) ∧
  ∀ (j p : Nat), seq[j]? = some p → ∀ r < available.length,
    (request.getD p []).getD r 0 ≤ available.getD r 0 + heldBy allocation (seq.take j) r

/-- Invariant of `detectDeadlock`: `order` lists the processes finished so
far in the order they were finished, and `work` is `available` plus what they
held. -/
def DetectInv (allocation request : List (List Int)) (available : List Int)
    (work : List Int) (finish : List Bool) (order : List Nat) : Prop :=
  work.length = available.length ∧ finish.length = allocation.length ∧
  (∀ i, i ∈ order ↔ finish.getD i false = true) ∧
  (∀ r < available.length, work.getD r 0 = available.getD r 0 + heldBy allocation order r) ∧
  SafeSequence allocation request available order

/-- The `allocation` matrix of `executeDeadlockDetection`. -/
def sampleAllocation : List (List Int) :=
  [[0, 1, 0], [2, 0, 0], [3, 0, 2], [2, 1, 1], [0, 0, 2]]

/-- The `request` matrix of `executeDeadlockDetection`. -/
def sampleRequest : List (List Int) :=
  [[0, 0, 0], [2, 0, 2], [0, 0, 0], [1, 0, 0], [0, 0, 2]]

/-- The `available` vector of `executeDeadlockDetection`. -/
def sampleAvailable : List Int := [3, 3, 2]

/-! ### Predicates on the memory array -/

/-- A block of `size` cells fits at offset `p`: it ends within the memory and
all its cells are free. -/
def FitsAt (memory : List Nat) (size : Int) (p : Nat) : Prop :=
  (p : Int) + size ≤ totalMemory ∧
  ∀ j : Nat, p ≤ j → (j : Int) < p + size → memory[j]? = some 0

/-- A maximal free run: `len` free cells from offset `start`, bounded on both
sides by an allocated cell or an end of the memory. -/
def IsFreeRun (memory : List Nat) (start len : Nat) : Prop :=
  0 < len ∧ start + len ≤ totalMemory ∧
  (∀ j, start ≤ j → j < start + len → memory[j]? = some 0) ∧
  (start = 0 ∨ memory[start - 1]? ≠ some 0) ∧
  ¬ (start + len < totalMemory ∧ memory[start + len]? = some 0)

/-- The free runs met by the scans of `executeBestFit` and `executeWorstFit`
from index `i` on, as pairs `(start, blockSize)`. -/
def freeRuns (memory : List Nat) : Nat → Nat → List (Nat × Nat)
  | 0, _ => []
  | fuel + 1, i =>
    if i < totalMemory then
      if memory[i]? = some 0 then
        (i, freeBlockSize memory (totalMemory - i) i) ::
          freeRuns memory fuel (i + freeBlockSize memory (totalMemory - i) i)
      else freeRuns memory fuel (i + 1)
    else []

/-- What one free run does to `bestPosition` and `bestSize` in `executeBestFit`. -/
def bestUpdate (memorySize : Int) (st : Int × Option Nat) (run : Nat × Nat) :
    Int × Option Nat :=
  if (run.2 : Int) ≥ memorySize ∧ belowBest run.2 st.2 = true then
    ((run.1 : Int), some run.2)
  else st

/-- What one free run does to `worstPosition` and `worstSize` in `executeWorstFit`. -/
def worstUpdate (memorySize : Int) (st : Int × Int) (run : Nat × Nat) : Int × Int :=
  if (run.2 : Int) ≥ memorySize ∧ (run.2 : Int) > st.2 then ((run.1 : Int), (run.2 : Int))
  else st

/-- No free run crosses index `i`: the scans only stand at such indices. -/
def ScanBoundary (memory : List Nat) (i : Nat) : Prop :=
  i = 0 ∨ memory[i - 1]? ≠ some 0 ∨ ¬ (i < totalMemory ∧ memory[i]? = some 0)

/-- The state `(bestPosition, bestSize)` of the best fit scan is right for
the free runs `seen` so far. -/
def BestValid (memorySize : Int) (seen : List (Nat × Nat)) (st : Int × Option Nat) : Prop :=
  ((∀ x ∈ seen, ¬ memorySize ≤ (x.2 : Int)) ∧ st = (-1, none)) ∨
  ∃ x ∈ seen, st = ((x.1 : Int), some x.2) ∧ memorySize ≤ (x.2 : Int) ∧
    ∀ y ∈ seen, memorySize ≤ (y.2 : Int) → x.2 ≤ y.2 ∧ (y.2 = x.2 → x.1 ≤ y.1)

/-- The state `(worstPosition, worstSize)` of the worst fit scan is right for
the free runs `seen` so far. -/
def WorstValid (memorySize : Int) (seen : List (Nat × Nat)) (st : Int × Int) : Prop :=
  ((∀ x ∈ seen, ¬ memorySize ≤ (x.2 : Int)) ∧ st = (-1, -1)) ∨
  ∃ x ∈ seen, st = ((x.1 : Int), (x.2 : Int)) ∧ memorySize ≤ (x.2 : Int) ∧
    ∀ y ∈ seen, memorySize ≤ (y.2 : Int) → y.2 ≤ x.2 ∧ (y.2 = x.2 → x.1 ≤ y.1)

/-- The regions of two records do not overlap when both are `Allocated`. -/
def RegionsDisjoint (r₁ r₂ : ProcessRecord) : Prop :=
  r₁.status = Status.Allocated → r₂.status = Status.Allocated →
  ∃ p₁ p₂ : Int, r₁.allocatedPosition = some p₁ ∧ r₂.allocatedPosition = some p₂ ∧
    (p₁ + r₁.memorySize ≤ p₂ ∨ p₂ + r₂.memorySize ≤ p₁)

/-- Every `Allocated` record lies within the memory, and the regions of any
two distinct `Allocated` records do not overlap. -/
def SeparateRegions (allocations : List ProcessRecord) : Prop :=
  (∀ r ∈ allocations, r.status = Status.Allocated →
    ∃ p : Int, r.allocatedPosition = some p ∧ 0 ≤ p ∧ p + r.memorySize ≤ totalMemory) ∧
  ∀ (i j : Nat) (r₁ r₂ : ProcessRecord), i ≠ j →
    allocations[i]? = some r₁ → allocations[j]? = some r₂ → RegionsDisjoint r₁ r₂

/-- Invariant of the allocation loops: the cells of every allocated region
are occupied, and the regions are pairwise disjoint. -/
def AllocInv (memory : List Nat) (allocations : List ProcessRecord) : Prop :=
  memory.length = totalMemory ∧
  (∀ r ∈ allocations, r.status = Status.Allocated →
    ∃ p : Nat, r.allocatedPosition = some (p : Int) ∧
      (p : Int) + r.memorySize ≤ totalMemory ∧ 0 < r.memorySize ∧
      ∀ j : Nat, p ≤ j → (j : Int) < p + r.memorySize → memory[j]? ≠ some 0) ∧
  allocations.Pairwise RegionsDisjoint

/-! ## Auxiliary definitions for the metrics, the examples and the allocation frame -/

/-- The process list P1 (arrival 0, burst 6), P2 (arrival 1, burst 4): the
first two sample processes. -/
def twoProcesses : List ProcessRecord :=
  [ { id := 1, processName := "P1", arrivalTime := 0, burstTime := 6, priority := 2,
      memorySize := 25, status := Status.Ready, startTime := none, finishTime := none,
      waitingTime := none, turnaroundTime := none, allocatedPosition := none },
    { id := 2, processName := "P2", arrivalTime := 1, burstTime := 4, priority := 1,
      memorySize := 15, status := Status.Ready, startTime := none, finishTime := none,
      waitingTime := none, turnaroundTime := none, allocatedPosition := none } ]

/-- The timeline as triples of process name, start and finish. -/
def timelineSpans (out : ScheduleOutput) : List (String × Int × Int) :=
  out.schedule.map fun e => (e.process, e.start, e.finish)

/-- The placement of every process of an allocation run: offset and status. -/
def placements (out : AllocationOutput) : List (Option Int × Status) :=
  out.allocations.map fun r => (r.allocatedPosition, r.status)

/-- The clock after the run that produced `results`, for a clock that starts
at `clock`: the finish time of the last scheduled process. -/
def finalClock : Int → List ProcessRecord → Int
  | clock, [] => clock
  | _, r :: rs => finalClock (r.finishTime.getD 0) rs

/-- The idle gaps of a run: for every result, its start time minus the
finish time of the result before it (minus `clock` for the first). -/
def idleGaps : Int → List ProcessRecord → List Int
  | _, [] => []
  | clock, r :: rs => (r.startTime.getD 0 - clock) :: idleGaps (r.finishTime.getD 0) rs

/-- A single process that arrives at time 5 with burst 2. -/
def lateProcess : List ProcessRecord :=
  [ { id := 1, processName := "P1", arrivalTime := 5, burstTime := 2, priority := 1,
      memorySize := 10, status := Status.Ready, startTime := none, finishTime := none,
      waitingTime := none, turnaroundTime := none, allocatedPosition := none } ]

/-- The frame property of an allocation run `run`: the run on `ps` followed by
`qs` returns with one entry per process in input order, its first `|ps|`
entries are the entries of the run on `ps` alone, and every memory cell owned
after the run on `ps` alone (a cell holding a non-zero value, the 1-based index
of its process) holds the same value after the run on `ps` followed by `qs`. -/
def NeverBacktracks (run : List ProcessRecord → Option AllocationOutput)
    (ps qs : List ProcessRecord) : Prop :=
  ∃ out₁ out₂ : AllocationOutput, run ps = some out₁ ∧ run (ps ++ qs) = some out₂ ∧
    out₁.allocations.map ProcessRecord.inputFields = ps.map ProcessRecord.inputFields ∧
    out₂.allocations.map ProcessRecord.inputFields =
      (ps ++ qs).map ProcessRecord.inputFields ∧
    out₂.allocations.take ps.length = out₁.allocations ∧
    ∀ (j v : Nat), out₁.memory[j]? = some v → v ≠ 0 → out₂.memory[j]? = some v

/-- Index `i` starts a free run: the cell is free and it is the first cell or
the cell before it is not free. -/
def isRunStart (memory : List Nat) (i : Nat) : Bool :=
  decide (memory[i]? = some 0 ∧ (i = 0 ∨ memory[i - 1]? ≠ some 0))

/-- Body of the `forEach` of `calculateFragmentation` on the pair
`(fragments, inFreeBlock)`. -/
def fragStep (st : Nat × Bool) (block : Nat) : Nat × Bool :=
  if block = 0 ∧ st.2 = false then (st.1 + 1, true)
  else if block ≠ 0 then (st.1, false)
  else st

/-- The memory array is an allocated prefix of `k` cells followed by a single
free suffix. -/
def PrefixMemory (memory : List Nat) (k : Nat) : Prop :=
  memory.length = totalMemory ∧ k ≤ totalMemory ∧
  (∀ j < k, ∃ v, memory[j]? = some v ∧ v ≠ 0) ∧
  ∀ j, k ≤ j → j < totalMemory → memory[j]? = some 0

/-- A placement function that, on an allocated prefix of `k` cells and for a
positive size, answers offset `k` when the suffix is large enough and nothing
otherwise. -/
def PlacesPacked (place : List Nat → Int → Option (Option Nat)) : Prop :=
  ∀ (memory : List Nat) (k : Nat) (size : Int), PrefixMemory memory k → 0 < size →
    place memory size = some (if (k : Int) + size ≤ totalMemory then some k else none)

/-- A result set of one record whose finish time is `0`. -/
def zeroFinishResults : List ProcessRecord :=
  [ { id := 1, processName := "P1", arrivalTime := 0, burstTime := 0, priority := 1,
      memorySize := 10, status := Status.Completed, startTime := some 0,
      finishTime := some 0, waitingTime := some 0, turnaroundTime := some 0,
      allocatedPosition := none } ]

/-- The text `name` is there and is not empty after trimming. -/
def NameGiven (name : Option String) : Prop :=
  ∃ s, name = some s ∧ jsTrim s ≠ ""

/-- The text field is there and is not empty. -/
def TextGiven (text : Option String) : Prop :=
  ∃ s, text = some s ∧ s ≠ ""

/-- A single process that arrives at time 10 with burst 1. -/
def arrivesAtTen : List ProcessRecord :=
  [ { id := 1, processName := "P1", arrivalTime := 10, burstTime := 1, priority := 1,
      memorySize := 10, status := Status.Ready, startTime := none, finishTime := none,
      waitingTime := none, turnaroundTime := none, allocatedPosition := none } ]

/-- The form data of the process of `arrivesAtTen`, as typed in under the
operation `rr`. -/
def arrivesAtTenForm : FormData :=
  { processName := some "P1", arrivalTime := some 10, burstTime := some 1,
    priority := none, memorySize := none, resourcesHeld := none,
    resourcesRequested := none }

/-- The loop `while (found)` of `detectDeadlock` with a counter of the
scan-rounds: it runs as `detectLoop` does and answers, next to the final
`finish`, how many times the body of the loop was executed. -/
def detectLoopRounds (allocation request : List (List Int)) (resources : Nat) :
    Nat → List Int → List Bool → Option (List Bool × Nat)
  | 0, _, _ => none
  | fuel + 1, work, finish =>
    let st := scanRound allocation request resources work finish
    if st.found then
      (detectLoopRounds allocation request resources fuel st.work st.finish).map
        fun out => (out.1, out.2 + 1)
    else some (st.finish, 1)

/-- Two processes of which the first can only proceed after the second has
released its unit of the single resource. -/
def chainAllocation : List (List Int) := [[1], [1]]

/-- The requests of the two processes of `chainAllocation`. -/
def chainRequest : List (List Int) := [[1], [0]]

/-- The free units for `chainAllocation`: none. -/
def chainAvailable : List Int := [0]

/-- The value `totalBurstTime` of `calculateMetrics`: the sum of the burst
times of `results`. -/
def totalBurst (results : List ProcessRecord) : Int :=
  results.foldl (fun sum p => sum + p.burstTime) (0 : Int)

/-- The value `totalTime` of `calculateMetrics`: the maximum of the finish
times of `results` (`none` for `-Infinity`). -/
def maxFinish (results : List ProcessRecord) : Option Int :=
  maxOfList (results.map fun p => p.finishTime.getD 0)

/-- The sum of the burst times of `results` is at most their maximum finish
time `m`, and the CPU utilization computed by `calculateMetrics` is the
quotient `totalBurst / m * 100` (before rounding), which is at most `100`; the
same expression evaluated in the rounding arithmetic of the code is at most
the number `100` as well. -/
def UtilizationAtMost100 (results : List ProcessRecord) : Prop :=
  ∃ m : Int, maxFinish results = some m ∧ totalBurst results ≤ m ∧
    (∃ u : ℚ, (calculateMetrics results).cpuUtilization = JSNumber.finite u ∧
      u = (totalBurst results : ℚ) / (m : ℚ) * 100 ∧ u ≤ 100) ∧
    Binary64.utilizationOf (totalBurst results * Binary64.unitsOfOne)
      (m * Binary64.unitsOfOne) ≤ Binary64.ofInt 100

/-- The sum of the burst times of `results` equals their maximum finish time
`m`, and the CPU utilization computed by `calculateMetrics` is the quotient
`totalBurst / m * 100` (before rounding), which is `100`; the same expression
evaluated in the rounding arithmetic of the code is the number `100` as
well. -/
def UtilizationExactly100 (results : List ProcessRecord) : Prop :=
  ∃ m : Int, maxFinish results = some m ∧ totalBurst results = m ∧
    (∃ u : ℚ, (calculateMetrics results).cpuUtilization = JSNumber.finite u ∧
      u = (totalBurst results : ℚ) / (m : ℚ) * 100 ∧ u = 100) ∧
    Binary64.utilizationOf (totalBurst results * Binary64.unitsOfOne)
      (m * Binary64.unitsOfOne) = Binary64.ofInt 100

/-- A single process with arrival time `0.1` and burst time `0.2`, in the
representation of the section on fractional times. -/
def fractionalProcess : List ProcessRecord :=
  [ { id := 1, processName := "P1", arrivalTime := Binary64.ofDecimal 1 10,
      burstTime := Binary64.ofDecimal 2 10, priority := 1,
      memorySize := 10, status := Status.Ready, startTime := none, finishTime := none,
      waitingTime := none, turnaroundTime := none, allocatedPosition := none } ]

/-- Two processes with arrival time `0` and the burst times `0.3` and `3.9`,
in the representation of the section on fractional times. -/
def fractionalBursts : List ProcessRecord :=
  [ { id := 1, processName := "P1", arrivalTime := 0,
      burstTime := Binary64.ofDecimal 3 10, priority := 1,
      memorySize := 10, status := Status.Ready, startTime := none, finishTime := none,
      waitingTime := none, turnaroundTime := none, allocatedPosition := none },
    { id := 2, processName := "P2", arrivalTime := 0,
      burstTime := Binary64.ofDecimal 39 10, priority := 1,
      memorySize := 10, status := Status.Ready, startTime := none, finishTime := none,
      waitingTime := none, turnaroundTime := none, allocatedPosition := none } ]

/-- Times on which the arithmetic of the code is exact: the arrival times are
non-negative integers, the burst times positive integers, and all of them
together sum to at most `2 ^ 53 = 9007199254740992`, so that no sum or
difference the schedulers form leaves the integers that a double holds
exactly. -/
def SafeIntegerTimes (processes : List ProcessRecord) : Prop :=
  (∀ p ∈ processes, 0 ≤ p.arrivalTime ∧ 0 < p.burstTime) ∧
  (processes.map fun p => p.arrivalTime + p.burstTime).sum ≤ 9007199254740992

/-- The finish time of the result `r` is an integer between `0` and `2 ^ 53`. -/
def FinishInSafeRange (r : ProcessRecord) : Prop :=
  ∃ f : Int, r.finishTime = some f ∧ 0 ≤ f ∧ f ≤ 9007199254740992

/-- The processor idles only while no process has arrived.  `results` lists
the runs in the order of their dispatch and `clock` is the finish time of the
run before (`0` initially), so the processes not yet run when `r` is
dispatched are those of `r :: rs`.  If one of them has arrived by `clock`, `r`
starts at `clock`; otherwise all of them arrive after `clock` and `r` starts
at the earliest of their arrival times. -/
def IdleOnlyWhenNoneArrived : Int → List ProcessRecord → Prop
  | _, [] => True
  | clock, r :: rs =>
    (((∃ q ∈ r :: rs, q.arrivalTime ≤ clock) ∧ r.startTime = some clock) ∨
      ((∀ q ∈ r :: rs, clock < q.arrivalTime) ∧
        ∃ s : Int, r.startTime = some s ∧ (∃ q ∈ r :: rs, q.arrivalTime = s) ∧
          ∀ q ∈ r :: rs, s ≤ q.arrivalTime)) ∧
    IdleOnlyWhenNoneArrived (r.finishTime.getD 0) rs

/-- The times of a result as `executeFCFS`, `executeSJF` and `executePriority`
compute them from the start time: `finishTime = startTime + burstTime`,
`waitingTime = startTime - arrivalTime` and
`turnaroundTime = finishTime - arrivalTime`. -/
def StartBasedTimes (r : ProcessRecord) : Prop :=
  ∃ s f : Int, r.startTime = some s ∧ r.finishTime = some f ∧ f = s + r.burstTime ∧
    r.waitingTime = some (s - r.arrivalTime) ∧ r.turnaroundTime = some (f - r.arrivalTime)

/-- The dispatch rule of a run of `executeSJF` or `executePriority` on
`processes`: `results` holds every process once, every process finishes at its
start time plus its burst time, and the processor idles only while no process
has arrived. -/
def DispatchAccount (processes results : List ProcessRecord) : Prop :=
  (results.map ProcessRecord.inputFields).Perm (processes.map ProcessRecord.inputFields) ∧
  (∀ r ∈ results, StartBasedTimes r) ∧
  IdleOnlyWhenNoneArrived 0 results

/-- The clock account of a run of `executeSJF` or `executePriority` on
`processes`: the final clock value is the sum of the burst times plus the sum
of the idle gaps, no idle gap is negative, the final clock is at most
`2 ^ 53`, and when every process arrives at time `0` the final clock is the
sum of the burst times. -/
def ClockAccount (processes results : List ProcessRecord) : Prop :=
  finalClock 0 results =
    (processes.map fun p => p.burstTime).sum + (idleGaps 0 results).sum ∧
  (∀ g ∈ idleGaps 0 results, 0 ≤ g) ∧
  finalClock 0 results ≤ 9007199254740992 ∧
  ((∀ p ∈ processes, p.arrivalTime = 0) →
    finalClock 0 results = (processes.map fun p => p.burstTime).sum)

/-! ## First come first serve: theorems -/

theorem insertByArrival_perm (p : ProcessRecord) (l : List ProcessRecord) :
    (insertByArrival p l).Perm (p :: l) := by
  induction l with
  | nil => simp [insertByArrival]
  | cons q qs ih =>
    unfold insertByArrival
    split
    · exact List.Perm.refl _
    · exact (List.Perm.cons q ih).trans (List.Perm.swap p q qs)

theorem sortByArrival_perm (l : List ProcessRecord) : (sortByArrival l).Perm l := by
  induction l with
  | nil => exact List.Perm.refl _
  | cons p ps ih =>
    exact (insertByArrival_perm p _).trans (List.Perm.cons p ih)

theorem insertByArrival_sorted (p : ProcessRecord) (l : List ProcessRecord)
    (h : l.Pairwise (fun a b => a.arrivalTime ≤ b.arrivalTime)) :
    (insertByArrival p l).Pairwise (fun a b => a.arrivalTime ≤ b.arrivalTime) := by
  induction l with
  | nil => simp [insertByArrival]
  | cons q qs ih =>
    unfold insertByArrival
    rw [List.pairwise_cons] at h
    split
    · rename_i hle
      have hpq : p.arrivalTime ≤ q.arrivalTime := by
        unfold compareArrival at hle; omega
      refine List.Pairwise.cons ?_ (List.Pairwise.cons h.1 h.2)
      intro x hx
      rcases List.mem_cons.1 hx with rfl | hx
      · exact hpq
      · exact le_trans hpq (h.1 x hx)
    · rename_i hle
      have hqp : q.arrivalTime ≤ p.arrivalTime := by
        unfold compareArrival at hle; omega
      refine List.Pairwise.cons ?_ (ih h.2)
      intro x hx
      rcases List.mem_cons.1 ((insertByArrival_perm p qs).subset hx) with rfl | hx
      · exact hqp
      · exact h.1 x hx

theorem sortByArrival_sorted (l : List ProcessRecord) :
    (sortByArrival l).Pairwise (fun a b => a.arrivalTime ≤ b.arrivalTime) := by
  induction l with
  | nil => exact List.Pairwise.nil
  | cons p ps ih => exact insertByArrival_sorted p _ ih

theorem insertByArrival_filter (a : Int) (p : ProcessRecord) (l : List ProcessRecord) :
    (insertByArrival p l).filter (fun x => decide (x.arrivalTime = a)) =
      (p :: l).filter (fun x => decide (x.arrivalTime = a)) := by
  induction l with
  | nil => simp [insertByArrival]
  | cons q qs ih =>
    unfold insertByArrival
    split
    · rfl
    · rename_i hle
      have hne : q.arrivalTime ≠ p.arrivalTime := by
        unfold compareArrival at hle; omega
      rw [List.filter_cons, ih]
      by_cases hq : q.arrivalTime = a
      · have hp : ¬ p.arrivalTime = a := fun hp => hne (hq.trans hp.symm)
        simp [List.filter_cons, hq, hp]
      · simp [List.filter_cons, hq]

theorem sortByArrival_filter (a : Int) (l : List ProcessRecord) :
    (sortByArrival l).filter (fun x => decide (x.arrivalTime = a)) =
      l.filter (fun x => decide (x.arrivalTime = a)) := by
  induction l with
  | nil => rfl
  | cons p ps ih =>
    show (insertByArrival p (sortByArrival ps)).filter _ = _
    rw [insertByArrival_filter, List.filter_cons, List.filter_cons, ih]

theorem fcfsLoop_eq (qs : List ProcessRecord) (t : Int) (s : List TimelineEntry)
    (r : List ProcessRecord) :
    fcfsLoop qs t s r = (s ++ fcfsSchedule t qs, r ++ fcfsResults t qs) := by
  induction qs generalizing t s r with
  | nil => simp [fcfsLoop, fcfsSchedule, fcfsResults]
  | cons p ps ih =>
    simp only [fcfsLoop, fcfsSchedule, fcfsResults, ih, List.append_assoc,
      List.singleton_append]
    rfl

theorem fcfsResults_length (t : Int) (qs : List ProcessRecord) :
    (fcfsResults t qs).length = qs.length := by
  induction qs generalizing t with
  | nil => rfl
  | cons p ps ih => simp [fcfsResults, ih]

theorem fcfsSchedule_length (t : Int) (qs : List ProcessRecord) :
    (fcfsSchedule t qs).length = qs.length := by
  induction qs generalizing t with
  | nil => rfl
  | cons p ps ih => simp [fcfsSchedule, ih]

theorem clockFrom_cons_succ (t t0 : Int) (d : ProcessRecord) (rest : List ProcessRecord)
    (k : Nat) (hd : d.finishTime = some t) :
    clockFrom t0 (d :: rest) (k + 1) = clockFrom t rest k := by
  cases k with
  | zero => simp [clockFrom, hd]
  | succ k => simp [clockFrom]

theorem fcfsResults_get (t : Int) (qs : List ProcessRecord) (k : Nat) (p : ProcessRecord)
    (h : qs[k]? = some p) :
    (fcfsResults t qs)[k]? =
        some (completedAt (max (clockFrom t (fcfsResults t qs) k) p.arrivalTime) p) ∧
      (fcfsSchedule t qs)[k]? =
        some (sliceAt (max (clockFrom t (fcfsResults t qs) k) p.arrivalTime) p) := by
  induction qs generalizing t k with
  | nil => simp at h
  | cons q qs ih =>
    cases k with
    | zero =>
      simp only [List.getElem?_cons_zero, Option.some.injEq] at h
      subst h
      simp [fcfsResults, fcfsSchedule, clockFrom]
    | succ k =>
      simp only [List.getElem?_cons_succ] at h
      have := ih (max t q.arrivalTime + q.burstTime) k h
      simp only [fcfsResults, fcfsSchedule, List.getElem?_cons_succ]
      rw [clockFrom_cons_succ (max t q.arrivalTime + q.burstTime)]
      · exact this
      · rfl

theorem fcfsResults_finish (t : Int) (qs : List ProcessRecord)
    (h : ∀ p ∈ qs, 0 ≤ p.burstTime) :
    ∃ fs : List Int, (fcfsResults t qs).map (fun r => r.finishTime) = fs.map some ∧
      fs.Pairwise (fun a b => a ≤ b) ∧ ∀ f ∈ fs, t ≤ f := by
  induction qs generalizing t with
  | nil => exact ⟨[], rfl, List.Pairwise.nil, by simp⟩
  | cons q qs ih =>
    obtain ⟨fs, hfs, hsorted, hge⟩ :=
      ih (max t q.arrivalTime + q.burstTime) (fun p hp => h p (List.mem_cons_of_mem _ hp))
    have hq := h q (List.mem_cons_self _ _)
    refine ⟨(max t q.arrivalTime + q.burstTime) :: fs, ?_, ?_, ?_⟩
    · simp [fcfsResults, hfs, completedAt]
    · exact List.Pairwise.cons hge hsorted
    · intro f hf
      rcases List.mem_cons.1 hf with rfl | hf
      · have := le_max_left t q.arrivalTime
        omega
      · have := hge f hf
        have := le_max_left t q.arrivalTime
        omega

/-- C1: for every process list with `arrivalTime ≥ 0` and `burstTime > 0`,
`executeFCFS` lists its results and its timeline along a rearrangement
`sorted` of the input that is ascending in `arrivalTime` and keeps processes of
equal arrival in their input order; with the clock at `0` before the first
process and at the finish time of the previous result afterwards, the `k`-th
process starts at `max clock arrivalTime` and finishes `burstTime` later; and
the finish times are non-decreasing along the results. -/
theorem executeFCFS_order_and_clock (processes : List ProcessRecord)
    (hvalid : ∀ p ∈ processes, 0 ≤ p.arrivalTime ∧ 0 < p.burstTime) :
    ∃ sorted : List ProcessRecord,
      sorted.Perm processes ∧
      sorted.Pairwise (fun a b => a.arrivalTime ≤ b.arrivalTime) ∧
      (∀ a : Int, sorted.filter (fun p => decide (p.arrivalTime = a)) =
        processes.filter (fun p => decide (p.arrivalTime = a))) ∧
      (executeFCFS processes).results.length = sorted.length ∧
      (executeFCFS processes).schedule.length = sorted.length ∧
      (∀ (k : Nat) (p : ProcessRecord), sorted[k]? = some p →
        (executeFCFS processes).results[k]? =
          some { p with
            startTime :=
              some (max (clockBefore (executeFCFS processes).results k) p.arrivalTime),
            finishTime :=
              some (max (clockBefore (executeFCFS processes).results k) p.arrivalTime
                + p.burstTime),
            waitingTime :=
              some (max (clockBefore (executeFCFS processes).results k) p.arrivalTime
                - p.arrivalTime),
            turnaroundTime :=
              some (max (clockBefore (executeFCFS processes).results k) p.arrivalTime
                + p.burstTime - p.arrivalTime),
            status := Status.Completed } ∧
        (executeFCFS processes).schedule[k]? =
          some { process := p.processName,
                 start := max (clockBefore (executeFCFS processes).results k) p.arrivalTime,
                 finish := max (clockBefore (executeFCFS processes).results k) p.arrivalTime
                   + p.burstTime,
                 color := getProcessColor p.id }) ∧
      ∃ finishes : List Int,
        (executeFCFS processes).results.map (fun r => r.finishTime) = finishes.map some ∧
        finishes.Pairwise (fun a b => a ≤ b) := by
  have hres : (executeFCFS processes).results = fcfsResults 0 (sortByArrival processes) := by
    simp [executeFCFS, fcfsLoop_eq]
  have hsch : (executeFCFS processes).schedule = fcfsSchedule 0 (sortByArrival processes) := by
    simp [executeFCFS, fcfsLoop_eq]
  have hclock : ∀ rs k, clockBefore rs k = clockFrom 0 rs k := by
    intro rs k; cases k <;> rfl
  refine ⟨sortByArrival processes, sortByArrival_perm _, sortByArrival_sorted _,
    fun a => sortByArrival_filter a _, ?_, ?_, ?_, ?_⟩
  · rw [hres, fcfsResults_length]
  · rw [hsch, fcfsSchedule_length]
  · intro k p hk
    rw [hclock, hres, hsch]
    exact fcfsResults_get 0 _ k p hk
  · rw [hres]
    have hb : ∀ p ∈ sortByArrival processes, 0 ≤ p.burstTime := fun p hp =>
      le_of_lt (hvalid p ((sortByArrival_perm processes).subset hp)).2
    obtain ⟨fs, h1, h2, _⟩ := fcfsResults_finish 0 _ hb
    exact ⟨fs, h1, h2⟩

/-- Instance of `executeFCFS_order_and_clock` on the sample process list. -/
theorem executeFCFS_order_and_clock_witness :
    (∀ p ∈ sampleProcesses, 0 ≤ p.arrivalTime ∧ 0 < p.burstTime) ∧
    ∃ sorted : List ProcessRecord,
      sorted.Perm sampleProcesses ∧
      sorted.Pairwise (fun a b => a.arrivalTime ≤ b.arrivalTime) ∧
      (∀ a : Int, sorted.filter (fun p => decide (p.arrivalTime = a)) =
        sampleProcesses.filter (fun p => decide (p.arrivalTime = a))) ∧
      (executeFCFS sampleProcesses).results.length = sorted.length ∧
      (executeFCFS sampleProcesses).schedule.length = sorted.length ∧
      (∀ (k : Nat) (p : ProcessRecord), sorted[k]? = some p →
        (executeFCFS sampleProcesses).results[k]? =
          some { p with
            startTime :=
              some (max (clockBefore (executeFCFS sampleProcesses).results k) p.arrivalTime),
            finishTime :=
              some (max (clockBefore (executeFCFS sampleProcesses).results k) p.arrivalTime
                + p.burstTime),
            waitingTime :=
              some (max (clockBefore (executeFCFS sampleProcesses).results k) p.arrivalTime
                - p.arrivalTime),
            turnaroundTime :=
              some (max (clockBefore (executeFCFS sampleProcesses).results k) p.arrivalTime
                + p.burstTime - p.arrivalTime),
            status := Status.Completed } ∧
        (executeFCFS sampleProcesses).schedule[k]? =
          some { process := p.processName,
                 start :=
                   max (clockBefore (executeFCFS sampleProcesses).results k) p.arrivalTime,
                 finish :=
                   max (clockBefore (executeFCFS sampleProcesses).results k) p.arrivalTime
                     + p.burstTime,
                 color := getProcessColor p.id }) ∧
      ∃ finishes : List Int,
        (executeFCFS sampleProcesses).results.map (fun r => r.finishTime) =
          finishes.map some ∧
        finishes.Pairwise (fun a b => a ≤ b) :=
  ⟨by decide, executeFCFS_order_and_clock sampleProcesses (by decide)⟩
/-! ## Shortest job first and priority scheduling: theorems -/

theorem foldl_min_spec (xs : List Int) (x : Int) :
    (xs.foldl min x = x ∨ xs.foldl min x ∈ xs) ∧ xs.foldl min x ≤ x ∧
      ∀ y ∈ xs, xs.foldl min x ≤ y := by
  induction xs generalizing x with
  | nil => simp
  | cons a as ih =>
    obtain ⟨h1, h2, h3⟩ := ih (min x a)
    simp only [List.foldl_cons, List.mem_cons]
    refine ⟨?_, ?_, ?_⟩
    · rcases h1 with h | h
      · rcases min_choice x a with hc | hc
        · left; rw [h, hc]
        · right; left; rw [h, hc]
      · right; right; exact h
    · exact le_trans h2 (min_le_left _ _)
    · intro y hy
      rcases hy with rfl | hy
      · exact le_trans h2 (min_le_right _ _)
      · exact h3 y hy

theorem minOfList_spec (xs : List Int) (h : xs ≠ []) :
    minOfList xs ∈ xs ∧ ∀ y ∈ xs, minOfList xs ≤ y := by
  cases xs with
  | nil => exact absurd rfl h
  | cons x xs =>
    obtain ⟨h1, h2, h3⟩ := foldl_min_spec xs x
    refine ⟨?_, ?_⟩
    · rcases h1 with h1 | h1
      · show xs.foldl min x ∈ x :: xs
        rw [h1]; exact List.mem_cons_self _ _
      · exact List.mem_cons_of_mem _ h1
    · intro y hy
      rcases List.mem_cons.1 hy with rfl | hy
      · exact h2
      · exact h3 y hy

theorem reduceMin_spec (key : ProcessRecord → Int) (rest : List (Nat × ProcessRecord))
    (acc : Nat × ProcessRecord)
    (hacc : ∀ x ∈ rest, acc.1 < x.1)
    (hinc : rest.Pairwise (fun a b => a.1 < b.1)) :
    reduceMin key acc rest ∈ acc :: rest ∧
      (reduceMin key acc rest = acc ∨ key (reduceMin key acc rest).2 < key acc.2) ∧
      (∀ x ∈ rest, key (reduceMin key acc rest).2 ≤ key x.2) ∧
      (∀ x ∈ rest, x.1 < (reduceMin key acc rest).1 →
        key (reduceMin key acc rest).2 < key x.2) := by
  induction rest generalizing acc with
  | nil => simp [reduceMin]
  | cons p rest ih =>
    rw [List.pairwise_cons] at hinc
    have hp : acc.1 < p.1 := hacc p (List.mem_cons_self _ _)
    simp only [reduceMin]
    by_cases hlt : key p.2 < key acc.2
    · simp only [hlt, if_true]
      obtain ⟨h1, h2, h3, h4⟩ := ih p hinc.1 hinc.2
      refine ⟨List.mem_cons_of_mem _ h1, ?_, ?_, ?_⟩
      · right
        rcases h2 with h2 | h2
        · rw [h2]; exact hlt
        · exact lt_trans h2 hlt
      · intro x hx
        rcases List.mem_cons.1 hx with rfl | hx
        · rcases h2 with h2 | h2
          · rw [h2]
          · exact le_of_lt h2
        · exact h3 x hx
      · intro x hx hxm
        rcases List.mem_cons.1 hx with rfl | hx
        · rcases h2 with h2 | h2
          · rw [h2] at hxm; exact absurd hxm (lt_irrefl _)
          · exact h2
        · exact h4 x hx hxm
    · simp only [hlt, if_false]
      have hacc2 : ∀ x ∈ rest, acc.1 < x.1 := fun x hx => hacc x (List.mem_cons_of_mem _ hx)
      obtain ⟨h1, h2, h3, h4⟩ := ih acc hacc2 hinc.2
      refine ⟨?_, h2, ?_, ?_⟩
      · rcases List.mem_cons.1 h1 with h1 | h1
        · rw [h1]; exact List.mem_cons_self _ _
        · exact List.mem_cons_of_mem _ (List.mem_cons_of_mem _ h1)
      · intro x hx
        rcases List.mem_cons.1 hx with rfl | hx
        · rcases h2 with h2 | h2
          · rw [h2]; exact not_lt.1 hlt
          · exact le_trans (le_of_lt h2) (not_lt.1 hlt)
        · exact h3 x hx
      · intro x hx hxm
        rcases List.mem_cons.1 hx with rfl | hx
        · rcases h2 with h2 | h2
          · rw [h2] at hxm; exact absurd (lt_trans hp hxm) (lt_irrefl _)
          · exact lt_of_lt_of_le h2 (not_lt.1 hlt)
        · exact h4 x hx hxm

theorem enum_filter_increasing (l : List ProcessRecord) (f : Nat × ProcessRecord → Bool) :
    (l.enum.filter f).Pairwise (fun a b => a.1 < b.1) := by
  have h : l.enum.Pairwise (fun a b => a.1 < b.1) := by
    have := List.pairwise_lt_range l.length
    rw [← List.enum_map_fst l, List.pairwise_map] at this
    exact this
  exact h.sublist (List.filter_sublist _)

theorem sliceOfResult_completedAt (t : Int) (p : ProcessRecord) :
    sliceOfResult (completedAt t p) = sliceAt t p := rfl

theorem selectionLoop_spec (key : ProcessRecord → Int) (fuel : Nat) :
    ∀ (clock : Int) (remaining : List ProcessRecord) (s : List TimelineEntry)
      (r : List ProcessRecord),
      (2 * remaining.length ≤ fuel ∨
        (2 * remaining.length ≤ fuel + 1 ∧ ∃ q ∈ remaining, q.arrivalTime ≤ clock)) →
      ∃ res : List ProcessRecord,
        selectionLoop key fuel clock remaining s r =
            some (s ++ res.map sliceOfResult, r ++ res) ∧
          SelectionTrace key clock remaining res := by
  induction fuel with
  | zero =>
    intro clock remaining s r hfuel
    cases remaining with
    | nil => exact ⟨[], by simp [selectionLoop], SelectionTrace.done clock⟩
    | cons r0 rs =>
      exfalso
      simp only [List.length_cons] at hfuel
      omega
  | succ fuel ih =>
    intro clock remaining s r hfuel
    cases remaining with
    | nil => exact ⟨[], by simp [selectionLoop], SelectionTrace.done clock⟩
    | cons r0 rs =>
      have hmem : ∀ x : Nat × ProcessRecord,
          x ∈ (r0 :: rs).enum.filter (fun p => decide (p.2.arrivalTime ≤ clock)) ↔
            (r0 :: rs)[x.1]? = some x.2 ∧ x.2.arrivalTime ≤ clock := by
        intro x
        rw [List.mem_filter, List.mem_enum_iff_getElem?]
        simp
      simp only [selectionLoop]
      split
      · rename_i heq
        have hnone : ∀ q ∈ r0 :: rs, clock < q.arrivalTime := by
          intro q hq
          by_contra hle
          obtain ⟨i, hi⟩ := List.mem_iff_getElem?.1 hq
          have : (i, q) ∈ (r0 :: rs).enum.filter (fun p => decide (p.2.arrivalTime ≤ clock)) :=
            (hmem (i, q)).2 ⟨hi, not_lt.1 hle⟩
          rw [heq] at this
          exact absurd this (List.not_mem_nil _)
        obtain ⟨hm1, hm2⟩ :=
          minOfList_spec ((r0 :: rs).map (fun p => p.arrivalTime)) (by simp)
        obtain ⟨qm, hqm, hqmeq⟩ := List.mem_map.1 hm1
        have hmin : ∀ q ∈ r0 :: rs,
            minOfList ((r0 :: rs).map (fun p => p.arrivalTime)) ≤ q.arrivalTime :=
          fun q hq => hm2 _ (List.mem_map_of_mem _ hq)
        have hlen : 2 * (r0 :: rs).length ≤ fuel + 1 := by
          rcases hfuel with h | ⟨_, q, hq, hle⟩
          · exact h
          · exact absurd hle (not_le.2 (hnone q hq))
        obtain ⟨res, heq2, htrace⟩ :=
          ih (minOfList ((r0 :: rs).map (fun p => p.arrivalTime))) (r0 :: rs) s r
            (Or.inr ⟨hlen, qm, hqm, le_of_eq hqmeq⟩)
        refine ⟨res, heq2, ?_⟩
        cases htrace with
        | run _ t _ i p later hstart hsel harr hsm hea hlater =>
          have ht : t = minOfList ((r0 :: rs).map (fun p => p.arrivalTime)) := by
            rcases hstart with ⟨_, ht⟩ | ⟨hall, _, _⟩
            · exact ht
            · exact absurd (hall qm hqm) (by rw [hqmeq]; exact lt_irrefl _)
          exact SelectionTrace.run clock t (r0 :: rs) i p later
            (Or.inr ⟨hnone, ⟨qm, hqm, by rw [ht]; exact hqmeq⟩,
              fun q hq => by rw [ht]; exact hmin q hq⟩)
            hsel harr hsm hea hlater
      · rename_i first others heq
        have hinc := enum_filter_increasing (r0 :: rs)
          (fun p => decide (p.2.arrivalTime ≤ clock))
        rw [heq, List.pairwise_cons] at hinc
        obtain ⟨h1, h2, h3, h4⟩ := reduceMin_spec key others first hinc.1 hinc.2
        have hsel := (hmem (reduceMin key first others)).1 (by rw [heq]; exact h1)
        have hlt : (reduceMin key first others).1 < (r0 :: rs).length := by
          by_contra hge
          rw [List.getElem?_eq_none (not_lt.1 hge)] at hsel
          exact absurd hsel.1 (by simp)
        have hlen : 2 * ((r0 :: rs).eraseIdx (reduceMin key first others).1).length ≤ fuel := by
          rw [List.length_eraseIdx_of_lt hlt]
          have h0 : 2 * (r0 :: rs).length ≤ fuel + 1 + 1 := by
            rcases hfuel with h | ⟨h, _⟩ <;> omega
          simp only [List.length_cons] at h0 ⊢
          omega
        obtain ⟨res, heq2, htrace⟩ :=
          ih (clock + (reduceMin key first others).2.burstTime)
            ((r0 :: rs).eraseIdx (reduceMin key first others).1)
            (s ++ [sliceAt clock (reduceMin key first others).2])
            (r ++ [completedAt clock (reduceMin key first others).2]) (Or.inl hlen)
        have hkey : ∀ x ∈ first :: others,
            key (reduceMin key first others).2 ≤ key x.2 := by
          intro x hx
          rcases List.mem_cons.1 hx with rfl | hx
          · rcases h2 with h2 | h2
            · rw [h2]
            · exact le_of_lt h2
          · exact h3 x hx
        have hkey2 : ∀ x ∈ first :: others, x.1 < (reduceMin key first others).1 →
            key (reduceMin key first others).2 < key x.2 := by
          intro x hx hxm
          rcases List.mem_cons.1 hx with rfl | hx
          · rcases h2 with h2 | h2
            · rw [h2] at hxm; exact absurd hxm (lt_irrefl _)
            · exact h2
          · exact h4 x hx hxm
        refine ⟨completedAt clock (reduceMin key first others).2 :: res, ?_, ?_⟩
        · show selectionLoop key fuel (clock + (reduceMin key first others).2.burstTime)
            ((r0 :: rs).eraseIdx (reduceMin key first others).1)
            (s ++ [sliceAt clock (reduceMin key first others).2])
            (r ++ [completedAt clock (reduceMin key first others).2]) = _
          rw [heq2]
          simp [sliceOfResult_completedAt]
        · refine SelectionTrace.run clock clock (r0 :: rs) (reduceMin key first others).1
            (reduceMin key first others).2 res
            (Or.inl ⟨⟨_, List.mem_iff_getElem?.2 ⟨_, hsel.1⟩, hsel.2⟩, rfl⟩) hsel.1 hsel.2 ?_ ?_ htrace
          · intro q hq hle
            obtain ⟨j, hj⟩ := List.mem_iff_getElem?.1 hq
            have := (hmem (j, q)).2 ⟨hj, hle⟩
            rw [heq] at this
            exact hkey (j, q) this
          · intro j q hjlt hj hle
            have := (hmem (j, q)).2 ⟨hj, hle⟩
            rw [heq] at this
            exact hkey2 (j, q) this hjlt

/-- C2: every run of `executeSJF` returns, and its results follow the
selection rule of the specification (`SelectionTrace` with key `burstTime`,
from clock `0`, over the input in input order): each process starts at the
previous finish time if some not-yet-run process has arrived by then and at
the minimum arrival time of the not-yet-run processes otherwise, has arrived
by its start time, has the smallest burst time among the not-yet-run processes
arrived by then, and is the earliest of these in input order; the timeline
holds the matching entries.  `executePriority` satisfies the same statement
with key `priority`.  The statement needs no assumption on the sign of
`arrivalTime` and `burstTime`. -/
theorem selection_schedulers_follow_spec (processes : List ProcessRecord) :
    (∃ out : ScheduleOutput, executeSJF processes = some out ∧
      SelectionTrace (fun p => p.burstTime) 0 processes out.results ∧
      out.schedule = out.results.map sliceOfResult) ∧
    (∃ out : ScheduleOutput, executePriority processes = some out ∧
      SelectionTrace (fun p => p.priority) 0 processes out.results ∧
      out.schedule = out.results.map sliceOfResult) := by
  constructor
  · obtain ⟨res, heq, htrace⟩ :=
      selectionLoop_spec (fun p => p.burstTime) (2 * processes.length) 0 processes [] []
        (Or.inl (le_refl _))
    refine ⟨_, by rw [executeSJF, heq]; rfl, ?_, ?_⟩
    · simpa using htrace
    · simp
  · obtain ⟨res, heq, htrace⟩ :=
      selectionLoop_spec (fun p => p.priority) (2 * processes.length) 0 processes [] []
        (Or.inl (le_refl _))
    refine ⟨_, by rw [executePriority, heq]; rfl, ?_, ?_⟩
    · simpa using htrace
    · simp
/-! ## Round robin: theorems -/

theorem rrMeasure_append (q₁ q₂ : List RRItem) :
    rrMeasure (q₁ ++ q₂) = rrMeasure q₁ + rrMeasure q₂ := by
  simp [rrMeasure, List.map_append, List.sum_append]

theorem markStarted_owner (t : Int) (c : RRItem) : (markStarted t c).owner = c.owner := by
  unfold markStarted; split <;> rfl

theorem markStarted_remainingTime (t : Int) (c : RRItem) :
    (markStarted t c).remainingTime = c.remainingTime := by
  unfold markStarted; split <;> rfl

theorem markStarted_inputFields (t : Int) (c : RRItem) :
    (markStarted t c).proc.id = c.proc.id ∧
    (markStarted t c).proc.processName = c.proc.processName ∧
    (markStarted t c).proc.arrivalTime = c.proc.arrivalTime ∧
    (markStarted t c).proc.burstTime = c.proc.burstTime ∧
    (markStarted t c).proc.priority = c.proc.priority ∧
    (markStarted t c).proc.memorySize = c.proc.memorySize := by
  unfold markStarted; split <;> simp

theorem rrLoop_step_again (total fuel : Nat) (t : Int) (c : RRItem) (rest cs : List RRItem)
    (sl : List (Nat × TimelineEntry)) (rs : List ProcessRecord)
    (hlt : cs.length < total)
    (hmore : c.remainingTime - min quantum c.remainingTime > 0) :
    rrLoop total (fuel + 1)
        { currentTime := t, readyQueue := c :: rest, completed := cs, schedule := sl,
          results := rs } =
      rrLoop total fuel
        { currentTime := t + min quantum c.remainingTime,
          readyQueue := rest ++ [rrRequeued t c], completed := cs,
          schedule := sl ++ [rrSlice t c], results := rs } := by
  have hmore2 : (markStarted t c).remainingTime
      - min quantum (markStarted t c).remainingTime > 0 := by
    rw [markStarted_remainingTime]; exact hmore
  rw [rrLoop]
  simp only [hlt, if_true]
  rw [if_pos hmore2]
  simp only [rrRequeued, rrSlice, markStarted_remainingTime]

theorem rrLoop_step_finished (total fuel : Nat) (t : Int) (c : RRItem)
    (rest cs : List RRItem) (sl : List (Nat × TimelineEntry)) (rs : List ProcessRecord)
    (hlt : cs.length < total)
    (hdone : ¬ c.remainingTime - min quantum c.remainingTime > 0) :
    rrLoop total (fuel + 1)
        { currentTime := t, readyQueue := c :: rest, completed := cs, schedule := sl,
          results := rs } =
      rrLoop total fuel
        { currentTime := t + min quantum c.remainingTime,
          readyQueue := rest, completed := cs ++ [rrDone t c],
          schedule := sl ++ [rrSlice t c], results := rs ++ [rrResult t c] } := by
  have hdone2 : ¬ (markStarted t c).remainingTime
      - min quantum (markStarted t c).remainingTime > 0 := by
    rw [markStarted_remainingTime]; exact hdone
  rw [rrLoop]
  simp only [hlt, if_true]
  rw [if_neg hdone2]
  simp only [rrDone, rrResult, rrFinished, rrSlice, markStarted_remainingTime]

theorem rrLoop_spec (total fuel : Nat) :
    ∀ st : RRState, st.readyQueue.length + st.completed.length = total →
      rrMeasure st.readyQueue ≤ fuel →
      ∃ (t : Int) (sl : List (Nat × TimelineEntry)) (rs : List ProcessRecord)
        (cs : List RRItem),
        rrLoop total fuel st =
          some { currentTime := t, readyQueue := [], completed := st.completed ++ cs,
                 schedule := st.schedule ++ sl, results := st.results ++ rs } ∧
        (st.completed ++ cs).length = total ∧
        RRTrace st.currentTime st.readyQueue sl rs := by
  induction fuel with
  | zero =>
    intro st hinv hfuel
    obtain ⟨t, q, cs, sl, rs⟩ := st
    cases q with
    | nil =>
      refine ⟨t, [], [], [], ?_, by simpa using hinv, RRTrace.done _⟩
      simp only [List.length_nil, Nat.zero_add] at hinv
      simp [rrLoop, hinv]
    | cons c rest =>
      simp [rrMeasure] at hfuel
  | succ fuel ih =>
    intro st hinv hfuel
    obtain ⟨t, q, cs, sl, rs⟩ := st
    cases q with
    | nil =>
      refine ⟨t, [], [], [], ?_, by simpa using hinv, RRTrace.done _⟩
      simp only [List.length_nil, Nat.zero_add] at hinv
      simp [rrLoop, hinv]
    | cons c rest =>
      simp only [List.length_cons] at hinv
      have hlt : cs.length < total := by omega
      have hm : rrMeasure (c :: rest) = c.remainingTime.toNat + 1 + rrMeasure rest := by
        simp [rrMeasure]
      simp only [hm] at hfuel
      by_cases hmore : c.remainingTime - min quantum c.remainingTime > 0
      · have hq : quantum = 3 := rfl
        have hfuel2 : rrMeasure (rest ++ [rrRequeued t c]) ≤ fuel := by
          rw [rrMeasure_append]
          have : rrMeasure [rrRequeued t c] =
              (c.remainingTime - min quantum c.remainingTime).toNat + 1 := by
            simp [rrMeasure, rrRequeued, markStarted_remainingTime]
          rw [this]
          rw [hq] at hmore ⊢
          omega
        obtain ⟨t2, sl2, rs2, cs2, heq, hlen, htrace⟩ :=
          ih { currentTime := t + min quantum c.remainingTime,
               readyQueue := rest ++ [rrRequeued t c], completed := cs,
               schedule := sl ++ [rrSlice t c], results := rs }
            (by simp; omega) hfuel2
        refine ⟨t2, rrSlice t c :: sl2, rs2, cs2, ?_, hlen,
          RRTrace.again t c rest sl2 rs2 hmore htrace⟩
        rw [rrLoop_step_again total fuel t c rest cs sl rs hlt hmore, heq]
        simp
      · have hfuel2 : rrMeasure rest ≤ fuel := by omega
        obtain ⟨t2, sl2, rs2, cs2, heq, hlen, htrace⟩ :=
          ih { currentTime := t + min quantum c.remainingTime,
               readyQueue := rest, completed := cs ++ [rrDone t c],
               schedule := sl ++ [rrSlice t c], results := rs ++ [rrResult t c] }
            (by simp; omega) hfuel2
        refine ⟨t2, rrSlice t c :: sl2, rrResult t c :: rs2, rrDone t c :: cs2, ?_, ?_,
          RRTrace.finished t c rest sl2 rs2 hmore htrace⟩
        · rw [rrLoop_step_finished total fuel t c rest cs sl rs hlt hmore, heq]
          simp
        · simpa using hlen

theorem rrSlice_eq (t : Int) (c : RRItem) :
    rrSlice t c = (c.owner,
      { process := c.proc.processName, start := t,
        finish := t + min quantum c.remainingTime, color := getProcessColor c.proc.id }) := by
  simp only [rrSlice, markStarted_owner, markStarted_remainingTime,
    (markStarted_inputFields t c).1, (markStarted_inputFields t c).2.1]

theorem rrRequeued_owner (t : Int) (c : RRItem) : (rrRequeued t c).owner = c.owner := by
  simp [rrRequeued, markStarted_owner]

theorem rrRequeued_remainingTime (t : Int) (c : RRItem) :
    (rrRequeued t c).remainingTime = c.remainingTime - min quantum c.remainingTime := by
  simp [rrRequeued, markStarted_remainingTime]

theorem rrRequeued_inputFields (t : Int) (c : RRItem) :
    (rrRequeued t c).proc.inputFields = c.proc.inputFields := by
  obtain ⟨h1, h2, h3, h4, h5, h6⟩ := markStarted_inputFields t c
  simp [rrRequeued, ProcessRecord.inputFields, h1, h2, h3, h4, h5, h6]

theorem rrRequeued_processName (t : Int) (c : RRItem) :
    (rrRequeued t c).proc.processName = c.proc.processName := by
  simp [rrRequeued, (markStarted_inputFields t c).2.1]

theorem markStarted_startTime (t : Int) (c : RRItem) :
    ∃ s : Int, (markStarted t c).proc.startTime = some s := by
  unfold markStarted
  split
  · exact ⟨t, rfl⟩
  · rename_i h
    cases hs : c.proc.startTime with
    | none => exact absurd hs h
    | some s => exact ⟨s, rfl⟩

theorem rrResult_spec (t : Int) (c : RRItem) :
    (rrResult t c).inputFields = c.proc.inputFields ∧
    (rrResult t c).status = Status.Completed ∧
    (∃ s : Int, (rrResult t c).startTime = some s) ∧
    (rrResult t c).finishTime = some (t + min quantum c.remainingTime) ∧
    (rrResult t c).turnaroundTime =
      some (t + min quantum c.remainingTime - (rrResult t c).arrivalTime) ∧
    (rrResult t c).waitingTime =
      some (t + min quantum c.remainingTime - (rrResult t c).arrivalTime
        - (rrResult t c).burstTime) := by
  obtain ⟨h1, h2, h3, h4, h5, h6⟩ := markStarted_inputFields t c
  refine ⟨?_, rfl, ?_, ?_, ?_, ?_⟩
  · simp [rrResult, rrFinished, ProcessRecord.inputFields, h1, h2, h3, h4, h5, h6]
  · exact markStarted_startTime t c
  · simp [rrResult, rrFinished, markStarted_remainingTime]
  · simp [rrResult, rrFinished, markStarted_remainingTime]
  · simp [rrResult, rrFinished, markStarted_remainingTime]

theorem RRTrace.rr_results_spec {t : Int} {q : List RRItem} {sl : List (Nat × TimelineEntry)}
    {rs : List ProcessRecord} (h : RRTrace t q sl rs) :
    (rs.map ProcessRecord.inputFields).Perm (q.map fun c => c.proc.inputFields) ∧
    ∀ r ∈ rs, r.status = Status.Completed ∧ (∃ s : Int, r.startTime = some s) ∧
      ∃ f : Int, r.finishTime = some f ∧
        r.turnaroundTime = some (f - r.arrivalTime) ∧
        r.waitingTime = some (f - r.arrivalTime - r.burstTime) := by
  induction h with
  | done t => exact ⟨List.Perm.refl _, by simp⟩
  | again t c rest sl rs hmore hrest ih =>
    refine ⟨?_, ih.2⟩
    have h1 := ih.1
    rw [List.map_append, List.map_singleton, rrRequeued_inputFields] at h1
    exact h1.trans (List.perm_append_comm.trans (by simp))
  | finished t c rest sl rs hdone hrest ih =>
    obtain ⟨h1, h2, h3, h4, h5, h6⟩ := rrResult_spec t c
    refine ⟨?_, ?_⟩
    · simp only [List.map_cons, h1]
      exact List.Perm.cons _ ih.1
    · intro r hr
      rcases List.mem_cons.1 hr with rfl | hr
      · exact ⟨h2, h3, _, h4, h5, h6⟩
      · exact ih.2 r hr

theorem processQueue_inputFields (ps : List ProcessRecord) :
    (processQueue ps).map (fun c => c.proc.inputFields) = ps.map ProcessRecord.inputFields := by
  unfold processQueue
  rw [List.map_map]
  conv_rhs => rw [← List.enum_map_snd ps, List.map_map]
  rfl

theorem processQueue_measure (ps : List ProcessRecord) :
    rrMeasure (processQueue ps) = rrFuel ps := by
  unfold processQueue rrMeasure rrFuel
  rw [List.map_map]
  conv_rhs => rw [← List.enum_map_snd ps, List.map_map]
  rfl

theorem processQueue_length (ps : List ProcessRecord) :
    (processQueue ps).length = ps.length := by
  simp [processQueue]

theorem roundRobinRun_spec (ps : List ProcessRecord) :
    ∃ (t : Int) (cs : List RRItem) (sl : List (Nat × TimelineEntry))
      (rs : List ProcessRecord),
      roundRobinRun ps =
        some { currentTime := t, readyQueue := [], completed := cs, schedule := sl,
               results := rs } ∧
      cs.length = ps.length ∧ RRTrace 0 (processQueue ps) sl rs := by
  obtain ⟨t, sl, rs, cs, heq, hlen, htrace⟩ :=
    rrLoop_spec ps.length (rrFuel ps)
      { currentTime := 0, readyQueue := processQueue ps, completed := [],
        schedule := [], results := [] }
      (by simp [processQueue_length]) (le_of_eq (processQueue_measure ps))
  refine ⟨t, cs, sl, rs, ?_, by simpa using hlen, htrace⟩
  rw [roundRobinRun, heq]
  simp
/-! ## Completion and derived times of the four schedulers -/

theorem perm_cons_eraseIdx {α : Type} (l : List α) (i : Nat) (a : α) (h : l[i]? = some a) :
    l.Perm (a :: l.eraseIdx i) := by
  induction l generalizing i with
  | nil => simp at h
  | cons x xs ih =>
    cases i with
    | zero =>
      simp only [List.getElem?_cons_zero, Option.some.injEq] at h
      subst h
      exact List.Perm.refl _
    | succ i =>
      simp only [List.getElem?_cons_succ] at h
      simp only [List.eraseIdx_cons_succ]
      exact (List.Perm.cons x (ih i h)).trans (List.Perm.swap a x _)

theorem completedAt_spec (t : Int) (p : ProcessRecord) :
    (completedAt t p).inputFields = p.inputFields ∧
    (completedAt t p).status = Status.Completed ∧
    (completedAt t p).startTime = some t ∧
    (completedAt t p).finishTime = some (t + p.burstTime) ∧
    TimesConsistent (completedAt t p) := by
  refine ⟨rfl, rfl, rfl, rfl, t + p.burstTime, t + p.burstTime - p.arrivalTime,
    t - p.arrivalTime, rfl, rfl, rfl, rfl, ?_⟩
  show t - p.arrivalTime = t + p.burstTime - p.arrivalTime - p.burstTime
  omega

theorem SelectionTrace.selection_results_spec {key : ProcessRecord → Int} {clock : Int}
    {remaining results : List ProcessRecord} (h : SelectionTrace key clock remaining results) :
    EveryProcessCompleted remaining results ∧ ∀ r ∈ results, TimesConsistent r := by
  induction h with
  | done clock => exact ⟨⟨List.Perm.refl _, by simp⟩, by simp⟩
  | run clock t notYetRun i p later hstart hsel harr hsm hea hlater ih =>
    obtain ⟨⟨hperm, hall⟩, htimes⟩ := ih
    obtain ⟨h1, h2, _, h4, h5⟩ := completedAt_spec t p
    refine ⟨⟨?_, ?_⟩, ?_⟩
    · simp only [List.map_cons, h1]
      exact (List.Perm.cons _ hperm).trans
        ((perm_cons_eraseIdx notYetRun i p hsel).map ProcessRecord.inputFields).symm
    · intro r hr
      rcases List.mem_cons.1 hr with rfl | hr
      · exact ⟨h2, _, h4⟩
      · exact hall r hr
    · intro r hr
      rcases List.mem_cons.1 hr with rfl | hr
      · exact h5
      · exact htimes r hr

theorem fcfsResults_spec (t : Int) (qs : List ProcessRecord) :
    EveryProcessCompleted qs (fcfsResults t qs) ∧
      ∀ r ∈ fcfsResults t qs, TimesConsistent r := by
  induction qs generalizing t with
  | nil => exact ⟨⟨List.Perm.refl _, by simp [fcfsResults]⟩, by simp [fcfsResults]⟩
  | cons q qs ih =>
    obtain ⟨⟨hperm, hall⟩, htimes⟩ := ih (max t q.arrivalTime + q.burstTime)
    obtain ⟨h1, h2, _, h4, h5⟩ := completedAt_spec (max t q.arrivalTime) q
    refine ⟨⟨?_, ?_⟩, ?_⟩
    · simp only [fcfsResults, List.map_cons, h1]
      exact List.Perm.cons _ hperm
    · intro r hr
      rcases List.mem_cons.1 hr with rfl | hr
      · exact ⟨h2, _, h4⟩
      · exact hall r hr
    · intro r hr
      rcases List.mem_cons.1 hr with rfl | hr
      · exact h5
      · exact htimes r hr

theorem executeFCFS_results (processes : List ProcessRecord) :
    (executeFCFS processes).results = fcfsResults 0 (sortByArrival processes) := by
  simp [executeFCFS, fcfsLoop_eq]

theorem executeSJF_trace (processes : List ProcessRecord) :
    ∃ out : ScheduleOutput, executeSJF processes = some out ∧
      SelectionTrace (fun p => p.burstTime) 0 processes out.results := by
  obtain ⟨res, heq, htrace⟩ :=
    selectionLoop_spec (fun p => p.burstTime) (2 * processes.length) 0 processes [] []
      (Or.inl (le_refl _))
  exact ⟨_, by rw [executeSJF, heq]; rfl, by simpa using htrace⟩

theorem executePriority_trace (processes : List ProcessRecord) :
    ∃ out : ScheduleOutput, executePriority processes = some out ∧
      SelectionTrace (fun p => p.priority) 0 processes out.results := by
  obtain ⟨res, heq, htrace⟩ :=
    selectionLoop_spec (fun p => p.priority) (2 * processes.length) 0 processes [] []
      (Or.inl (le_refl _))
  exact ⟨_, by rw [executePriority, heq]; rfl, by simpa using htrace⟩

theorem executeRoundRobin_of_run (processes : List ProcessRecord) (st : RRState)
    (h : roundRobinRun processes = some st) :
    executeRoundRobin processes =
      some { algorithm := "Round Robin (Quantum = 3)",
             schedule := st.schedule.map Prod.snd, results := st.results } := by
  rw [executeRoundRobin, h]; rfl

/-- C3: no partial failure.  For every process list (in particular every
non-empty one with `arrivalTime ≥ 0` and `burstTime > 0`), each of
`executeFCFS`, `executeSJF`, `executePriority` and `executeRoundRobin` returns,
and its results hold exactly one entry per input process, each with status
`Completed` and a finish time.  The loop of `executeRoundRobin` is left with
`completed.length = processes.length`, that is through its loop condition and
not through the empty-ready-queue exit, which is only taken while
`completed.length < processes.length`. -/
theorem schedulers_complete_every_process (processes : List ProcessRecord) :
    EveryProcessCompleted processes (executeFCFS processes).results ∧
    (∃ out : ScheduleOutput, executeSJF processes = some out ∧
      EveryProcessCompleted processes out.results) ∧
    (∃ out : ScheduleOutput, executePriority processes = some out ∧
      EveryProcessCompleted processes out.results) ∧
    (∃ (st : RRState) (out : ScheduleOutput), roundRobinRun processes = some st ∧
      executeRoundRobin processes = some out ∧ out.results = st.results ∧
      st.completed.length = processes.length ∧
      EveryProcessCompleted processes out.results) := by
  refine ⟨?_, ?_, ?_, ?_⟩
  · rw [executeFCFS_results]
    obtain ⟨hperm, hall⟩ := (fcfsResults_spec 0 (sortByArrival processes)).1
    exact ⟨hperm.trans ((sortByArrival_perm processes).map _), hall⟩
  · obtain ⟨out, heq, htrace⟩ := executeSJF_trace processes
    exact ⟨out, heq, htrace.selection_results_spec.1⟩
  · obtain ⟨out, heq, htrace⟩ := executePriority_trace processes
    exact ⟨out, heq, htrace.selection_results_spec.1⟩
  · obtain ⟨t, cs, sl, rs, heq, hlen, htrace⟩ := roundRobinRun_spec processes
    refine ⟨_, _, heq, executeRoundRobin_of_run processes _ heq, rfl, hlen, ?_, ?_⟩
    · have := htrace.rr_results_spec.1
      rw [processQueue_inputFields] at this
      exact this
    · intro r hr
      obtain ⟨h1, _, f, h3, _⟩ := htrace.rr_results_spec.2 r hr
      exact ⟨h1, f, h3⟩

/-! ## Round robin conserves the total burst -/

theorem executedBefore_zero (sl : List (Nat × TimelineEntry)) (i : Nat) :
    executedBefore sl i 0 = 0 := by
  simp [executedBefore]

theorem executedBefore_cons (x : Nat × TimelineEntry) (sl : List (Nat × TimelineEntry))
    (i k : Nat) :
    executedBefore (x :: sl) i (k + 1) =
      (if x.1 = i then x.2.duration else 0) + executedBefore sl i k := by
  unfold executedBefore
  by_cases h : x.1 = i
  · simp [List.take_succ_cons, List.filter_cons, h]
  · simp [List.take_succ_cons, List.filter_cons, h]

theorem executedBefore_of_not_owner (sl : List (Nat × TimelineEntry)) (i k : Nat)
    (h : ∀ x ∈ sl, x.1 ≠ i) : executedBefore sl i k = 0 := by
  induction sl generalizing k with
  | nil => simp [executedBefore]
  | cons x sl ih =>
    cases k with
    | zero => exact executedBefore_zero _ _
    | succ k =>
      rw [executedBefore_cons, if_neg (h x (List.mem_cons_self _ _)),
        ih k (fun y hy => h y (List.mem_cons_of_mem _ hy))]
      rfl

theorem RRTrace.contiguous {t : Int} {q : List RRItem} {sl : List (Nat × TimelineEntry)}
    {rs : List ProcessRecord} (h : RRTrace t q sl rs) :
    contiguousFrom t (sl.map Prod.snd) := by
  induction h with
  | done t => exact trivial
  | again t c rest sl rs hmore hrest ih =>
    simpa [contiguousFrom, rrSlice_eq] using ih
  | finished t c rest sl rs hdone hrest ih =>
    simpa [contiguousFrom, rrSlice_eq] using ih

theorem contiguousFrom_spec (t : Int) (es : List TimelineEntry) (h : contiguousFrom t es) :
    (∀ e, es[0]? = some e → e.start = t) ∧
    (∀ (k : Nat) (e e2 : TimelineEntry), es[k]? = some e → es[k + 1]? = some e2 →
      e2.start = e.finish) ∧
    (es ≠ [] → ∃ e, es.getLast? = some e ∧ e.finish = t + (es.map fun e => e.duration).sum) := by
  induction es generalizing t with
  | nil => simp
  | cons x xs ih =>
    obtain ⟨hx, hxs⟩ := h
    obtain ⟨ih1, ih2, ih3⟩ := ih x.finish hxs
    refine ⟨?_, ?_, ?_⟩
    · intro e he
      simp only [List.getElem?_cons_zero, Option.some.injEq] at he
      rw [← he]; exact hx
    · intro k e e2 he he2
      cases k with
      | zero =>
        simp only [List.getElem?_cons_zero, Option.some.injEq] at he
        simp only [List.getElem?_cons_succ] at he2
        rw [← he]; exact ih1 e2 he2
      | succ k =>
        simp only [List.getElem?_cons_succ] at he he2
        exact ih2 k e e2 he he2
    · intro _
      cases xs with
      | nil =>
        refine ⟨x, rfl, ?_⟩
        simp [TimelineEntry.duration, hx]
      | cons y ys =>
        obtain ⟨e, he, hfin⟩ := ih3 (by simp)
        refine ⟨e, ?_, ?_⟩
        · rw [List.getLast?_cons_cons]; exact he
        · rw [hfin]
          simp only [List.map_cons, List.sum_cons, TimelineEntry.duration]
          omega

theorem rrSlice_duration (t : Int) (c : RRItem) :
    (rrSlice t c).2.duration = min quantum c.remainingTime := by
  simp [rrSlice_eq, TimelineEntry.duration]

theorem RRTrace.total_duration {t : Int} {q : List RRItem} {sl : List (Nat × TimelineEntry)}
    {rs : List ProcessRecord} (h : RRTrace t q sl rs)
    (hpos : ∀ c ∈ q, 0 < c.remainingTime) :
    (sl.map fun x => x.2.duration).sum = (q.map fun c => c.remainingTime).sum := by
  have hq : quantum = 3 := rfl
  induction h with
  | done t => rfl
  | again t c rest sl rs hmore hrest ih =>
    have hpos2 : ∀ c2 ∈ rest ++ [rrRequeued t c], 0 < c2.remainingTime := by
      intro c2 hc2
      rcases List.mem_append.1 hc2 with h | h
      · exact hpos c2 (List.mem_cons_of_mem _ h)
      · rw [List.mem_singleton.1 h, rrRequeued_remainingTime]; exact hmore
    have := ih hpos2
    simp only [List.map_append, List.sum_append, List.map_cons, List.map_nil, List.sum_cons,
      List.sum_nil, rrRequeued_remainingTime] at this
    rw [List.map_cons, List.sum_cons, rrSlice_duration, this, List.map_cons, List.sum_cons]
    omega
  | finished t c rest sl rs hdone hrest ih =>
    have := ih (fun c2 hc2 => hpos c2 (List.mem_cons_of_mem _ hc2))
    have hc := hpos c (List.mem_cons_self _ _)
    rw [List.map_cons, List.sum_cons, rrSlice_duration, this, List.map_cons, List.sum_cons]
    rw [hq] at hdone ⊢
    omega

theorem RRTrace.slices_spec {t : Int} {q : List RRItem} {sl : List (Nat × TimelineEntry)}
    {rs : List ProcessRecord} (h : RRTrace t q sl rs)
    (hpos : ∀ c ∈ q, 0 < c.remainingTime) (hnd : (q.map fun c => c.owner).Nodup) :
    (∀ x ∈ sl, ∃ c ∈ q, c.owner = x.1) ∧
    (∀ c ∈ q, executedBefore sl c.owner sl.length = c.remainingTime) ∧
    (∀ (k i : Nat) (e : TimelineEntry), sl[k]? = some (i, e) →
      ∃ c ∈ q, c.owner = i ∧ e.process = c.proc.processName ∧
        e.duration = min 3 (c.remainingTime - executedBefore sl i k) ∧
        1 ≤ e.duration ∧ e.duration ≤ 3) := by
  have hq : quantum = 3 := rfl
  induction h with
  | done t => simp
  | again t c rest sl rs hmore hrest ih =>
    have hpos2 : ∀ c2 ∈ rest ++ [rrRequeued t c], 0 < c2.remainingTime := by
      intro c2 hc2
      rcases List.mem_append.1 hc2 with h | h
      · exact hpos c2 (List.mem_cons_of_mem _ h)
      · rw [List.mem_singleton.1 h, rrRequeued_remainingTime]; exact hmore
    have hnd2 : ((rest ++ [rrRequeued t c]).map fun c => c.owner).Nodup := by
      have hp : ((rest ++ [rrRequeued t c]).map fun c => c.owner).Perm
          ((c :: rest).map fun c => c.owner) := by
        simp only [List.map_append, List.map_cons, List.map_nil, rrRequeued_owner]
        exact List.perm_append_comm
      exact hp.nodup_iff.2 hnd
    obtain ⟨ih1, ih2, ih3⟩ := ih hpos2 hnd2
    simp only [List.map_cons, List.nodup_cons, List.mem_map, not_exists, not_and] at hnd
    have hc := hpos c (List.mem_cons_self _ _)
    have hreq := ih2 (rrRequeued t c) (List.mem_append_right _ (List.mem_singleton_self _))
    rw [rrRequeued_owner, rrRequeued_remainingTime] at hreq
    refine ⟨?_, ?_, ?_⟩
    · intro x hx
      rcases List.mem_cons.1 hx with rfl | hx
      · exact ⟨c, List.mem_cons_self _ _, by rw [rrSlice_eq]⟩
      · obtain ⟨c2, hc2, hown⟩ := ih1 x hx
        rcases List.mem_append.1 hc2 with h | h
        · exact ⟨c2, List.mem_cons_of_mem _ h, hown⟩
        · rw [List.mem_singleton.1 h, rrRequeued_owner] at hown
          exact ⟨c, List.mem_cons_self _ _, hown⟩
    · intro c2 hc2
      rw [List.length_cons, executedBefore_cons]
      rcases List.mem_cons.1 hc2 with rfl | hc2
      · rw [hreq]
        simp only [rrSlice_eq, if_true, TimelineEntry.duration]
        omega
      · have hne : ¬ (rrSlice t c).1 = c2.owner := by
          rw [rrSlice_eq]; exact fun h => hnd.1 c2 hc2 h.symm
        rw [if_neg hne, ih2 c2 (List.mem_append_left _ hc2)]
        omega
    · intro k i e hk
      cases k with
      | zero =>
        simp only [List.getElem?_cons_zero, Option.some.injEq, rrSlice_eq, Prod.mk.injEq] at hk
        obtain ⟨hi, he⟩ := hk
        refine ⟨c, List.mem_cons_self _ _, hi, ?_, ?_, ?_, ?_⟩
        · rw [← he]
        · rw [← he, executedBefore_zero]
          simp only [TimelineEntry.duration, hq]; omega
        · rw [← he]; simp only [TimelineEntry.duration, hq]; omega
        · rw [← he]; simp only [TimelineEntry.duration, hq]; omega
      | succ k =>
        simp only [List.getElem?_cons_succ] at hk
        obtain ⟨c2, hc2, hown, hname, hdur, hlo, hhi⟩ := ih3 k i e hk
        rw [executedBefore_cons]
        rcases List.mem_append.1 hc2 with h | h
        · have hne : ¬ (rrSlice t c).1 = i := by
            rw [rrSlice_eq, ← hown]; exact fun h2 => hnd.1 c2 h h2.symm
          refine ⟨c2, List.mem_cons_of_mem _ h, hown, hname, ?_, hlo, hhi⟩
          rw [if_neg hne, hdur]; congr 1; omega
        · rw [List.mem_singleton.1 h] at hown hname hdur
          rw [rrRequeued_owner] at hown
          rw [rrRequeued_processName] at hname
          rw [rrRequeued_remainingTime] at hdur
          have heq : (rrSlice t c).1 = i := by rw [rrSlice_eq]; exact hown
          refine ⟨c, List.mem_cons_self _ _, hown, hname, ?_, hlo, hhi⟩
          rw [if_pos heq, hdur]
          simp only [rrSlice_eq, TimelineEntry.duration]
          congr 1; omega
  | finished t c rest sl rs hdone hrest ih =>
    have hpos2 : ∀ c2 ∈ rest, 0 < c2.remainingTime :=
      fun c2 hc2 => hpos c2 (List.mem_cons_of_mem _ hc2)
    simp only [List.map_cons, List.nodup_cons, List.mem_map, not_exists, not_and] at hnd
    obtain ⟨ih1, ih2, ih3⟩ := ih hpos2 hnd.2
    have hc := hpos c (List.mem_cons_self _ _)
    have hnone : ∀ x ∈ sl, x.1 ≠ c.owner := by
      intro x hx hxo
      obtain ⟨c2, hc2, hown⟩ := ih1 x hx
      exact hnd.1 c2 hc2 (hown.trans hxo)
    refine ⟨?_, ?_, ?_⟩
    · intro x hx
      rcases List.mem_cons.1 hx with rfl | hx
      · exact ⟨c, List.mem_cons_self _ _, by rw [rrSlice_eq]⟩
      · obtain ⟨c2, hc2, hown⟩ := ih1 x hx
        exact ⟨c2, List.mem_cons_of_mem _ hc2, hown⟩
    · intro c2 hc2
      rw [List.length_cons, executedBefore_cons]
      rcases List.mem_cons.1 hc2 with rfl | hc2
      · rw [executedBefore_of_not_owner sl _ _ hnone]
        simp only [rrSlice_eq, if_true, TimelineEntry.duration]
        rw [hq] at hdone ⊢
        omega
      · have hne : ¬ (rrSlice t c).1 = c2.owner := by
          rw [rrSlice_eq]; exact fun h => hnd.1 c2 hc2 h.symm
        rw [if_neg hne, ih2 c2 hc2]
        omega
    · intro k i e hk
      cases k with
      | zero =>
        simp only [List.getElem?_cons_zero, Option.some.injEq, rrSlice_eq, Prod.mk.injEq] at hk
        obtain ⟨hi, he⟩ := hk
        refine ⟨c, List.mem_cons_self _ _, hi, ?_, ?_, ?_, ?_⟩
        · rw [← he]
        · rw [← he, executedBefore_zero]
          simp only [TimelineEntry.duration, hq]; omega
        · rw [← he]; simp only [TimelineEntry.duration, hq]; omega
        · rw [← he]; simp only [TimelineEntry.duration, hq]; omega
      | succ k =>
        simp only [List.getElem?_cons_succ] at hk
        obtain ⟨c2, hc2, hown, hname, hdur, hlo, hhi⟩ := ih3 k i e hk
        rw [executedBefore_cons]
        have hne : ¬ (rrSlice t c).1 = i := by
          rw [rrSlice_eq, ← hown]; exact fun h2 => hnd.1 c2 hc2 h2.symm
        refine ⟨c2, List.mem_cons_of_mem _ hc2, hown, hname, ?_, hlo, hhi⟩
        rw [if_neg hne, hdur]; congr 1; omega

theorem mem_processQueue (ps : List ProcessRecord) (c : RRItem) :
    c ∈ processQueue ps ↔
      ∃ p, ps[c.owner]? = some p ∧ c.proc = { p with startTime := none } ∧
        c.remainingTime = p.burstTime := by
  unfold processQueue
  rw [List.mem_map]
  constructor
  · rintro ⟨⟨i, p⟩, hmem, rfl⟩
    exact ⟨p, List.mem_enum_iff_getElem?.1 hmem, rfl, rfl⟩
  · rintro ⟨p, hp, hproc, hrem⟩
    refine ⟨(c.owner, p), List.mem_enum_iff_getElem?.2 hp, ?_⟩
    obtain ⟨o, pr, r⟩ := c
    simp only at hproc hrem
    simp [hproc, hrem]

theorem processQueue_owners (ps : List ProcessRecord) :
    (processQueue ps).map (fun c => c.owner) = List.range ps.length := by
  unfold processQueue
  rw [List.map_map, ← List.enum_map_fst ps]
  rfl

theorem processQueue_remaining (ps : List ProcessRecord) :
    (processQueue ps).map (fun c => c.remainingTime) = ps.map fun p => p.burstTime := by
  unfold processQueue
  rw [List.map_map]
  conv_rhs => rw [← List.enum_map_snd ps, List.map_map]
  rfl

/-- C4: round robin conserves the total burst.  For every process list with
positive burst times, `executeRoundRobin` returns and its timeline starts at
time `0`; every entry starts where the previous one finished; the `k`-th
entry, pushed for the process at input position `i`, carries the name of that
process and lasts `min 3` of the burst time of the process minus what the
earlier entries executed for it, which is between `1` and `3`; the durations
of the entries of each process sum to its burst time; and the last finish time
is the sum of all burst times. -/
theorem roundRobin_conserves_burst (processes : List ProcessRecord)
    (hpos : ∀ p ∈ processes, 0 < p.burstTime) :
    ∃ (st : RRState) (out : ScheduleOutput),
      roundRobinRun processes = some st ∧ executeRoundRobin processes = some out ∧
      out.schedule = st.schedule.map Prod.snd ∧
      (∀ e, out.schedule[0]? = some e → e.start = 0) ∧
      (∀ (k : Nat) (e e2 : TimelineEntry), out.schedule[k]? = some e →
        out.schedule[k + 1]? = some e2 → e2.start = e.finish) ∧
      (∀ (k i : Nat) (e : TimelineEntry), st.schedule[k]? = some (i, e) →
        ∃ p, processes[i]? = some p ∧ e.process = p.processName ∧
          e.duration = min 3 (p.burstTime - executedBefore st.schedule i k) ∧
          1 ≤ e.duration ∧ e.duration ≤ 3) ∧
      (∀ (i : Nat) (p : ProcessRecord), processes[i]? = some p →
        executedBefore st.schedule i st.schedule.length = p.burstTime) ∧
      (processes ≠ [] → ∃ e, out.schedule.getLast? = some e ∧
        e.finish = (processes.map fun p => p.burstTime).sum) := by
  obtain ⟨t, cs, sl, rs, heq, hlen, htrace⟩ := roundRobinRun_spec processes
  have hposq : ∀ c ∈ processQueue processes, 0 < c.remainingTime := by
    intro c hc
    obtain ⟨p, hp, _, hrem⟩ := (mem_processQueue processes c).1 hc
    rw [hrem]
    exact hpos p (List.mem_iff_getElem?.2 ⟨_, hp⟩)
  have hnd : ((processQueue processes).map fun c => c.owner).Nodup := by
    rw [processQueue_owners]; exact List.nodup_range _
  obtain ⟨_, h2, h3⟩ := htrace.slices_spec hposq hnd
  obtain ⟨c1, c2, c3⟩ := contiguousFrom_spec 0 _ htrace.contiguous
  refine ⟨_, _, heq, executeRoundRobin_of_run processes _ heq, rfl, c1, c2, ?_, ?_, ?_⟩
  · intro k i e hk
    obtain ⟨c, hc, hown, hname, hdur, hlo, hhi⟩ := h3 k i e hk
    obtain ⟨p, hp, hproc, hrem⟩ := (mem_processQueue processes c).1 hc
    refine ⟨p, by rw [← hown]; exact hp, ?_, ?_, hlo, hhi⟩
    · rw [hname, hproc]
    · rw [hdur, hrem]
  · intro i p hp
    have hc : (⟨i, { p with startTime := none }, p.burstTime⟩ : RRItem) ∈
        processQueue processes :=
      (mem_processQueue processes _).2 ⟨p, hp, rfl, rfl⟩
    exact h2 _ hc
  · intro hne
    have hsl : sl.map Prod.snd ≠ [] := by
      cases processes with
      | nil => exact absurd rfl hne
      | cons p ps =>
        have hq : ∃ c rest, processQueue (p :: ps) = c :: rest := by
          cases hpq : processQueue (p :: ps) with
          | nil =>
            have := processQueue_length (p :: ps)
            rw [hpq] at this
            simp at this
          | cons c rest => exact ⟨c, rest, rfl⟩
        obtain ⟨c, rest, hcq⟩ := hq
        rw [hcq] at htrace
        cases htrace <;> simp
    obtain ⟨e, he, hfin⟩ := c3 hsl
    refine ⟨e, he, ?_⟩
    rw [hfin, List.map_map]
    have := htrace.total_duration hposq
    rw [processQueue_remaining] at this
    rw [← this]
    simp only [zero_add]
    rfl

/-- Instance of `roundRobin_conserves_burst` on the sample process list. -/
theorem roundRobin_conserves_burst_witness :
    (∀ p ∈ sampleProcesses, 0 < p.burstTime) ∧
    ∃ (st : RRState) (out : ScheduleOutput),
      roundRobinRun sampleProcesses = some st ∧
      executeRoundRobin sampleProcesses = some out ∧
      out.schedule = st.schedule.map Prod.snd ∧
      (∀ e, out.schedule[0]? = some e → e.start = 0) ∧
      (∀ (k : Nat) (e e2 : TimelineEntry), out.schedule[k]? = some e →
        out.schedule[k + 1]? = some e2 → e2.start = e.finish) ∧
      (∀ (k i : Nat) (e : TimelineEntry), st.schedule[k]? = some (i, e) →
        ∃ p, sampleProcesses[i]? = some p ∧ e.process = p.processName ∧
          e.duration = min 3 (p.burstTime - executedBefore st.schedule i k) ∧
          1 ≤ e.duration ∧ e.duration ≤ 3) ∧
      (∀ (i : Nat) (p : ProcessRecord), sampleProcesses[i]? = some p →
        executedBefore st.schedule i st.schedule.length = p.burstTime) ∧
      (sampleProcesses ≠ [] → ∃ e, out.schedule.getLast? = some e ∧
        e.finish = (sampleProcesses.map fun p => p.burstTime).sum) :=
  ⟨by decide, roundRobin_conserves_burst sampleProcesses (by decide)⟩
/-! ## Deadlock detection: theorems -/

theorem getD_set_eq {α : Type} (l : List α) (i k : Nat) (v d : α) (hi : i < l.length) :
    (l.set i v).getD k d = if k = i then v else l.getD k d := by
  simp only [List.getD_eq_getElem?_getD, List.getElem?_set]
  by_cases h : i = k
  · subst h; simp [hi]
  · have h2 : ¬ k = i := fun e => h e.symm
    simp [h, h2]

theorem releaseInto_aux (a : List Int) (n : Nat) :
    ∀ work : List Int, n ≤ work.length →
      ((List.range n).foldl (fun w j => w.set j (w.getD j 0 + a.getD j 0)) work).length
          = work.length ∧
        ∀ r, ((List.range n).foldl (fun w j => w.set j (w.getD j 0 + a.getD j 0)) work).getD r 0
          = if r < n then work.getD r 0 + a.getD r 0 else work.getD r 0 := by
  induction n with
  | zero => intro work _; simp
  | succ n ih =>
    intro work hn
    obtain ⟨hlen, hget⟩ := ih work (by omega)
    rw [List.range_succ, List.foldl_append]
    simp only [List.foldl_cons, List.foldl_nil]
    refine ⟨by rw [List.length_set, hlen], ?_⟩
    intro r
    rw [getD_set_eq _ _ _ _ _ (by rw [hlen]; omega)]
    by_cases hr : r = n
    · subst hr
      rw [if_pos rfl, hget r, if_neg (lt_irrefl r), if_pos (Nat.lt_succ_self r)]
    · rw [if_neg hr, hget r]
      by_cases hlt : r < n
      · rw [if_pos hlt, if_pos (by omega)]
      · rw [if_neg hlt, if_neg (by omega)]

theorem releaseInto_spec (work a : List Int) (resources : Nat) (h : resources ≤ work.length) :
    (releaseInto work a resources).length = work.length ∧
      ∀ r < resources, (releaseInto work a resources).getD r 0 = work.getD r 0 + a.getD r 0 := by
  obtain ⟨h1, h2⟩ := releaseInto_aux a resources work h
  refine ⟨h1, fun r hr => ?_⟩
  have := h2 r
  rw [if_pos hr] at this
  exact this

theorem canProceed_iff (requestRow work : List Int) (resources : Nat) :
    canProceed requestRow work resources = true ↔
      ∀ r < resources, requestRow.getD r 0 ≤ work.getD r 0 := by
  simp [canProceed, List.all_eq_true]

theorem heldBy_append (allocation : List (List Int)) (s₁ s₂ : List Nat) (r : Nat) :
    heldBy allocation (s₁ ++ s₂) r = heldBy allocation s₁ r + heldBy allocation s₂ r := by
  simp [heldBy, List.map_append, List.sum_append]

theorem SafeSequence.length_le {allocation request : List (List Int)} {available : List Int}
    {seq : List Nat} (h : SafeSequence allocation request available seq) :
    seq.length ≤ allocation.length := by
  have hsub : seq ⊆ List.range allocation.length :=
    fun p hp => List.mem_range.2 (h.2.1 p hp)
  have := (List.subperm_of_subset h.1 hsub).length_le
  simpa using this

theorem scanStep_noop (allocation request : List (List Int)) (resources : Nat)
    (st : ScanState) (i : Nat)
    (h : ¬ (st.finish.getD i false = false ∧
      canProceed (request.getD i []) st.work resources = true)) :
    scanStep allocation request resources st i = st := by
  unfold scanStep
  by_cases h1 : st.finish.getD i false = false
  · have h2 : ¬ canProceed (request.getD i []) st.work resources = true := fun h2 => h ⟨h1, h2⟩
    rw [if_pos h1, if_neg h2]
  · rw [if_neg h1]

theorem scanStep_fire (allocation request : List (List Int)) (resources : Nat)
    (st : ScanState) (i : Nat)
    (h1 : st.finish.getD i false = false)
    (h2 : canProceed (request.getD i []) st.work resources = true) :
    scanStep allocation request resources st i =
      { work := releaseInto st.work (allocation.getD i []) resources,
        finish := st.finish.set i true, found := true } := by
  unfold scanStep
  rw [if_pos h1, if_pos h2]

theorem scanStep_inv (allocation request : List (List Int)) (available : List Int)
    (st : ScanState) (i : Nat) (order : List Nat) (hi : i < allocation.length)
    (hinv : DetectInv allocation request available st.work st.finish order) :
    ∃ order2 : List Nat,
      DetectInv allocation request available
        (scanStep allocation request available.length st i).work
        (scanStep allocation request available.length st i).finish order2 ∧
      order.length ≤ order2.length ∧
      ((scanStep allocation request available.length st i).found = true →
        st.found = true ∨ order.length < order2.length) := by
  by_cases hfire : st.finish.getD i false = false ∧
      canProceed (request.getD i []) st.work available.length = true
  · obtain ⟨h1, h2⟩ := hfire
    rw [scanStep_fire _ _ _ _ _ h1 h2]
    obtain ⟨hwl, hfl, hmem, hwork, hnd, hlt, hsafe⟩ := hinv
    obtain ⟨hrl, hrget⟩ := releaseInto_spec st.work (allocation.getD i []) available.length
      (le_of_eq hwl.symm)
    have hnot : i ∉ order := by
      intro hin
      have := (hmem i).1 hin
      rw [h1] at this
      exact absurd this (by simp)
    refine ⟨order ++ [i], ⟨?_, ?_, ?_, ?_, ?_, ?_, ?_⟩, by simp, fun _ => Or.inr (by simp)⟩
    · exact hrl.trans hwl
    · simp only [List.length_set]; exact hfl
    · intro k
      simp only
      rw [getD_set_eq _ _ _ _ _ (by rw [hfl]; exact hi), List.mem_append, List.mem_singleton]
      by_cases hk : k = i
      · simp [hk]
      · simp only [hk, or_false, if_false]
        exact hmem k
    · intro r hr
      simp only
      rw [hrget r hr, hwork r hr, heldBy_append]
      simp only [heldBy, List.map_cons, List.map_nil, List.sum_cons, List.sum_nil]
      omega
    · exact List.nodup_append.2 ⟨hnd, List.nodup_singleton i, by
        intro a ha hb
        rw [List.mem_singleton.1 hb] at ha
        exact hnot ha⟩
    · intro p hp
      rcases List.mem_append.1 hp with hp | hp
      · exact hlt p hp
      · rw [List.mem_singleton.1 hp]; exact hi
    · intro j p hj r hr
      by_cases hjl : j < order.length
      · rw [List.getElem?_append_left hjl] at hj
        rw [List.take_append_of_le_length (le_of_lt hjl)]
        exact hsafe j p hj r hr
      · have hjge : order.length ≤ j := not_lt.1 hjl
        rw [List.getElem?_append_right hjge] at hj
        have hj0 : j - order.length = 0 := by
          by_contra hne
          obtain ⟨m, hm⟩ := Nat.exists_eq_succ_of_ne_zero hne
          rw [hm] at hj
          simp at hj
        rw [hj0] at hj
        simp only [List.getElem?_cons_zero, Option.some.injEq] at hj
        have hjeq : j = order.length := by omega
        subst hj
        rw [hjeq, List.take_append_of_le_length (le_refl _), List.take_length,
          ← hwork r hr]
        exact (canProceed_iff _ _ _).1 h2 r hr
  · rw [scanStep_noop _ _ _ _ _ hfire]
    exact ⟨order, hinv, le_refl _, fun h => Or.inl h⟩

theorem scanFold_inv (allocation request : List (List Int)) (available : List Int)
    (l : List Nat) (hl : ∀ i ∈ l, i < allocation.length) :
    ∀ (st : ScanState) (order : List Nat),
      DetectInv allocation request available st.work st.finish order →
      ∃ order2 : List Nat,
        DetectInv allocation request available
          (l.foldl (scanStep allocation request available.length) st).work
          (l.foldl (scanStep allocation request available.length) st).finish order2 ∧
        order.length ≤ order2.length ∧
        ((l.foldl (scanStep allocation request available.length) st).found = true →
          st.found = true ∨ order.length < order2.length) := by
  induction l with
  | nil => intro st order hinv; exact ⟨order, hinv, le_refl _, fun h => Or.inl h⟩
  | cons i l ih =>
    intro st order hinv
    obtain ⟨o1, hinv1, hle1, hf1⟩ :=
      scanStep_inv allocation request available st i order (hl i (List.mem_cons_self _ _)) hinv
    obtain ⟨o2, hinv2, hle2, hf2⟩ :=
      ih (fun k hk => hl k (List.mem_cons_of_mem _ hk)) _ o1 hinv1
    refine ⟨o2, hinv2, le_trans hle1 hle2, ?_⟩
    intro hfound
    rcases hf2 hfound with h | h
    · rcases hf1 h with h | h
      · exact Or.inl h
      · exact Or.inr (lt_of_lt_of_le h hle2)
    · exact Or.inr (lt_of_le_of_lt hle1 h)

theorem scanFold_quiet (allocation request : List (List Int)) (resources : Nat)
    (l : List Nat) :
    ∀ st : ScanState,
      (l.foldl (scanStep allocation request resources) st).found = false →
      l.foldl (scanStep allocation request resources) st = st ∧
      ∀ i ∈ l, ¬ (st.finish.getD i false = false ∧
        canProceed (request.getD i []) st.work resources = true) := by
  induction l with
  | nil => intro st _; exact ⟨rfl, by simp⟩
  | cons i l ih =>
    intro st hfound
    obtain ⟨heq, hall⟩ := ih _ hfound
    rw [List.foldl_cons, heq] at hfound
    have hno : ¬ (st.finish.getD i false = false ∧
        canProceed (request.getD i []) st.work resources = true) := by
      intro ⟨h1, h2⟩
      rw [scanStep_fire _ _ _ _ _ h1 h2] at hfound
      simp at hfound
    have hst := scanStep_noop allocation request resources st i hno
    rw [hst] at heq hall
    refine ⟨by rw [List.foldl_cons, hst, heq], ?_⟩
    intro k hk
    rcases List.mem_cons.1 hk with rfl | hk
    · exact hno
    · exact hall k hk

theorem detectLoop_spec (allocation request : List (List Int)) (available : List Int)
    (fuel : Nat) :
    ∀ (work : List Int) (finish : List Bool) (order : List Nat),
      DetectInv allocation request available work finish order →
      allocation.length < fuel + order.length →
      ∃ (workF : List Int) (finishF : List Bool) (orderF : List Nat),
        detectLoop allocation request available.length fuel work finish = some finishF ∧
        DetectInv allocation request available workF finishF orderF ∧
        ∀ i < allocation.length, ¬ (finishF.getD i false = false ∧
          canProceed (request.getD i []) workF available.length = true) := by
  induction fuel with
  | zero =>
    intro work finish order hinv hfuel
    have := hinv.2.2.2.2.length_le
    omega
  | succ fuel ih =>
    intro work finish order hinv hfuel
    obtain ⟨o2, hinv2, hle, hf⟩ :=
      scanFold_inv allocation request available (List.range allocation.length)
        (fun i hi => List.mem_range.1 hi)
        { work := work, finish := finish, found := false } order hinv
    rw [detectLoop]
    by_cases hfound : (scanRound allocation request available.length work finish).found = true
    · rw [if_pos hfound]
      have hlt : order.length < o2.length := by
        rcases hf hfound with h | h
        · simp at h
        · exact h
      exact ih _ _ o2 hinv2 (by omega)
    · rw [if_neg hfound]
      have hfalse : (scanRound allocation request available.length work finish).found = false := by
        simpa using hfound
      obtain ⟨heq, hall⟩ := scanFold_quiet allocation request available.length
        (List.range allocation.length) { work := work, finish := finish, found := false } hfalse
      refine ⟨work, finish, order, ?_, hinv, fun i hi => hall i (List.mem_range.2 hi)⟩
      show some (scanRound allocation request available.length work finish).finish = some finish
      unfold scanRound
      rw [heq]

theorem getD_getD_nonneg (allocation : List (List Int))
    (hnonneg : ∀ row ∈ allocation, ∀ x ∈ row, 0 ≤ x) (p r : Nat) :
    0 ≤ (allocation.getD p []).getD r 0 := by
  rw [List.getD_eq_getElem?_getD, List.getD_eq_getElem?_getD]
  cases hp : allocation[p]? with
  | none => simp
  | some row =>
    cases hr : row[r]? with
    | none => simp [hr]
    | some x =>
      simp only [Option.getD_some, hr]
      exact hnonneg row (List.mem_iff_getElem?.2 ⟨p, hp⟩) x (List.mem_iff_getElem?.2 ⟨r, hr⟩)

theorem heldBy_mono (allocation : List (List Int))
    (hnonneg : ∀ row ∈ allocation, ∀ x ∈ row, 0 ≤ x) (s o : List Nat) (r : Nat)
    (hnd : s.Nodup) (hsub : s ⊆ o) : heldBy allocation s r ≤ heldBy allocation o r := by
  obtain ⟨l, hperm, hsl⟩ := List.subperm_of_subset hnd hsub
  unfold heldBy
  rw [← (hperm.map _).sum_eq]
  apply List.Sublist.sum_le_sum (hsl.map _)
  intro a ha
  obtain ⟨p, _, rfl⟩ := List.mem_map.1 ha
  exact getD_getD_nonneg allocation hnonneg p r

theorem SafeSequence.of_append {allocation request : List (List Int)} {available : List Int}
    {s₁ s₂ : List Nat} (h : SafeSequence allocation request available (s₁ ++ s₂)) :
    SafeSequence allocation request available s₁ := by
  obtain ⟨hnd, hlt, hsafe⟩ := h
  refine ⟨(List.nodup_append.1 hnd).1, fun p hp => hlt p (List.mem_append_left _ hp), ?_⟩
  intro j p hj r hr
  have hjl : j < s₁.length := by
    by_contra hge
    rw [List.getElem?_eq_none (not_lt.1 hge)] at hj
    exact absurd hj (by simp)
  have := hsafe j p (by rw [List.getElem?_append_left hjl]; exact hj) r hr
  rw [List.take_append_of_le_length (le_of_lt hjl)] at this
  exact this

theorem SafeSequence.all_finished {allocation request : List (List Int)}
    {available : List Int} {seq : List Nat}
    (hnonneg : ∀ row ∈ allocation, ∀ x ∈ row, 0 ≤ x)
    (workF : List Int) (finishF : List Bool) (orderF : List Nat)
    (hinv : DetectInv allocation request available workF finishF orderF)
    (hquiet : ∀ i < allocation.length, ¬ (finishF.getD i false = false ∧
      canProceed (request.getD i []) workF available.length = true))
    (h : SafeSequence allocation request available seq) :
    ∀ p ∈ seq, p ∈ orderF := by
  obtain ⟨hnd, hlt, hsafe⟩ := h
  have key : ∀ n : Nat, ∀ p ∈ seq.take n, p ∈ orderF := by
    intro n
    induction n with
    | zero => simp
    | succ n ih =>
      intro p hp
      by_cases hn : n < seq.length
      · rw [List.take_succ, List.mem_append] at hp
        rcases hp with hp | hp
        · exact ih p hp
        · have hget : seq[n]? = some p := by
            cases hs : seq[n]? with
            | none => rw [hs] at hp; simp at hp
            | some q =>
              rw [hs] at hp
              simp only [Option.toList_some, List.mem_singleton] at hp
              rw [hp]
          have hcan : canProceed (request.getD p []) workF available.length = true := by
            rw [canProceed_iff]
            intro r hr
            have h1 := hsafe n p hget r hr
            have h2 := heldBy_mono allocation hnonneg (seq.take n) orderF r
              (hnd.sublist (List.take_sublist _ _)) ih
            rw [hinv.2.2.2.1 r hr]
            omega
          have hpl : p < allocation.length := hlt p (List.mem_iff_getElem?.2 ⟨n, hget⟩)
          have hfin : finishF.getD p false = true := by
            cases hf : finishF.getD p false with
            | true => rfl
            | false => exact absurd ⟨hf, hcan⟩ (hquiet p hpl)
          exact (hinv.2.2.1 p).2 hfin
      · rw [List.take_of_length_le (by omega)] at hp
        have := ih
        rw [List.take_of_length_le (by omega)] at this
        exact this p hp
  intro p hp
  have := key seq.length p
  rw [List.take_length] at this
  exact this hp

theorem detectInv_init (allocation request : List (List Int)) (available : List Int) :
    DetectInv allocation request available available
      (List.replicate allocation.length false) [] := by
  refine ⟨rfl, by simp, ?_, ?_, List.nodup_nil, by simp, by simp⟩
  · intro i
    simp only [List.not_mem_nil, false_iff]
    rw [List.getD_eq_getElem?_getD]
    cases h : (List.replicate allocation.length false)[i]? with
    | none => simp
    | some b =>
      have := List.mem_iff_getElem?.2 ⟨i, h⟩
      rw [List.mem_replicate] at this
      simp [this.2]
  · intro r _
    simp [heldBy]

/-- C6: for allocation and request matrices of `P` rows and `R` columns with
non-negative allocation entries and an available vector of length `R`,
`detectDeadlock` returns, and it leaves process `i` out of
`deadlockedProcesses` if and only if some sequence of distinct processes ending
in `i` is such that the request of each of them is component-wise at most
`available` plus the allocations of the processes before it in the sequence;
`deadlocked` is false exactly when all processes can be put into one such
sequence (a safe state); and `deadlockedProcesses` lists indices of processes
in ascending order. -/
theorem detectDeadlock_characterisation (allocation request : List (List Int))
    (available : List Int)
    (_hrows : request.length = allocation.length)
    (_hacols : ∀ row ∈ allocation, row.length = available.length)
    (_hrcols : ∀ row ∈ request, row.length = available.length)
    (hnonneg : ∀ row ∈ allocation, ∀ x ∈ row, 0 ≤ x) :
    ∃ res : DeadlockResult,
      detectDeadlock allocation request available = some res ∧
      (∀ i < allocation.length, i ∉ res.deadlockedProcesses ↔
        ∃ seq : List Nat, SafeSequence allocation request available seq ∧
          seq.getLast? = some i) ∧
      (res.deadlocked = false ↔
        ∃ seq : List Nat, seq.Perm (List.range allocation.length) ∧
          SafeSequence allocation request available seq) ∧
      res.deadlockedProcesses.Pairwise (fun a b => a < b) ∧
      (∀ i ∈ res.deadlockedProcesses, i < allocation.length) := by
  obtain ⟨workF, finishF, orderF, heq, hinv, hquiet⟩ :=
    detectLoop_spec allocation request available (allocation.length + 1) available
      (List.replicate allocation.length false) [] (detectInv_init _ _ _) (by simp)
  have hmemdp : ∀ i, i ∈ (List.range allocation.length).filter
      (fun i => decide (finishF.getD i false = false)) ↔
      i < allocation.length ∧ i ∉ orderF := by
    intro i
    rw [List.mem_filter, List.mem_range, hinv.2.2.1 i]
    simp
  have hfinished : ∀ seq : List Nat, SafeSequence allocation request available seq →
      ∀ p ∈ seq, p ∈ orderF :=
    fun seq hs => hs.all_finished hnonneg workF finishF orderF hinv hquiet
  refine ⟨_, by rw [detectDeadlock, heq]; rfl, ?_, ?_, ?_, ?_⟩
  · intro i hi
    simp only
    rw [hmemdp i]
    constructor
    · intro hnot
      have hin : i ∈ orderF := by
        by_contra h; exact hnot ⟨hi, h⟩
      obtain ⟨l₁, l₂, hsplit⟩ := List.append_of_mem hin
      refine ⟨l₁ ++ [i], ?_, by simp⟩
      have hs := hinv.2.2.2.2
      rw [hsplit, ← List.singleton_append, ← List.append_assoc] at hs
      exact hs.of_append
    · rintro ⟨seq, hs, hlast⟩ ⟨_, hnot⟩
      exact hnot (hfinished seq hs i (List.mem_of_getLast?_eq_some hlast))
  · simp only
    rw [decide_eq_false_iff_not, gt_iff_lt, List.length_pos, not_not, List.eq_nil_iff_forall_not_mem]
    constructor
    · intro hall
      refine ⟨orderF, ?_, hinv.2.2.2.2⟩
      rw [List.perm_ext_iff_of_nodup hinv.2.2.2.2.1 (List.nodup_range _)]
      intro i
      rw [List.mem_range]
      constructor
      · exact hinv.2.2.2.2.2.1 i
      · intro hi
        by_contra h
        exact hall i ((hmemdp i).2 ⟨hi, h⟩)
    · rintro ⟨seq, hperm, hs⟩ i hi
      obtain ⟨hlt, hnot⟩ := (hmemdp i).1 hi
      exact hnot (hfinished seq hs i (hperm.mem_iff.2 (List.mem_range.2 hlt)))
  · exact (List.pairwise_lt_range _).filter _
  · intro i hi
    exact ((hmemdp i).1 hi).1

/-- Instance of `detectDeadlock_characterisation` on the reference dataset of
`executeDeadlockDetection`. -/
theorem detectDeadlock_characterisation_witness :
    (sampleRequest.length = sampleAllocation.length) ∧
    (∀ row ∈ sampleAllocation, row.length = sampleAvailable.length) ∧
    (∀ row ∈ sampleRequest, row.length = sampleAvailable.length) ∧
    (∀ row ∈ sampleAllocation, ∀ x ∈ row, 0 ≤ x) ∧
    ∃ res : DeadlockResult,
      detectDeadlock sampleAllocation sampleRequest sampleAvailable = some res ∧
      (∀ i < sampleAllocation.length, i ∉ res.deadlockedProcesses ↔
        ∃ seq : List Nat, SafeSequence sampleAllocation sampleRequest sampleAvailable seq ∧
          seq.getLast? = some i) ∧
      (res.deadlocked = false ↔
        ∃ seq : List Nat, seq.Perm (List.range sampleAllocation.length) ∧
          SafeSequence sampleAllocation sampleRequest sampleAvailable seq) ∧
      res.deadlockedProcesses.Pairwise (fun a b => a < b) ∧
      (∀ i ∈ res.deadlockedProcesses, i < sampleAllocation.length) :=
  ⟨by decide, by decide, by decide, by decide,
    detectDeadlock_characterisation sampleAllocation sampleRequest sampleAvailable
      (by decide) (by decide) (by decide) (by decide)⟩
/-! ## Contiguous memory allocation: theorems -/

theorem writeBlock_aux (value start : Nat) (n : Nat) :
    ∀ memory : List Nat,
      ((List.range n).foldl (fun m d => m.set (start + d) value) memory).length
          = memory.length ∧
        ∀ j, ((List.range n).foldl (fun m d => m.set (start + d) value) memory)[j]?
          = if start ≤ j ∧ j < start + n ∧ j < memory.length then some value
            else memory[j]? := by
  induction n with
  | zero =>
    intro memory
    refine ⟨rfl, fun j => ?_⟩
    simp only [List.range_zero, List.foldl_nil]
    rw [if_neg (by omega)]
  | succ n ih =>
    intro memory
    obtain ⟨hlen, hget⟩ := ih memory
    rw [List.range_succ, List.foldl_append]
    simp only [List.foldl_cons, List.foldl_nil]
    refine ⟨by rw [List.length_set, hlen], ?_⟩
    intro j
    rw [List.getElem?_set, hlen, hget j]
    by_cases hj : start + n = j
    · rw [if_pos hj]
      by_cases hl : start + n < memory.length
      · rw [if_pos hl, if_pos (by omega)]
      · rw [if_neg hl, if_neg (by omega)]
        exact (List.getElem?_eq_none (by omega)).symm
    · rw [if_neg hj]
      by_cases hc : start ≤ j ∧ j < start + n ∧ j < memory.length
      · rw [if_pos hc, if_pos (by omega)]
      · rw [if_neg hc, if_neg (by omega)]

theorem writeBlock_spec (memory : List Nat) (start : Nat) (size : Int) (value : Nat)
    (hfit : (start : Int) + size ≤ memory.length) :
    (writeBlock memory start size value).length = memory.length ∧
      ∀ j : Nat, (writeBlock memory start size value)[j]? =
        if start ≤ j ∧ (j : Int) < start + size then some value else memory[j]? := by
  obtain ⟨h1, h2⟩ := writeBlock_aux value start size.toNat memory
  refine ⟨h1, fun j => ?_⟩
  rw [writeBlock, h2 j]
  by_cases hc : start ≤ j ∧ (j : Int) < start + size
  · rw [if_pos hc, if_pos (by omega)]
  · rw [if_neg hc, if_neg (by omega)]

theorem canAllocateAt_iff (memory : List Nat) (i : Nat) (size : Int) :
    canAllocateAt memory i size = true ↔
      ∀ j : Nat, i ≤ j → (j : Int) < i + size → memory[j]? = some 0 := by
  simp only [canAllocateAt, List.all_eq_true, List.mem_range, decide_eq_true_eq]
  constructor
  · intro h j hij hj
    have := h (j - i) (by omega)
    rw [show i + (j - i) = j by omega] at this
    exact this
  · intro h d hd
    exact h (i + d) (by omega) (by omega)

theorem find?_range_spec (p : Nat → Bool) (n : Nat) :
    (∀ i, (List.range n).find? p = some i ↔ (i < n ∧ p i = true ∧ ∀ k < i, p k = false)) ∧
    ((List.range n).find? p = none ↔ ∀ k < n, p k = false) := by
  have hnone : ∀ m, (List.range m).find? p = none ↔ ∀ k < m, p k = false := by
    intro m
    simp [List.find?_eq_none]
  refine ⟨?_, hnone n⟩
  induction n with
  | zero => intro i; simp
  | succ n ih =>
    intro i
    rw [List.range_succ, List.find?_append]
    cases hf : (List.range n).find? p with
    | some i0 =>
      have h0 := (ih i0).1 hf
      simp only [Option.or, Option.some.injEq]
      constructor
      · rintro rfl
        exact ⟨by omega, h0.2.1, h0.2.2⟩
      · rintro ⟨hi, hpi, hmin⟩
        by_contra hne
        rcases Nat.lt_or_gt_of_ne hne with h | h
        · have := hmin i0 h
          rw [h0.2.1] at this
          exact absurd this (by simp)
        · have := h0.2.2 i h
          rw [hpi] at this
          exact absurd this (by simp)
    | none =>
      have hall := (hnone n).1 hf
      simp only [Option.or]
      by_cases hpn : p n = true
      · simp only [List.find?_cons, hpn, List.find?_nil, Option.some.injEq]
        constructor
        · rintro rfl
          exact ⟨by omega, hpn, hall⟩
        · rintro ⟨hi, hpi, hmin⟩
          by_contra hne
          have hlt : i < n := by omega
          have := hall i hlt
          rw [hpi] at this
          exact absurd this (by simp)
      · have hpn2 : p n = false := by simpa using hpn
        simp only [List.find?_cons, hpn2, List.find?_nil]
        constructor
        · intro h; exact absurd h (by simp)
        · rintro ⟨hi, hpi, hmin⟩
          exfalso
          by_cases hin : i = n
          · rw [hin, hpn2] at hpi; exact absurd hpi (by simp)
          · have := hall i (by omega)
            rw [hpi] at this
            exact absurd this (by simp)

theorem firstFitSearch_some_iff (memory : List Nat) (size : Int) (p : Nat) :
    firstFitSearch memory size = some p ↔
      FitsAt memory size p ∧ ∀ q < p, ¬ FitsAt memory size q := by
  unfold firstFitSearch FitsAt
  rw [(find?_range_spec _ _).1 p, canAllocateAt_iff]
  constructor
  · rintro ⟨hp, hcan, hmin⟩
    refine ⟨⟨by omega, hcan⟩, ?_⟩
    rintro q hq ⟨_, hcells⟩
    have := hmin q hq
    rw [(canAllocateAt_iff memory q size).2 hcells] at this
    exact absurd this (by simp)
  · rintro ⟨⟨hp, hcan⟩, hmin⟩
    refine ⟨by omega, hcan, ?_⟩
    intro k hk
    cases hc : canAllocateAt memory k size with
    | false => rfl
    | true =>
      exact absurd ⟨by omega, (canAllocateAt_iff memory k size).1 hc⟩ (hmin k hk)

theorem firstFitSearch_none_iff (memory : List Nat) (size : Int) :
    firstFitSearch memory size = none ↔ ∀ p, ¬ FitsAt memory size p := by
  unfold firstFitSearch FitsAt
  rw [(find?_range_spec _ _).2]
  constructor
  · rintro h p ⟨hp, hcells⟩
    have := h p (by omega)
    rw [(canAllocateAt_iff memory p size).2 hcells] at this
    exact absurd this (by simp)
  · intro h k hk
    cases hc : canAllocateAt memory k size with
    | false => rfl
    | true =>
      exact absurd ⟨by omega, (canAllocateAt_iff memory k size).1 hc⟩ (h k)

/-- C8: in `executeFirstFit`, for every process and every memory array of
`totalMemory` cells (in particular the one left by the processes before it),
the body of the loop returns; the process gets status `Allocated` with
`allocatedPosition = p` exactly when `p` is the least offset at which a block
of its size fits (`p + size ≤ 100` and the cells `p .. p + size - 1` are free);
it gets status `Failed` with `allocatedPosition = -1` exactly when no such
offset exists; on success exactly the cells `p .. p + size - 1` are set to the
1-based index of the process, and on failure the memory array is unchanged. -/
theorem firstFit_allocates_lowest_fit (memory : List Nat)
    (hlen : memory.length = totalMemory) (index : Nat) (process : ProcessRecord) :
    ∃ (memory2 : List Nat) (record : ProcessRecord),
      allocateOne firstFitPlace memory index process = some (memory2, record) ∧
      record.inputFields = process.inputFields ∧
      (∀ p : Nat,
        (record.status = Status.Allocated ∧ record.allocatedPosition = some (p : Int)) ↔
          (FitsAt memory process.memorySize p ∧
            ∀ q < p, ¬ FitsAt memory process.memorySize q)) ∧
      ((record.status = Status.Failed ∧ record.allocatedPosition = some (-1)) ↔
        ∀ p, ¬ FitsAt memory process.memorySize p) ∧
      (∀ p : Nat, record.status = Status.Allocated →
        record.allocatedPosition = some (p : Int) →
        memory2.length = memory.length ∧
        ∀ j : Nat, memory2[j]? =
          if p ≤ j ∧ (j : Int) < p + process.memorySize then some (index + 1)
          else memory[j]?) ∧
      (record.status = Status.Failed → memory2 = memory) := by
  cases hs : firstFitSearch memory process.memorySize with
  | none =>
    have hnofit := (firstFitSearch_none_iff memory process.memorySize).1 hs
    refine ⟨memory, { process with allocatedPosition := some (-1), status := Status.Failed },
      by simp [allocateOne, firstFitPlace, hs], rfl, ?_, ?_, ?_, fun _ => rfl⟩
    · intro p
      constructor
      · rintro ⟨h, _⟩; exact absurd h (by simp)
      · rintro ⟨h, _⟩; exact absurd h (hnofit p)
    · exact ⟨fun _ => hnofit, fun _ => ⟨rfl, rfl⟩⟩
    · intro p h; exact absurd h (by simp)
  | some p0 =>
    have hfit := (firstFitSearch_some_iff memory process.memorySize p0).1 hs
    refine ⟨writeBlock memory p0 process.memorySize (index + 1),
      { process with allocatedPosition := some (p0 : Int), status := Status.Allocated },
      by simp [allocateOne, firstFitPlace, hs], rfl, ?_, ?_, ?_, ?_⟩
    · intro p
      constructor
      · rintro ⟨_, hpos⟩
        simp only [Option.some.injEq, Nat.cast_inj] at hpos
        rw [← hpos]; exact hfit
      · rintro hp
        have := (firstFitSearch_some_iff memory process.memorySize p).2 hp
        rw [hs] at this
        simp only [Option.some.injEq] at this
        exact ⟨rfl, by rw [this]⟩
    · constructor
      · rintro ⟨h, _⟩; exact absurd h (by simp)
      · intro h; exact absurd hfit.1 (h p0)
    · intro p _ hpos
      simp only [Option.some.injEq, Nat.cast_inj] at hpos
      rw [← hpos]
      exact writeBlock_spec memory p0 process.memorySize (index + 1)
        (by rw [hlen]; exact hfit.1.1)
    · intro h; exact absurd h (by simp)

/-- Instance of `firstFit_allocates_lowest_fit` on the empty memory and a
process of size 25. -/
theorem firstFit_allocates_lowest_fit_witness :
    emptyMemory.length = totalMemory ∧
    ∃ (memory2 : List Nat) (record : ProcessRecord),
      allocateOne firstFitPlace emptyMemory 0
        { id := 1, processName := "P1", arrivalTime := 0, burstTime := 6, priority := 2,
          memorySize := 25, status := Status.Ready, startTime := none, finishTime := none,
          waitingTime := none, turnaroundTime := none, allocatedPosition := none }
        = some (memory2, record) ∧
      record.inputFields = (1, "P1", 0, 6, 2, 25) ∧
      (∀ p : Nat,
        (record.status = Status.Allocated ∧ record.allocatedPosition = some (p : Int)) ↔
          (FitsAt emptyMemory 25 p ∧ ∀ q < p, ¬ FitsAt emptyMemory 25 q)) ∧
      ((record.status = Status.Failed ∧ record.allocatedPosition = some (-1)) ↔
        ∀ p, ¬ FitsAt emptyMemory 25 p) ∧
      (∀ p : Nat, record.status = Status.Allocated →
        record.allocatedPosition = some (p : Int) →
        memory2.length = emptyMemory.length ∧
        ∀ j : Nat, memory2[j]? =
          if p ≤ j ∧ (j : Int) < p + 25 then some (0 + 1) else emptyMemory[j]?) ∧
      (record.status = Status.Failed → memory2 = emptyMemory) :=
  ⟨by decide,
    firstFit_allocates_lowest_fit emptyMemory (by decide) 0
      { id := 1, processName := "P1", arrivalTime := 0, burstTime := 6, priority := 2,
        memorySize := 25, status := Status.Ready, startTime := none, finishTime := none,
        waitingTime := none, turnaroundTime := none, allocatedPosition := none }⟩
/-! ## Best fit and worst fit: the scan over the free runs -/

theorem freeBlockSize_spec (memory : List Nat) (fuel : Nat) :
    ∀ i, totalMemory - i ≤ fuel →
      (∀ j, i ≤ j → j < i + freeBlockSize memory fuel i →
        j < totalMemory ∧ memory[j]? = some 0) ∧
      ¬ (i + freeBlockSize memory fuel i < totalMemory ∧
        memory[i + freeBlockSize memory fuel i]? = some 0) := by
  induction fuel with
  | zero =>
    intro i hi
    simp only [freeBlockSize, Nat.add_zero]
    exact ⟨fun j h1 h2 => absurd h2 (by omega), fun h => by omega⟩
  | succ fuel ih =>
    intro i hi
    rw [freeBlockSize]
    by_cases hc : i < totalMemory ∧ memory[i]? = some 0
    · rw [if_pos hc]
      obtain ⟨h1, h2⟩ := ih (i + 1) (by omega)
      refine ⟨?_, ?_⟩
      · intro j hij hj
        by_cases hji : j = i
        · rw [hji]; exact hc
        · exact h1 j (by omega) (by omega)
      · rw [show i + (freeBlockSize memory fuel (i + 1) + 1)
            = i + 1 + freeBlockSize memory fuel (i + 1) by omega]
        exact h2
    · rw [if_neg hc]
      exact ⟨fun j h1 h2 => absurd h2 (by omega), by simpa using hc⟩

theorem freeBlockSize_pos (memory : List Nat) (i : Nat)
    (hc : i < totalMemory ∧ memory[i]? = some 0) :
    0 < freeBlockSize memory (totalMemory - i) i := by
  obtain ⟨n, hn⟩ : ∃ n, totalMemory - i = n + 1 := ⟨totalMemory - i - 1, by omega⟩
  rw [hn, freeBlockSize, if_pos hc]
  omega

theorem isFreeRun_at_boundary (memory : List Nat) (i : Nat)
    (hb : ScanBoundary memory i) (hc : i < totalMemory ∧ memory[i]? = some 0) :
    IsFreeRun memory i (freeBlockSize memory (totalMemory - i) i) ∧
      ScanBoundary memory (i + freeBlockSize memory (totalMemory - i) i) := by
  obtain ⟨h1, h2⟩ := freeBlockSize_spec memory (totalMemory - i) i (le_refl _)
  have hpos := freeBlockSize_pos memory i hc
  refine ⟨⟨hpos, ?_, fun j hij hj => (h1 j hij hj).2, ?_, h2⟩, Or.inr (Or.inr h2)⟩
  · have := (h1 (i + freeBlockSize memory (totalMemory - i) i - 1) (by omega) (by omega)).1
    omega
  · rcases hb with h | h | h
    · exact Or.inl h
    · exact Or.inr h
    · exact absurd hc h

theorem isFreeRun_unique (memory : List Nat) (a L₁ L₂ : Nat)
    (h₁ : IsFreeRun memory a L₁) (h₂ : IsFreeRun memory a L₂) : L₁ = L₂ := by
  obtain ⟨p1, b1, c1, _, m1⟩ := h₁
  obtain ⟨p2, b2, c2, _, m2⟩ := h₂
  rcases Nat.lt_trichotomy L₁ L₂ with h | h | h
  · exact absurd ⟨by omega, c2 (a + L₁) (by omega) (by omega)⟩ m1
  · exact h
  · exact absurd ⟨by omega, c1 (a + L₂) (by omega) (by omega)⟩ m2

theorem freeRuns_spec (memory : List Nat) (fuel : Nat) :
    ∀ i, totalMemory - i ≤ fuel → ScanBoundary memory i →
      (∀ x ∈ freeRuns memory fuel i, IsFreeRun memory x.1 x.2 ∧ i ≤ x.1) ∧
      (∀ a L, IsFreeRun memory a L → i ≤ a → (a, L) ∈ freeRuns memory fuel i) ∧
      (freeRuns memory fuel i).Pairwise (fun x y => x.1 < y.1) := by
  induction fuel with
  | zero =>
    intro i hi _
    simp only [freeRuns, List.not_mem_nil, false_implies, implies_true, List.Pairwise.nil,
      and_true, true_and]
    intro a L hrun hia
    have := hrun.1; have := hrun.2.1
    omega
  | succ fuel ih =>
    intro i hi hb
    rw [freeRuns]
    by_cases hlt : i < totalMemory
    · rw [if_pos hlt]
      by_cases hfree : memory[i]? = some 0
      · rw [if_pos hfree]
        obtain ⟨hrun, hb2⟩ := isFreeRun_at_boundary memory i hb ⟨hlt, hfree⟩
        have hpos := hrun.1
        obtain ⟨r1, r2, r3⟩ :=
          ih (i + freeBlockSize memory (totalMemory - i) i) (by omega) hb2
        refine ⟨?_, ?_, ?_⟩
        · intro x hx
          rcases List.mem_cons.1 hx with rfl | hx
          · exact ⟨hrun, le_refl _⟩
          · exact ⟨(r1 x hx).1, by have := (r1 x hx).2; omega⟩
        · intro a L haL hia
          by_cases hai : a = i
          · subst hai
            rw [isFreeRun_unique memory a L _ haL hrun]
            exact List.mem_cons_self _ _
          · refine List.mem_cons_of_mem _ (r2 a L haL ?_)
            by_contra hlt2
            have hprev := hrun.2.2.1 (a - 1) (by omega) (by omega)
            rcases haL.2.2.2.1 with h0 | h0
            · omega
            · exact h0 hprev
        · refine List.Pairwise.cons ?_ r3
          intro x hx
          have := (r1 x hx).2
          show i < x.1
          omega
      · rw [if_neg hfree]
        have hb2 : ScanBoundary memory (i + 1) := Or.inr (Or.inl (by simpa using hfree))
        obtain ⟨r1, r2, r3⟩ := ih (i + 1) (by omega) hb2
        refine ⟨fun x hx => ⟨(r1 x hx).1, by have := (r1 x hx).2; omega⟩, ?_, r3⟩
        intro a L haL hia
        refine r2 a L haL ?_
        by_contra hlt2
        have hai : a = i := by omega
        exact hfree (by rw [← hai]; exact haL.2.2.1 a (le_refl _) (by have := haL.1; omega))
    · rw [if_neg hlt]
      refine ⟨by simp, ?_, List.Pairwise.nil⟩
      intro a L hrun hia
      have := hrun.1; have := hrun.2.1
      omega

theorem bestFitScan_eq (memory : List Nat) (size : Int) (fuel : Nat) :
    ∀ (i : Nat) (bestPosition : Int) (bestSize : Option Nat), totalMemory - i ≤ fuel →
      bestFitScan memory size fuel i bestPosition bestSize =
        some ((freeRuns memory fuel i).foldl (bestUpdate size) (bestPosition, bestSize)).1 := by
  induction fuel with
  | zero =>
    intro i bp bs hi
    rw [bestFitScan, if_neg (by omega)]
    rfl
  | succ fuel ih =>
    intro i bp bs hi
    rw [bestFitScan, freeRuns]
    by_cases hlt : i < totalMemory
    · rw [if_pos hlt, if_pos hlt]
      by_cases hfree : memory[i]? = some 0
      · have hpos := freeBlockSize_pos memory i ⟨hlt, hfree⟩
        simp only [hfree, if_true, List.foldl_cons]
        by_cases hc : (freeBlockSize memory (totalMemory - i) i : Int) ≥ size ∧
            belowBest (freeBlockSize memory (totalMemory - i) i) bs = true
        · rw [if_pos hc, ih _ _ _ (by omega)]
          simp only [bestUpdate, hc, and_self, if_true]
        · rw [if_neg hc, ih _ _ _ (by omega)]
          simp only [bestUpdate, hc, if_false]
      · simp only [hfree, if_false]
        exact ih _ _ _ (by omega)
    · rw [if_neg hlt, if_neg hlt]
      rfl

theorem worstFitScan_eq (memory : List Nat) (size : Int) (fuel : Nat) :
    ∀ (i : Nat) (worstPosition worstSize : Int), totalMemory - i ≤ fuel →
      worstFitScan memory size fuel i worstPosition worstSize =
        some ((freeRuns memory fuel i).foldl (worstUpdate size)
          (worstPosition, worstSize)).1 := by
  induction fuel with
  | zero =>
    intro i wp ws hi
    rw [worstFitScan, if_neg (by omega)]
    rfl
  | succ fuel ih =>
    intro i wp ws hi
    rw [worstFitScan, freeRuns]
    by_cases hlt : i < totalMemory
    · rw [if_pos hlt, if_pos hlt]
      by_cases hfree : memory[i]? = some 0
      · have hpos := freeBlockSize_pos memory i ⟨hlt, hfree⟩
        simp only [hfree, if_true, List.foldl_cons]
        by_cases hc : (freeBlockSize memory (totalMemory - i) i : Int) ≥ size ∧
            (freeBlockSize memory (totalMemory - i) i : Int) > ws
        · rw [if_pos hc, ih _ _ _ (by omega)]
          simp only [worstUpdate, hc, and_self, if_true]
        · rw [if_neg hc, ih _ _ _ (by omega)]
          simp only [worstUpdate, hc, if_false]
      · simp only [hfree, if_false]
        exact ih _ _ _ (by omega)
    · rw [if_neg hlt, if_neg hlt]
      rfl

theorem bestUpdate_valid (size : Int) (seen : List (Nat × Nat)) (st : Int × Option Nat)
    (x : Nat × Nat) (hbefore : ∀ y ∈ seen, y.1 < x.1) (h : BestValid size seen st) :
    BestValid size (seen ++ [x]) (bestUpdate size st x) := by
  unfold bestUpdate
  rcases h with ⟨hnone, hst⟩ | ⟨b, hb, hst, hbq, hbest⟩
  · subst hst
    by_cases hq : size ≤ (x.2 : Int)
    · rw [if_pos ⟨hq, rfl⟩]
      refine Or.inr ⟨x, by simp, rfl, hq, ?_⟩
      intro y hy hyq
      rcases List.mem_append.1 hy with hy | hy
      · exact absurd hyq (hnone y hy)
      · rw [List.mem_singleton.1 hy]; exact ⟨le_refl _, fun _ => le_refl _⟩
    · rw [if_neg (fun hc => hq hc.1)]
      refine Or.inl ⟨?_, rfl⟩
      intro y hy
      rcases List.mem_append.1 hy with hy | hy
      · exact hnone y hy
      · rw [List.mem_singleton.1 hy]; exact hq
  · subst hst
    by_cases hc : (x.2 : Int) ≥ size ∧ belowBest x.2 (some b.2) = true
    · rw [if_pos hc]
      have hlt : x.2 < b.2 := by simpa [belowBest] using hc.2
      refine Or.inr ⟨x, by simp, rfl, hc.1, ?_⟩
      intro y hy hyq
      rcases List.mem_append.1 hy with hy | hy
      · have := (hbest y hy hyq).1
        exact ⟨by omega, fun h => by omega⟩
      · rw [List.mem_singleton.1 hy]; exact ⟨le_refl _, fun _ => le_refl _⟩
    · rw [if_neg hc]
      refine Or.inr ⟨b, List.mem_append_left _ hb, rfl, hbq, ?_⟩
      intro y hy hyq
      rcases List.mem_append.1 hy with hy | hy
      · exact hbest y hy hyq
      · rw [List.mem_singleton.1 hy] at hyq ⊢
        have hge : b.2 ≤ x.2 := by
          by_contra hlt
          exact hc ⟨hyq, by simp [belowBest]; omega⟩
        exact ⟨hge, fun _ => le_of_lt (hbefore b hb)⟩

theorem bestFold_valid (size : Int) (runs : List (Nat × Nat)) :
    ∀ (seen : List (Nat × Nat)) (st : Int × Option Nat),
      (seen ++ runs).Pairwise (fun x y => x.1 < y.1) → BestValid size seen st →
      BestValid size (seen ++ runs) (runs.foldl (bestUpdate size) st) := by
  induction runs with
  | nil => intro seen st _ h; simpa using h
  | cons x rest ih =>
    intro seen st hpw h
    have hbefore : ∀ y ∈ seen, y.1 < x.1 := by
      intro y hy
      exact (List.pairwise_append.1 hpw).2.2 y hy x (List.mem_cons_self _ _)
    have := ih (seen ++ [x]) (bestUpdate size st x)
      (by rw [List.append_assoc]; exact hpw) (bestUpdate_valid size seen st x hbefore h)
    rw [List.append_assoc] at this
    exact this

theorem worstUpdate_valid (size : Int) (seen : List (Nat × Nat)) (st : Int × Int)
    (x : Nat × Nat) (hbefore : ∀ y ∈ seen, y.1 < x.1) (h : WorstValid size seen st) :
    WorstValid size (seen ++ [x]) (worstUpdate size st x) := by
  unfold worstUpdate
  rcases h with ⟨hnone, hst⟩ | ⟨b, hb, hst, hbq, hbest⟩
  · subst hst
    by_cases hq : size ≤ (x.2 : Int)
    · rw [if_pos ⟨hq, by show (-1 : Int) < x.2; omega⟩]
      refine Or.inr ⟨x, by simp, rfl, hq, ?_⟩
      intro y hy hyq
      rcases List.mem_append.1 hy with hy | hy
      · exact absurd hyq (hnone y hy)
      · rw [List.mem_singleton.1 hy]; exact ⟨le_refl _, fun _ => le_refl _⟩
    · rw [if_neg (fun hc => hq hc.1)]
      refine Or.inl ⟨?_, rfl⟩
      intro y hy
      rcases List.mem_append.1 hy with hy | hy
      · exact hnone y hy
      · rw [List.mem_singleton.1 hy]; exact hq
  · subst hst
    by_cases hc : (x.2 : Int) ≥ size ∧ (x.2 : Int) > (b.2 : Int)
    · rw [if_pos hc]
      have hlt : b.2 < x.2 := by have := hc.2; omega
      refine Or.inr ⟨x, by simp, rfl, hc.1, ?_⟩
      intro y hy hyq
      rcases List.mem_append.1 hy with hy | hy
      · have := (hbest y hy hyq).1
        exact ⟨by omega, fun h => by omega⟩
      · rw [List.mem_singleton.1 hy]; exact ⟨le_refl _, fun _ => le_refl _⟩
    · rw [if_neg hc]
      refine Or.inr ⟨b, List.mem_append_left _ hb, rfl, hbq, ?_⟩
      intro y hy hyq
      rcases List.mem_append.1 hy with hy | hy
      · exact hbest y hy hyq
      · rw [List.mem_singleton.1 hy] at hyq ⊢
        have hge : x.2 ≤ b.2 := by
          by_contra hlt
          exact hc ⟨hyq, by omega⟩
        exact ⟨hge, fun _ => le_of_lt (hbefore b hb)⟩

theorem worstFold_valid (size : Int) (runs : List (Nat × Nat)) :
    ∀ (seen : List (Nat × Nat)) (st : Int × Int),
      (seen ++ runs).Pairwise (fun x y => x.1 < y.1) → WorstValid size seen st →
      WorstValid size (seen ++ runs) (runs.foldl (worstUpdate size) st) := by
  induction runs with
  | nil => intro seen st _ h; simpa using h
  | cons x rest ih =>
    intro seen st hpw h
    have hbefore : ∀ y ∈ seen, y.1 < x.1 := by
      intro y hy
      exact (List.pairwise_append.1 hpw).2.2 y hy x (List.mem_cons_self _ _)
    have := ih (seen ++ [x]) (worstUpdate size st x)
      (by rw [List.append_assoc]; exact hpw) (worstUpdate_valid size seen st x hbefore h)
    rw [List.append_assoc] at this
    exact this

theorem freeRuns_all (memory : List Nat) :
    (∀ x ∈ freeRuns memory totalMemory 0, IsFreeRun memory x.1 x.2) ∧
    (∀ a L, IsFreeRun memory a L → (a, L) ∈ freeRuns memory totalMemory 0) ∧
    (freeRuns memory totalMemory 0).Pairwise (fun x y => x.1 < y.1) := by
  obtain ⟨r1, r2, r3⟩ := freeRuns_spec memory totalMemory 0 (by omega) (Or.inl rfl)
  exact ⟨fun x hx => (r1 x hx).1, fun a L h => r2 a L h (Nat.zero_le _), r3⟩

theorem bestFitPlace_spec (memory : List Nat) (size : Int) :
    (∃ a L : Nat, bestFitPlace memory size = some (some a) ∧ IsFreeRun memory a L ∧
      size ≤ (L : Int) ∧
      ∀ a2 L2 : Nat, IsFreeRun memory a2 L2 → size ≤ (L2 : Int) →
        L ≤ L2 ∧ (L2 = L → a ≤ a2)) ∨
    (bestFitPlace memory size = some none ∧
      ∀ a L : Nat, IsFreeRun memory a L → ¬ size ≤ (L : Int)) := by
  obtain ⟨r1, r2, r3⟩ := freeRuns_all memory
  have hvalid := bestFold_valid size (freeRuns memory totalMemory 0) [] (-1, none)
    (by simpa using r3) (Or.inl ⟨by simp, rfl⟩)
  rw [List.nil_append] at hvalid
  have hscan := bestFitScan_eq memory size totalMemory 0 (-1) none (by omega)
  rcases hvalid with ⟨hnone, hst⟩ | ⟨x, hx, hst, hxq, hbest⟩
  · right
    refine ⟨?_, fun a L h => hnone (a, L) (r2 a L h)⟩
    rw [bestFitPlace, hscan, hst]
    rfl
  · left
    refine ⟨x.1, x.2, ?_, r1 x hx, hxq, fun a2 L2 h hq => hbest (a2, L2) (r2 a2 L2 h) hq⟩
    rw [bestFitPlace, hscan, hst]
    have hne : ((x.1 : Nat) : Int) ≠ -1 := by omega
    simp [hne]

theorem worstFitPlace_spec (memory : List Nat) (size : Int) :
    (∃ a L : Nat, worstFitPlace memory size = some (some a) ∧ IsFreeRun memory a L ∧
      size ≤ (L : Int) ∧
      ∀ a2 L2 : Nat, IsFreeRun memory a2 L2 → L2 ≤ L ∧ (L2 = L → a ≤ a2)) ∨
    (worstFitPlace memory size = some none ∧
      ∀ a L : Nat, IsFreeRun memory a L → ¬ size ≤ (L : Int)) := by
  obtain ⟨r1, r2, r3⟩ := freeRuns_all memory
  have hvalid := worstFold_valid size (freeRuns memory totalMemory 0) [] (-1, -1)
    (by simpa using r3) (Or.inl ⟨by simp, rfl⟩)
  rw [List.nil_append] at hvalid
  have hscan := worstFitScan_eq memory size totalMemory 0 (-1) (-1) (by omega)
  rcases hvalid with ⟨hnone, hst⟩ | ⟨x, hx, hst, hxq, hbest⟩
  · right
    refine ⟨?_, fun a L h => hnone (a, L) (r2 a L h)⟩
    rw [worstFitPlace, hscan, hst]
    rfl
  · left
    refine ⟨x.1, x.2, ?_, r1 x hx, hxq, ?_⟩
    · rw [worstFitPlace, hscan, hst]
      have hne : ((x.1 : Nat) : Int) ≠ -1 := by omega
      simp [hne]
    · intro a2 L2 h
      by_cases hq : size ≤ (L2 : Int)
      · exact hbest (a2, L2) (r2 a2 L2 h) hq
      · exact ⟨by omega, fun he => by omega⟩
/-! ## Best fit, worst fit and the separation of the allocated regions -/

/-- C9: in `executeBestFit`, for every process and every memory array (in
particular the one left by the processes before it, and a positive integer
size), the body of the loop returns; if some maximal free run is at least as
long as the size of the process, the process is placed (status `Allocated`) at
the start offset of a maximal free run whose length is the minimum among the
runs that are long enough, and which has the lowest offset among the runs of
that length; otherwise the process is marked `Failed` with
`allocatedPosition = -1` and memory is unchanged. -/
theorem bestFit_allocates_smallest_run (memory : List Nat) (index : Nat)
    (process : ProcessRecord) :
    ∃ (memory2 : List Nat) (record : ProcessRecord),
      allocateOne bestFitPlace memory index process = some (memory2, record) ∧
      record.inputFields = process.inputFields ∧
      ((∃ a L : Nat, IsFreeRun memory a L ∧ process.memorySize ≤ (L : Int)) →
        ∃ a L : Nat, IsFreeRun memory a L ∧ process.memorySize ≤ (L : Int) ∧
          (∀ a2 L2 : Nat, IsFreeRun memory a2 L2 → process.memorySize ≤ (L2 : Int) →
            L ≤ L2 ∧ (L2 = L → a ≤ a2)) ∧
          record.status = Status.Allocated ∧ record.allocatedPosition = some (a : Int) ∧
          memory2 = writeBlock memory a process.memorySize (index + 1)) ∧
      ((¬ ∃ a L : Nat, IsFreeRun memory a L ∧ process.memorySize ≤ (L : Int)) →
        record.status = Status.Failed ∧ record.allocatedPosition = some (-1) ∧
        memory2 = memory) := by
  rcases bestFitPlace_spec memory process.memorySize with
    ⟨a, L, hplace, hrun, hq, hbest⟩ | ⟨hplace, hnone⟩
  · refine ⟨writeBlock memory a process.memorySize (index + 1),
      { process with allocatedPosition := some (a : Int), status := Status.Allocated },
      by simp [allocateOne, hplace], rfl, ?_, ?_⟩
    · intro _
      exact ⟨a, L, hrun, hq, hbest, rfl, rfl, rfl⟩
    · intro h
      exact absurd ⟨a, L, hrun, hq⟩ h
  · refine ⟨memory, { process with allocatedPosition := some (-1), status := Status.Failed },
      by simp [allocateOne, hplace], rfl, ?_, ?_⟩
    · rintro ⟨a, L, hrun, hq⟩
      exact absurd hq (hnone a L hrun)
    · intro _
      exact ⟨rfl, rfl, rfl⟩

/-- C10: in `executeWorstFit`, for every process and every memory array (in
particular the one left by the processes before it, and a positive integer
size), the body of the loop returns; if some maximal free run is at least as
long as the size of the process, the process is placed (status `Allocated`) at
the start offset of a maximal free run of maximum length, the one of lowest
offset among the runs of that length; otherwise the process is marked `Failed`
with `allocatedPosition = -1` and memory is unchanged. -/
theorem worstFit_allocates_largest_run (memory : List Nat) (index : Nat)
    (process : ProcessRecord) :
    ∃ (memory2 : List Nat) (record : ProcessRecord),
      allocateOne worstFitPlace memory index process = some (memory2, record) ∧
      record.inputFields = process.inputFields ∧
      ((∃ a L : Nat, IsFreeRun memory a L ∧ process.memorySize ≤ (L : Int)) →
        ∃ a L : Nat, IsFreeRun memory a L ∧ process.memorySize ≤ (L : Int) ∧
          (∀ a2 L2 : Nat, IsFreeRun memory a2 L2 → L2 ≤ L ∧ (L2 = L → a ≤ a2)) ∧
          record.status = Status.Allocated ∧ record.allocatedPosition = some (a : Int) ∧
          memory2 = writeBlock memory a process.memorySize (index + 1)) ∧
      ((¬ ∃ a L : Nat, IsFreeRun memory a L ∧ process.memorySize ≤ (L : Int)) →
        record.status = Status.Failed ∧ record.allocatedPosition = some (-1) ∧
        memory2 = memory) := by
  rcases worstFitPlace_spec memory process.memorySize with
    ⟨a, L, hplace, hrun, hq, hbest⟩ | ⟨hplace, hnone⟩
  · refine ⟨writeBlock memory a process.memorySize (index + 1),
      { process with allocatedPosition := some (a : Int), status := Status.Allocated },
      by simp [allocateOne, hplace], rfl, ?_, ?_⟩
    · intro _
      exact ⟨a, L, hrun, hq, hbest, rfl, rfl, rfl⟩
    · intro h
      exact absurd ⟨a, L, hrun, hq⟩ h
  · refine ⟨memory, { process with allocatedPosition := some (-1), status := Status.Failed },
      by simp [allocateOne, hplace], rfl, ?_, ?_⟩
    · rintro ⟨a, L, hrun, hq⟩
      exact absurd hq (hnone a L hrun)
    · intro _
      exact ⟨rfl, rfl, rfl⟩

theorem fitsAt_of_isFreeRun (memory : List Nat) (size : Int) (a L : Nat)
    (hrun : IsFreeRun memory a L) (hq : size ≤ (L : Int)) : FitsAt memory size a := by
  obtain ⟨_, hb, hcells, _, _⟩ := hrun
  exact ⟨by omega, fun j h1 h2 => hcells j h1 (by omega)⟩

theorem firstFitPlace_sound (memory : List Nat) (size : Int) :
    firstFitPlace memory size ≠ none ∧
      ∀ pos, firstFitPlace memory size = some (some pos) → FitsAt memory size pos := by
  refine ⟨by simp [firstFitPlace], fun pos h => ?_⟩
  simp only [firstFitPlace, Option.some.injEq] at h
  exact ((firstFitSearch_some_iff memory size pos).1 h).1

theorem bestFitPlace_sound (memory : List Nat) (size : Int) :
    bestFitPlace memory size ≠ none ∧
      ∀ pos, bestFitPlace memory size = some (some pos) → FitsAt memory size pos := by
  rcases bestFitPlace_spec memory size with ⟨a, L, hplace, hrun, hq, _⟩ | ⟨hplace, _⟩
  · refine ⟨by rw [hplace]; simp, fun pos h => ?_⟩
    rw [hplace] at h
    simp only [Option.some.injEq] at h
    rw [← h]
    exact fitsAt_of_isFreeRun memory size a L hrun hq
  · refine ⟨by rw [hplace]; simp, fun pos h => ?_⟩
    rw [hplace] at h
    simp at h

theorem worstFitPlace_sound (memory : List Nat) (size : Int) :
    worstFitPlace memory size ≠ none ∧
      ∀ pos, worstFitPlace memory size = some (some pos) → FitsAt memory size pos := by
  rcases worstFitPlace_spec memory size with ⟨a, L, hplace, hrun, hq, _⟩ | ⟨hplace, _⟩
  · refine ⟨by rw [hplace]; simp, fun pos h => ?_⟩
    rw [hplace] at h
    simp only [Option.some.injEq] at h
    rw [← h]
    exact fitsAt_of_isFreeRun memory size a L hrun hq
  · refine ⟨by rw [hplace]; simp, fun pos h => ?_⟩
    rw [hplace] at h
    simp at h

theorem allocateOne_inv (place : List Nat → Int → Option (Option Nat))
    (hsound : ∀ memory size, place memory size ≠ none ∧
      ∀ pos, place memory size = some (some pos) → FitsAt memory size pos)
    (memory : List Nat) (allocations : List ProcessRecord) (index : Nat)
    (process : ProcessRecord) (hsize : 0 < process.memorySize)
    (hinv : AllocInv memory allocations) :
    ∃ (memory2 : List Nat) (record : ProcessRecord),
      allocateOne place memory index process = some (memory2, record) ∧
      AllocInv memory2 (allocations ++ [record]) := by
  obtain ⟨hlen, hcells, hpw⟩ := hinv
  obtain ⟨htotal, hfits⟩ := hsound memory process.memorySize
  cases hp : place memory process.memorySize with
  | none => exact absurd hp htotal
  | some found =>
    cases found with
    | none =>
      refine ⟨memory, { process with allocatedPosition := some (-1), status := Status.Failed },
        by simp [allocateOne, hp], hlen, ?_, ?_⟩
      · intro r hr hst
        rcases List.mem_append.1 hr with hr | hr
        · exact hcells r hr hst
        · rw [List.mem_singleton.1 hr] at hst
          exact absurd hst (by simp)
      · refine List.pairwise_append.2 ⟨hpw, List.pairwise_singleton _ _, ?_⟩
        intro a _ b hb _ hst
        rw [List.mem_singleton.1 hb] at hst
        exact absurd hst (by simp)
    | some pos =>
      obtain ⟨hend, hfree⟩ := hfits pos hp
      obtain ⟨hwl, hwget⟩ := writeBlock_spec memory pos process.memorySize (index + 1)
        (by rw [hlen]; exact hend)
      refine ⟨writeBlock memory pos process.memorySize (index + 1),
        { process with allocatedPosition := some (pos : Int), status := Status.Allocated },
        by simp [allocateOne, hp], hwl.trans hlen, ?_, ?_⟩
      · intro r hr hst
        rcases List.mem_append.1 hr with hr | hr
        · obtain ⟨p, h1, h2, h3, h4⟩ := hcells r hr hst
          refine ⟨p, h1, h2, h3, fun j hj1 hj2 => ?_⟩
          rw [hwget j]
          split
          · simp
          · exact h4 j hj1 hj2
        · rw [List.mem_singleton.1 hr]
          refine ⟨pos, rfl, hend, hsize, fun j hj1 hj2 => ?_⟩
          rw [hwget j, if_pos ⟨hj1, hj2⟩]
          simp
      · refine List.pairwise_append.2 ⟨hpw, List.pairwise_singleton _ _, ?_⟩
        intro a ha b hb hsta _
        rw [List.mem_singleton.1 hb]
        obtain ⟨p, h1, h2, h3, h4⟩ := hcells a ha hsta
        refine ⟨(p : Int), (pos : Int), h1, rfl, ?_⟩
        by_contra hover0
        have hover : ¬ ((p : Int) + a.memorySize ≤ (pos : Int) ∨
            (pos : Int) + process.memorySize ≤ (p : Int)) := hover0
        have hj1 : memory[max p pos]? = some 0 :=
          hfree (max p pos) (le_max_right _ _) (by
            show ((max p pos : Nat) : Int) < (pos : Int) + process.memorySize
            rcases le_total p pos with h | h
            · rw [max_eq_right h]; omega
            · rw [max_eq_left h]; omega)
        exact h4 (max p pos) (le_max_left _ _) (by
          rcases le_total p pos with h | h
          · rw [max_eq_right h]; omega
          · rw [max_eq_left h]; omega) hj1

theorem allocationLoop_inv (place : List Nat → Int → Option (Option Nat))
    (hsound : ∀ memory size, place memory size ≠ none ∧
      ∀ pos, place memory size = some (some pos) → FitsAt memory size pos)
    (items : List (Nat × ProcessRecord)) :
    ∀ (memory : List Nat) (allocations : List ProcessRecord),
      (∀ ip ∈ items, 0 < ip.2.memorySize) → AllocInv memory allocations →
      ∃ (memory2 : List Nat) (allocations2 : List ProcessRecord),
        allocationLoop place items memory allocations = some (memory2, allocations2) ∧
        AllocInv memory2 allocations2 := by
  induction items with
  | nil => intro memory allocations _ hinv; exact ⟨memory, allocations, rfl, hinv⟩
  | cons ip rest ih =>
    intro memory allocations hsize hinv
    obtain ⟨index, process⟩ := ip
    obtain ⟨m2, record, hone, hinv2⟩ :=
      allocateOne_inv place hsound memory allocations index process
        (hsize (index, process) (List.mem_cons_self _ _)) hinv
    obtain ⟨m3, a3, hloop, hinv3⟩ :=
      ih m2 (allocations ++ [record]) (fun x hx => hsize x (List.mem_cons_of_mem _ hx)) hinv2
    refine ⟨m3, a3, ?_, hinv3⟩
    rw [allocationLoop, hone]
    exact hloop

theorem regionsDisjoint_symm (r₁ r₂ : ProcessRecord) (h : RegionsDisjoint r₁ r₂) :
    RegionsDisjoint r₂ r₁ := by
  intro h2 h1
  obtain ⟨p₁, p₂, e1, e2, hd⟩ := h h1 h2
  exact ⟨p₂, p₁, e2, e1, hd.symm⟩

theorem AllocInv.separate {memory : List Nat} {allocations : List ProcessRecord}
    (h : AllocInv memory allocations) : SeparateRegions allocations := by
  obtain ⟨_, hcells, hpw⟩ := h
  refine ⟨?_, ?_⟩
  · intro r hr hst
    obtain ⟨p, h1, h2, _, _⟩ := hcells r hr hst
    exact ⟨(p : Int), h1, by omega, h2⟩
  · intro i j r₁ r₂ hij h1 h2
    rw [List.pairwise_iff_getElem] at hpw
    obtain ⟨hi, e1⟩ := List.getElem?_eq_some.1 h1
    obtain ⟨hj, e2⟩ := List.getElem?_eq_some.1 h2
    rcases Nat.lt_or_gt_of_ne hij with hlt | hlt
    · have := hpw i j hi hj hlt
      rw [e1, e2] at this
      exact this
    · have := hpw j i hj hi hlt
      rw [e1, e2] at this
      exact regionsDisjoint_symm _ _ this

theorem allocInv_init : AllocInv emptyMemory [] :=
  ⟨by simp [emptyMemory], by simp, List.Pairwise.nil⟩

/-- C7: for each of `executeFirstFit`, `executeBestFit` and `executeWorstFit`
and every process list with positive memory sizes, the run returns, every
process with status `Allocated` has `allocatedPosition ≥ 0` and
`allocatedPosition + memorySize ≤ 100`, and the regions
`[allocatedPosition, allocatedPosition + memorySize)` of any two distinct
`Allocated` processes do not overlap. -/
theorem allocated_regions_separate (processes : List ProcessRecord)
    (hsize : ∀ p ∈ processes, 0 < p.memorySize) :
    (∃ out : AllocationOutput, executeFirstFit processes = some out ∧
      SeparateRegions out.allocations) ∧
    (∃ out : AllocationOutput, executeBestFit processes = some out ∧
      SeparateRegions out.allocations) ∧
    (∃ out : AllocationOutput, executeWorstFit processes = some out ∧
      SeparateRegions out.allocations) := by
  have hitems : ∀ ip ∈ processes.enum, 0 < ip.2.memorySize :=
    fun ip hip => hsize ip.2 (List.snd_mem_of_mem_enum hip)
  refine ⟨?_, ?_, ?_⟩
  · obtain ⟨m, a, hloop, hinv⟩ :=
      allocationLoop_inv firstFitPlace firstFitPlace_sound processes.enum emptyMemory []
        hitems allocInv_init
    exact ⟨_, by rw [executeFirstFit, hloop]; rfl, hinv.separate⟩
  · obtain ⟨m, a, hloop, hinv⟩ :=
      allocationLoop_inv bestFitPlace bestFitPlace_sound processes.enum emptyMemory []
        hitems allocInv_init
    exact ⟨_, by rw [executeBestFit, hloop]; rfl, hinv.separate⟩
  · obtain ⟨m, a, hloop, hinv⟩ :=
      allocationLoop_inv worstFitPlace worstFitPlace_sound processes.enum emptyMemory []
        hitems allocInv_init
    exact ⟨_, by rw [executeWorstFit, hloop]; rfl, hinv.separate⟩

/-- Instance of `allocated_regions_separate` on the sample process list. -/
theorem allocated_regions_separate_witness :
    (∀ p ∈ sampleProcesses, 0 < p.memorySize) ∧
    (∃ out : AllocationOutput, executeFirstFit sampleProcesses = some out ∧
      SeparateRegions out.allocations) ∧
    (∃ out : AllocationOutput, executeBestFit sampleProcesses = some out ∧
      SeparateRegions out.allocations) ∧
    (∃ out : AllocationOutput, executeWorstFit sampleProcesses = some out ∧
      SeparateRegions out.allocations) :=
  ⟨by decide, allocated_regions_separate sampleProcesses (by decide)⟩

/-! ## Worked examples and the SRTF alias: theorems -/

/-- On P1 (arrival 0, burst 6), P2 (arrival 1, burst 4) the third timeline
entry of `executeRoundRobin` is not P1 executing `[6, 8)`. -/
theorem roundRobin_example_not_6_8 :
    (executeRoundRobin twoProcesses).map (fun out => (timelineSpans out).take 3) ≠
      some [("P1", 0, 3), ("P2", 3, 6), ("P1", 6, 8)] := by
  decide!

/-- C13 (amended): for the process list P1 (arrival 0, burst 6), P2 (arrival
1, burst 4), `executeRoundRobin` (quantum 3) produces the timeline P1 `[0, 3)`,
P2 `[3, 6)`, P1 `[6, 9)`, P2 `[9, 10)`: the third entry runs the whole
remaining burst `3` of P1 and ends at `9`. -/
theorem roundRobin_example_timeline :
    (executeRoundRobin twoProcesses).map timelineSpans =
      some [("P1", 0, 3), ("P2", 3, 6), ("P1", 6, 9), ("P2", 9, 10)] := by
  decide!

/-- On the sample data `executeFirstFit` does not place the fourth process
(size 20) at offset 60. -/
theorem firstFit_example_not_60 :
    (executeFirstFit sampleProcesses).map placements ≠
      some [(some 0, Status.Allocated), (some 25, Status.Allocated),
            (some 40, Status.Allocated), (some 60, Status.Allocated),
            (some (-1), Status.Failed)] := by
  decide!

/-- C14 (amended): for capacity 100 and the sample processes of sizes
`[25, 15, 35, 20, 30]`, `executeFirstFit` places the first four processes at
offsets 0, 25, 40 and 75, and the fifth process (size 30) fails with
`allocatedPosition = -1`. -/
theorem firstFit_example_placements :
    (sampleProcesses.map fun p => p.memorySize) = [25, 15, 35, 20, 30] ∧
    (executeFirstFit sampleProcesses).map placements =
      some [(some 0, Status.Allocated), (some 25, Status.Allocated),
            (some 40, Status.Allocated), (some 75, Status.Allocated),
            (some (-1), Status.Failed)] := by
  decide!

theorem detectDeadlock_reference :
    detectDeadlock [[0, 1, 0], [2, 0, 0], [3, 0, 2], [2, 1, 1], [0, 0, 2]]
        [[0, 0, 0], [2, 0, 2], [0, 0, 0], [1, 0, 0], [0, 0, 2]] [3, 3, 2] =
      some { deadlocked := false, deadlockedProcesses := [] } := by
  decide!

/-- C15: on the reference dataset `detectDeadlock` returns
`deadlockedProcesses = []` and `deadlocked = false`; and for every process
list (whatever its `resourcesHeld` and `resourcesRequested`)
`executeDeadlockDetection` returns, gives every process status `Safe`, and
reports the metrics `deadlockedProcesses = 0` and `safeProcesses` = the number
of processes. -/
theorem executeDeadlockDetection_all_safe (processes : List ProcessRecord) :
    detectDeadlock sampleAllocation sampleRequest sampleAvailable =
      some { deadlocked := false, deadlockedProcesses := [] } ∧
    ∃ out : DeadlockOutput, executeDeadlockDetection processes = some out ∧
      out.allocation = sampleAllocation ∧ out.request = sampleRequest ∧
      out.available = sampleAvailable ∧
      out.deadlocked = false ∧ out.deadlockedProcesses = [] ∧
      out.results = processes.map (fun p => { p with status := Status.Safe }) ∧
      out.metrics.totalProcesses = processes.length ∧
      out.metrics.deadlockedProcesses = 0 ∧
      out.metrics.safeProcesses = processes.length := by
  refine ⟨detectDeadlock_reference, ?_⟩
  unfold executeDeadlockDetection
  simp only [detectDeadlock_reference, Option.map_some']
  refine ⟨_, rfl, rfl, rfl, rfl, rfl, rfl, ?_, rfl, rfl, ?_⟩
  · simp only [List.contains_nil, Bool.false_eq_true, if_false]
    conv_rhs => rw [← List.enum_map_snd processes, List.map_map]
    rfl
  · simp

/-- C19: for every process list, `executeSRTF` returns exactly the result of
`executeSJF` on the same list (same timeline, per-process results and
algorithm label, hence the same metrics); it does return, its label is the one
of SJF, and its timeline and results have exactly one entry per process. -/
theorem executeSRTF_is_executeSJF (processes : List ProcessRecord) :
    executeSRTF processes = executeSJF processes ∧
    ∃ out : ScheduleOutput, executeSRTF processes = some out ∧
      executeSJF processes = some out ∧
      out.algorithm = "Shortest Job First (SJF)" ∧
      out.schedule.length = processes.length ∧
      out.results.length = processes.length ∧
      (executeSRTF processes).map ScheduleOutput.metrics = some (calculateMetrics out.results) ∧
      (executeSJF processes).map ScheduleOutput.metrics = some (calculateMetrics out.results) := by
  refine ⟨rfl, ?_⟩
  obtain ⟨res, heq, htrace⟩ :=
    selectionLoop_spec (fun p => p.burstTime) (2 * processes.length) 0 processes [] []
      (Or.inl (le_refl _))
  have hlen : res.length = processes.length := by
    have := htrace.selection_results_spec.1.1.length_eq
    simpa using this
  have hout : executeSJF processes =
      some { algorithm := "Shortest Job First (SJF)",
             schedule := [] ++ res.map sliceOfResult, results := [] ++ res } := by
    rw [executeSJF, heq]; rfl
  refine ⟨_, hout, hout, rfl, by simpa using hlen, by simpa using hlen, ?_, ?_⟩
  · show (executeSJF processes).map ScheduleOutput.metrics = _
    rw [hout]; rfl
  · rw [hout]; rfl

/-! ## Final clock of the selection schedulers -/

theorem SelectionTrace.clock_account {key : ProcessRecord → Int} {clock : Int}
    {remaining results : List ProcessRecord} (h : SelectionTrace key clock remaining results) :
    finalClock clock results =
        clock + (remaining.map fun p => p.burstTime).sum + (idleGaps clock results).sum ∧
      ∀ g ∈ idleGaps clock results, 0 ≤ g := by
  induction h with
  | done clock => simp [finalClock, idleGaps]
  | run clock t notYetRun i p later hstart hsel harr hsm hea hlater ih =>
    obtain ⟨ih1, ih2⟩ := ih
    have hsum : (notYetRun.map fun q => q.burstTime).sum =
        p.burstTime + ((notYetRun.eraseIdx i).map fun q => q.burstTime).sum := by
      have := ((perm_cons_eraseIdx notYetRun i p hsel).map fun q => q.burstTime).sum_eq
      simpa using this
    have hgap : 0 ≤ t - clock := by
      rcases hstart with ⟨_, ht⟩ | ⟨hall, ⟨q, hq, hqt⟩, _⟩
      · omega
      · have := hall q hq
        omega
    have hfin : (completedAt t p).finishTime.getD 0 = t + p.burstTime := rfl
    have hst : (completedAt t p).startTime.getD 0 = t := rfl
    refine ⟨?_, ?_⟩
    · simp only [finalClock, idleGaps, hfin, hst, List.sum_cons, ih1, hsum]
      omega
    · intro g hg
      simp only [idleGaps, hfin, hst, List.mem_cons] at hg
      rcases hg with rfl | hg
      · exact hgap
      · exact ih2 g hg

/-- For a single process that arrives at time 5 with burst 2, the runs of
`executeSJF` and `executePriority` end with the clock at 7, while the sum of
the burst times is 2. -/
theorem selection_final_clock_counterexample :
    (executeSJF lateProcess).map (fun out => finalClock 0 out.results) = some 7 ∧
    (executePriority lateProcess).map (fun out => finalClock 0 out.results) = some 7 ∧
    (lateProcess.map fun p => p.burstTime).sum = 2 := by
  decide!

/-! ## Allocation keeps the given order and never backtracks -/

theorem allocationLoop_append (place : List Nat → Int → Option (Option Nat))
    (l₁ l₂ : List (Nat × ProcessRecord)) :
    ∀ (memory : List Nat) (allocations : List ProcessRecord),
      allocationLoop place (l₁ ++ l₂) memory allocations =
        (allocationLoop place l₁ memory allocations).bind
          (fun out => allocationLoop place l₂ out.1 out.2) := by
  induction l₁ with
  | nil => intro memory allocations; simp [allocationLoop]
  | cons ip rest ih =>
    intro memory allocations
    obtain ⟨index, process⟩ := ip
    simp only [List.cons_append, allocationLoop]
    cases h : allocateOne place memory index process with
    | none => simp
    | some out => exact ih out.1 _

theorem allocateOne_frame (place : List Nat → Int → Option (Option Nat))
    (hsound : ∀ memory size, place memory size ≠ none ∧
      ∀ pos, place memory size = some (some pos) → FitsAt memory size pos)
    (memory : List Nat) (index : Nat) (process : ProcessRecord)
    (hlen : memory.length = totalMemory) :
    ∃ (memory2 : List Nat) (record : ProcessRecord),
      allocateOne place memory index process = some (memory2, record) ∧
      record.inputFields = process.inputFields ∧ memory2.length = totalMemory ∧
      ∀ (j v : Nat), memory[j]? = some v → v ≠ 0 → memory2[j]? = some v := by
  obtain ⟨htotal, hfits⟩ := hsound memory process.memorySize
  cases hp : place memory process.memorySize with
  | none => exact absurd hp htotal
  | some found =>
    cases found with
    | none =>
      exact ⟨memory, { process with allocatedPosition := some (-1), status := Status.Failed },
        by simp [allocateOne, hp], rfl, hlen, fun j v h _ => h⟩
    | some pos =>
      obtain ⟨hend, hfree⟩ := hfits pos hp
      obtain ⟨hwl, hwget⟩ := writeBlock_spec memory pos process.memorySize (index + 1)
        (by rw [hlen]; exact hend)
      refine ⟨writeBlock memory pos process.memorySize (index + 1),
        { process with allocatedPosition := some (pos : Int), status := Status.Allocated },
        by simp [allocateOne, hp], rfl, hwl.trans hlen, ?_⟩
      intro j v hj hv
      rw [hwget j]
      split
      · rename_i hin
        have := hfree j hin.1 hin.2
        rw [hj] at this
        simp only [Option.some.injEq] at this
        exact absurd this hv
      · exact hj

theorem allocationLoop_frame (place : List Nat → Int → Option (Option Nat))
    (hsound : ∀ memory size, place memory size ≠ none ∧
      ∀ pos, place memory size = some (some pos) → FitsAt memory size pos)
    (items : List (Nat × ProcessRecord)) :
    ∀ (memory : List Nat) (allocations : List ProcessRecord),
      memory.length = totalMemory →
      ∃ (memory2 : List Nat) (added : List ProcessRecord),
        allocationLoop place items memory allocations = some (memory2, allocations ++ added) ∧
        added.map ProcessRecord.inputFields = items.map (fun ip => ip.2.inputFields) ∧
        memory2.length = totalMemory ∧
        ∀ (j v : Nat), memory[j]? = some v → v ≠ 0 → memory2[j]? = some v := by
  induction items with
  | nil =>
    intro memory allocations hlen
    exact ⟨memory, [], by simp [allocationLoop], rfl, hlen, fun j v h _ => h⟩
  | cons ip rest ih =>
    intro memory allocations hlen
    obtain ⟨index, process⟩ := ip
    obtain ⟨m2, record, hone, hfields, hlen2, hkeep⟩ :=
      allocateOne_frame place hsound memory index process hlen
    obtain ⟨m3, added, hloop, hfields3, hlen3, hkeep3⟩ := ih m2 (allocations ++ [record]) hlen2
    refine ⟨m3, record :: added, ?_, ?_, hlen3, ?_⟩
    · rw [allocationLoop, hone]
      simp only [hloop, List.append_assoc, List.singleton_append]
    · simp [hfields, hfields3]
    · intro j v hj hv
      exact hkeep3 j v (hkeep j v hj hv) hv

theorem neverBacktracks_of_sound (place : List Nat → Int → Option (Option Nat))
    (hsound : ∀ memory size, place memory size ≠ none ∧
      ∀ pos, place memory size = some (some pos) → FitsAt memory size pos)
    (label : String) (ps qs : List ProcessRecord) :
    NeverBacktracks
      (fun processes => (allocationLoop place processes.enum emptyMemory []).map fun out =>
        { algorithm := label, memory := out.1, allocations := out.2 }) ps qs := by
  obtain ⟨m1, a1, h1, hf1, hl1, _⟩ :=
    allocationLoop_frame place hsound ps.enum emptyMemory [] (by simp [emptyMemory])
  obtain ⟨m2, a2, h2, hf2, _, hk2⟩ :=
    allocationLoop_frame place hsound (List.enumFrom ps.length qs) m1 ([] ++ a1) hl1
  have hlen1 : a1.length = ps.length := by
    have := congrArg List.length hf1
    simpa using this
  have hsnd : ∀ (n : Nat) (l : List ProcessRecord),
      (List.enumFrom n l).map (fun ip => ip.2.inputFields) =
        l.map ProcessRecord.inputFields := by
    intro n l
    induction l generalizing n with
    | nil => rfl
    | cons x xs ih => simp [List.enumFrom, ih]
  rw [List.nil_append] at h1 h2
  have hfields1 : a1.map ProcessRecord.inputFields = ps.map ProcessRecord.inputFields := by
    rw [hf1]; exact hsnd 0 ps
  refine ⟨{ algorithm := label, memory := m1, allocations := a1 },
    { algorithm := label, memory := m2, allocations := a1 ++ a2 }, ?_, ?_, hfields1, ?_, ?_, hk2⟩
  · show (allocationLoop place ps.enum emptyMemory []).map _ = _
    rw [h1]; rfl
  · show (allocationLoop place (ps ++ qs).enum emptyMemory []).map _ = _
    rw [List.enum_append, allocationLoop_append, h1]
    simp only [Option.some_bind, h2, Option.map_some']
  · show (a1 ++ a2).map ProcessRecord.inputFields = _
    rw [List.map_append, List.map_append, hf2, hsnd, hfields1]
  · show (a1 ++ a2).take ps.length = a1
    rw [← hlen1, List.take_left]

/-- C11: allocation never backtracks and keeps the given order.  For each of
`executeFirstFit`, `executeBestFit` and `executeWorstFit` and all process lists
`ps` and `qs`, the run on `ps` followed by `qs` returns with one entry per
process in input order, its first `|ps|` entries equal the entries of the run
on `ps` alone (so do their `allocatedPosition` and `status`), and every memory
cell owned by a process after the run on `ps` alone is owned by the same
process after the run on `ps` followed by `qs`. -/
theorem allocation_never_backtracks (ps qs : List ProcessRecord) :
    NeverBacktracks executeFirstFit ps qs ∧
    NeverBacktracks executeBestFit ps qs ∧
    NeverBacktracks executeWorstFit ps qs :=
  ⟨neverBacktracks_of_sound firstFitPlace firstFitPlace_sound _ ps qs,
   neverBacktracks_of_sound bestFitPlace bestFitPlace_sound _ ps qs,
   neverBacktracks_of_sound worstFitPlace worstFitPlace_sound _ ps qs⟩

/-! ## Fragmentation count -/

theorem calculateFragmentation_eq (memory : List Nat) :
    calculateFragmentation memory = (memory.foldl fragStep (0, false)).1 := rfl

theorem isRunStart_append_of_lt (l : List Nat) (a i : Nat) (hi : i < l.length) :
    isRunStart (l ++ [a]) i = isRunStart l i := by
  unfold isRunStart
  rw [List.getElem?_append_left hi, List.getElem?_append_left (by omega)]

theorem isRunStart_append_last (l : List Nat) (a : Nat) :
    isRunStart (l ++ [a]) l.length = decide (a = 0 ∧ l.getLast? ≠ some 0) := by
  unfold isRunStart
  have h1 : (l ++ [a])[l.length]? = some a := by
    rw [List.getElem?_append_right (le_refl _)]; simp
  rw [h1]
  by_cases hl : l = []
  · subst hl; simp
  · have hpos : 0 < l.length := List.length_pos.2 hl
    have h2 : (l ++ [a])[l.length - 1]? = l.getLast? := by
      rw [List.getElem?_append_left (by omega), List.getLast?_eq_getElem?]
    rw [h2]
    have hne : ¬ l.length = 0 := by omega
    simp [hne]

theorem fragFold_spec (memory : List Nat) :
    (memory.foldl fragStep (0, false)).2 = decide (memory.getLast? = some 0) ∧
    (memory.foldl fragStep (0, false)).1 =
      ((List.range memory.length).filter (isRunStart memory)).length ∧
    ((memory.foldl fragStep (0, false)).1 = 0 ↔ ∀ x ∈ memory, x ≠ 0) := by
  induction memory using List.reverseRecOn with
  | nil => simp
  | append_singleton l a ih =>
    obtain ⟨hflag, hcount, hzero⟩ := ih
    have hfilter : (List.range (l ++ [a]).length).filter (isRunStart (l ++ [a])) =
        (List.range l.length).filter (isRunStart l) ++
          (if a = 0 ∧ l.getLast? ≠ some 0 then [l.length] else []) := by
      rw [List.length_append, List.length_singleton, List.range_succ, List.filter_append]
      congr 1
      · apply List.filter_congr
        intro i hi
        exact isRunStart_append_of_lt l a i (List.mem_range.1 hi)
      · rw [List.filter_cons, isRunStart_append_last]
        by_cases hc : a = 0 ∧ l.getLast? ≠ some 0
        · simp [hc]
        · simp [hc]
    have hgl : (l ++ [a]).getLast? = some a := by simp
    rw [List.foldl_append, List.foldl_cons, List.foldl_nil, hfilter, hgl, List.length_append]
    generalize l.foldl fragStep (0, false) = st at hflag hcount hzero
    obtain ⟨c, b⟩ := st
    simp only at hflag hcount hzero
    by_cases ha : a = 0
    · by_cases hlast : l.getLast? = some 0
      · have hb : b = true := by rw [hflag]; simpa using hlast
        have hmem : (0 : Nat) ∈ l := List.mem_of_getLast?_eq_some hlast
        have hne : c ≠ 0 := fun h => (hzero.1 h) 0 hmem rfl
        subst hb
        refine ⟨by simp [fragStep, ha], by simp [fragStep, ha, hlast, hcount], ?_⟩
        constructor
        · intro h
          simp [fragStep, ha] at h
          exact absurd h hne
        · intro h; exact absurd ha (h a (by simp))
      · have hb : b = false := by rw [hflag]; simpa using hlast
        subst hb
        refine ⟨by simp [fragStep, ha], by simp [fragStep, ha, hlast, hcount], ?_⟩
        constructor
        · intro h; simp [fragStep, ha] at h
        · intro h; exact absurd ha (h a (by simp))
    · refine ⟨by simp [fragStep, ha], by simp [fragStep, ha, hcount], ?_⟩
      have hstep : (fragStep (c, b) a).1 = c := by simp [fragStep, ha]
      rw [hstep, hzero]
      constructor
      · intro h x hx
        rcases List.mem_append.1 hx with hx | hx
        · exact h x hx
        · rw [List.mem_singleton.1 hx]; exact ha
      · intro h x hx
        exact h x (List.mem_append_left _ hx)

theorem isRunStart_iff_isFreeRun (memory : List Nat) (hlen : memory.length = totalMemory)
    (i : Nat) : isRunStart memory i = true ↔ ∃ L, IsFreeRun memory i L := by
  unfold isRunStart
  rw [decide_eq_true_iff]
  constructor
  · rintro ⟨hfree, hleft⟩
    have hi : i < totalMemory := by
      by_contra hge
      rw [List.getElem?_eq_none (by omega)] at hfree
      exact absurd hfree (by simp)
    have hb : ScanBoundary memory i := by
      rcases hleft with h | h
      · exact Or.inl h
      · exact Or.inr (Or.inl h)
    exact ⟨_, (isFreeRun_at_boundary memory i hb ⟨hi, hfree⟩).1⟩
  · rintro ⟨L, hpos, _, hcells, hleft, _⟩
    exact ⟨hcells i (le_refl _) (by omega), hleft⟩

/-- C17: for every memory array, `calculateFragmentation` returns the number
of indices `i` with `memory[i] = 0` and (`i = 0` or `memory[i - 1] ≠ 0`); it is
`0` exactly when no cell is free; and in an array of `totalMemory` cells these
indices are exactly the start offsets of the maximal free runs, each of which
has one length, so the value is the number of maximal free runs. -/
theorem calculateFragmentation_counts_runs (memory : List Nat) :
    calculateFragmentation memory =
      ((List.range memory.length).filter (isRunStart memory)).length ∧
    (∀ i, isRunStart memory i = true ↔
      (memory[i]? = some 0 ∧ (i = 0 ∨ memory[i - 1]? ≠ some 0))) ∧
    (calculateFragmentation memory = 0 ↔ ∀ x ∈ memory, x ≠ 0) ∧
    (memory.length = totalMemory →
      (∀ i, isRunStart memory i = true ↔ ∃ L, IsFreeRun memory i L) ∧
      ∀ i L₁ L₂, IsFreeRun memory i L₁ → IsFreeRun memory i L₂ → L₁ = L₂) := by
  obtain ⟨_, hcount, hzero⟩ := fragFold_spec memory
  refine ⟨hcount, fun i => by simp [isRunStart], hzero, fun hlen => ⟨?_, ?_⟩⟩
  · exact fun i => isRunStart_iff_isFreeRun memory hlen i
  · exact fun i L₁ L₂ h₁ h₂ => isFreeRun_unique memory i L₁ L₂ h₁ h₂

/-! ## The three strategies coincide -/

theorem fitsAt_packed (memory : List Nat) (k : Nat) (size : Int) (p : Nat)
    (hpre : PrefixMemory memory k) (hsize : 0 < size) :
    FitsAt memory size p ↔ k ≤ p ∧ (p : Int) + size ≤ totalMemory := by
  obtain ⟨hlen, hk, hused, hfree⟩ := hpre
  unfold FitsAt
  constructor
  · rintro ⟨hend, hcells⟩
    refine ⟨?_, hend⟩
    by_contra hlt
    obtain ⟨v, hv, hv0⟩ := hused p (by omega)
    have := hcells p (le_refl _) (by omega)
    rw [hv] at this
    simp only [Option.some.injEq] at this
    exact hv0 this
  · rintro ⟨hkp, hend⟩
    exact ⟨hend, fun j hj1 hj2 => hfree j (by omega) (by omega)⟩

theorem firstFitPlace_packed : PlacesPacked firstFitPlace := by
  intro memory k size hpre hsize
  unfold firstFitPlace
  congr 1
  by_cases hfit : (k : Int) + size ≤ totalMemory
  · rw [if_pos hfit, firstFitSearch_some_iff]
    refine ⟨(fitsAt_packed memory k size k hpre hsize).2 ⟨le_refl _, hfit⟩, ?_⟩
    intro q hq hfq
    have := ((fitsAt_packed memory k size q hpre hsize).1 hfq).1
    omega
  · rw [if_neg hfit, firstFitSearch_none_iff]
    intro p hp
    have := (fitsAt_packed memory k size p hpre hsize).1 hp
    omega

theorem isFreeRun_packed (memory : List Nat) (k a L : Nat) (hpre : PrefixMemory memory k) :
    IsFreeRun memory a L ↔ a = k ∧ L = totalMemory - k ∧ k < totalMemory := by
  obtain ⟨hlen, hk, hused, hfree⟩ := hpre
  constructor
  · rintro ⟨hpos, hend, hcells, hleft, hright⟩
    have hak : k ≤ a := by
      by_contra hlt
      obtain ⟨v, hv, hv0⟩ := hused a (by omega)
      have := hcells a (le_refl _) (by omega)
      rw [hv] at this
      simp only [Option.some.injEq] at this
      exact hv0 this
    have hka : a = k := by
      by_contra hne
      rcases hleft with h0 | h0
      · omega
      · exact h0 (hfree (a - 1) (by omega) (by omega))
    have hfull : ¬ a + L < totalMemory := by
      intro hlt
      exact hright ⟨hlt, hfree (a + L) (by omega) hlt⟩
    exact ⟨hka, by omega, by omega⟩
  · rintro ⟨rfl, rfl, hlt⟩
    refine ⟨by omega, by omega, fun j h1 h2 => hfree j h1 (by omega), ?_, fun h => by omega⟩
    by_cases h0 : a = 0
    · exact Or.inl h0
    · right
      obtain ⟨v, hv, hv0⟩ := hused (a - 1) (by omega)
      rw [hv]
      simpa using hv0

theorem bestFitPlace_packed : PlacesPacked bestFitPlace := by
  intro memory k size hpre hsize
  rcases bestFitPlace_spec memory size with ⟨a, L, hplace, hrun, hq, _⟩ | ⟨hplace, hnone⟩
  · obtain ⟨rfl, rfl, hlt⟩ := (isFreeRun_packed memory k a L hpre).1 hrun
    rw [hplace, if_pos (by omega)]
  · rw [hplace]
    by_cases hfit : (k : Int) + size ≤ totalMemory
    · have hrun : IsFreeRun memory k (totalMemory - k) :=
        (isFreeRun_packed memory k k _ hpre).2 ⟨rfl, rfl, by omega⟩
      exact absurd (by omega) (hnone k _ hrun)
    · rw [if_neg hfit]

theorem worstFitPlace_packed : PlacesPacked worstFitPlace := by
  intro memory k size hpre hsize
  rcases worstFitPlace_spec memory size with ⟨a, L, hplace, hrun, hq, _⟩ | ⟨hplace, hnone⟩
  · obtain ⟨rfl, rfl, hlt⟩ := (isFreeRun_packed memory k a L hpre).1 hrun
    rw [hplace, if_pos (by omega)]
  · rw [hplace]
    by_cases hfit : (k : Int) + size ≤ totalMemory
    · have hrun : IsFreeRun memory k (totalMemory - k) :=
        (isFreeRun_packed memory k k _ hpre).2 ⟨rfl, rfl, by omega⟩
      exact absurd (by omega) (hnone k _ hrun)
    · rw [if_neg hfit]

theorem writeBlock_packed (memory : List Nat) (k : Nat) (size : Int) (value : Nat)
    (hpre : PrefixMemory memory k) (hsize : 0 < size) (hvalue : value ≠ 0)
    (hfit : (k : Int) + size ≤ totalMemory) :
    PrefixMemory (writeBlock memory k size value) (k + size.toNat) := by
  obtain ⟨hlen, hk, hused, hfree⟩ := hpre
  obtain ⟨hwl, hwget⟩ := writeBlock_spec memory k size value (by rw [hlen]; exact hfit)
  refine ⟨hwl.trans hlen, by omega, ?_, ?_⟩
  · intro j hj
    rw [hwget j]
    by_cases hin : k ≤ j ∧ (j : Int) < k + size
    · rw [if_pos hin]; exact ⟨value, rfl, hvalue⟩
    · rw [if_neg hin]; exact hused j (by omega)
  · intro j hj1 hj2
    rw [hwget j, if_neg (by omega)]
    exact hfree j (by omega) hj2

theorem allocationLoop_packed (place : List Nat → Int → Option (Option Nat))
    (hplace : PlacesPacked place) (items : List (Nat × ProcessRecord)) :
    ∀ (memory : List Nat) (allocations : List ProcessRecord) (k : Nat),
      PrefixMemory memory k → (∀ ip ∈ items, 0 < ip.2.memorySize) →
      ∃ (memory2 : List Nat) (allocations2 : List ProcessRecord) (k2 : Nat),
        allocationLoop place items memory allocations = some (memory2, allocations2) ∧
        allocationLoop firstFitPlace items memory allocations =
          some (memory2, allocations2) ∧
        PrefixMemory memory2 k2 := by
  induction items with
  | nil =>
    intro memory allocations k hpre _
    exact ⟨memory, allocations, k, rfl, rfl, hpre⟩
  | cons ip rest ih =>
    intro memory allocations k hpre hsize
    obtain ⟨index, process⟩ := ip
    have hs : 0 < process.memorySize := hsize (index, process) (List.mem_cons_self _ _)
    have hrest : ∀ ip ∈ rest, 0 < ip.2.memorySize :=
      fun x hx => hsize x (List.mem_cons_of_mem _ hx)
    have h1 := hplace memory k process.memorySize hpre hs
    have h2 := firstFitPlace_packed memory k process.memorySize hpre hs
    by_cases hfit : (k : Int) + process.memorySize ≤ totalMemory
    · rw [if_pos hfit] at h1 h2
      obtain ⟨m2, a2, k2, e1, e2, hpre2⟩ :=
        ih (writeBlock memory k process.memorySize (index + 1))
          (allocations ++ [{ process with allocatedPosition := some (k : Int),
                                          status := Status.Allocated }])
          (k + process.memorySize.toNat)
          (writeBlock_packed memory k process.memorySize (index + 1) hpre hs (by omega) hfit)
          hrest
      refine ⟨m2, a2, k2, ?_, ?_, hpre2⟩
      · rw [allocationLoop]
        simp only [allocateOne, h1]
        exact e1
      · rw [allocationLoop]
        simp only [allocateOne, h2]
        exact e2
    · rw [if_neg hfit] at h1 h2
      obtain ⟨m2, a2, k2, e1, e2, hpre2⟩ :=
        ih memory
          (allocations ++ [{ process with allocatedPosition := some (-1),
                                          status := Status.Failed }])
          k hpre hrest
      refine ⟨m2, a2, k2, ?_, ?_, hpre2⟩
      · rw [allocationLoop]
        simp only [allocateOne, h1]
        exact e1
      · rw [allocationLoop]
        simp only [allocateOne, h2]
        exact e2

theorem prefixMemory_empty : PrefixMemory emptyMemory 0 := by
  refine ⟨by simp [emptyMemory], Nat.zero_le _, fun j hj => absurd hj (by omega), ?_⟩
  intro j _ hj
  simp [emptyMemory, List.getElem?_replicate, hj]

theorem length_le_one_of_all_eq {α : Type} (l : List α) (a : α) (hnd : l.Nodup)
    (hall : ∀ x ∈ l, x = a) : l.length ≤ 1 := by
  match l, hnd, hall with
  | [], _, _ => simp
  | [_], _, _ => simp
  | x :: y :: rest, hnd, hall =>
    have hx := hall x (by simp)
    have hy := hall y (by simp)
    rw [List.nodup_cons] at hnd
    exact absurd (by rw [hx, hy]; simp) hnd.1

theorem calculateFragmentation_packed (memory : List Nat) (k : Nat)
    (hpre : PrefixMemory memory k) :
    calculateFragmentation memory = 0 ∨ calculateFragmentation memory = 1 := by
  have hcount := (fragFold_spec memory).2.1
  rw [← calculateFragmentation_eq] at hcount
  have hle : ((List.range memory.length).filter (isRunStart memory)).length ≤ 1 := by
    apply length_le_one_of_all_eq _ k ((List.nodup_range _).filter _)
    intro i hi
    obtain ⟨L, hrun⟩ := (isRunStart_iff_isFreeRun memory hpre.1 i).1 (List.mem_filter.1 hi).2
    exact ((isFreeRun_packed memory k i L hpre).1 hrun).1
  omega

/-- C20: for every process list with positive memory sizes, `executeFirstFit`,
`executeBestFit` and `executeWorstFit` return the same memory array and the
same list of decorated records (so the same `allocatedPosition` and `status`
for every process) and differ only in the algorithm label; the memory array is
an allocated prefix followed by a single free suffix; and the fragmentation
count of that array is `0` or `1`. -/
theorem strategies_coincide (processes : List ProcessRecord)
    (hsize : ∀ p ∈ processes, 0 < p.memorySize) :
    ∃ (memory : List Nat) (allocations : List ProcessRecord),
      executeFirstFit processes =
        some { algorithm := "First Fit Memory Allocation", memory := memory,
               allocations := allocations } ∧
      executeBestFit processes =
        some { algorithm := "Best Fit Memory Allocation", memory := memory,
               allocations := allocations } ∧
      executeWorstFit processes =
        some { algorithm := "Worst Fit Memory Allocation", memory := memory,
               allocations := allocations } ∧
      (∃ k : Nat, PrefixMemory memory k) ∧
      (calculateFragmentation memory = 0 ∨ calculateFragmentation memory = 1) := by
  have hitems : ∀ ip ∈ processes.enum, 0 < ip.2.memorySize :=
    fun ip hip => hsize ip.2 (List.snd_mem_of_mem_enum hip)
  obtain ⟨m, a, k, hb, hf, hpre⟩ :=
    allocationLoop_packed bestFitPlace bestFitPlace_packed processes.enum emptyMemory [] 0
      prefixMemory_empty hitems
  obtain ⟨m2, a2, k2, hw, hf2, _⟩ :=
    allocationLoop_packed worstFitPlace worstFitPlace_packed processes.enum emptyMemory [] 0
      prefixMemory_empty hitems
  have heq : (m2, a2) = (m, a) := by
    rw [hf] at hf2
    exact (Option.some.inj hf2).symm
  rw [heq] at hw
  refine ⟨m, a, ?_, ?_, ?_, ⟨k, hpre⟩, calculateFragmentation_packed m k hpre⟩
  · rw [executeFirstFit, hf]; rfl
  · rw [executeBestFit, hb]; rfl
  · rw [executeWorstFit, hw]; rfl

/-- Instance of `strategies_coincide` on the sample process list. -/
theorem strategies_coincide_witness :
    (∀ p ∈ sampleProcesses, 0 < p.memorySize) ∧
    ∃ (memory : List Nat) (allocations : List ProcessRecord),
      executeFirstFit sampleProcesses =
        some { algorithm := "First Fit Memory Allocation", memory := memory,
               allocations := allocations } ∧
      executeBestFit sampleProcesses =
        some { algorithm := "Best Fit Memory Allocation", memory := memory,
               allocations := allocations } ∧
      executeWorstFit sampleProcesses =
        some { algorithm := "Worst Fit Memory Allocation", memory := memory,
               allocations := allocations } ∧
      (∃ k : Nat, PrefixMemory memory k) ∧
      (calculateFragmentation memory = 0 ∨ calculateFragmentation memory = 1) :=
  ⟨by decide, strategies_coincide sampleProcesses (by decide)⟩

/-! ## Metrics on degenerate result sets and validation -/

theorem foldl_max_zero (xs : List Int) (h : ∀ y ∈ xs, y = 0) : xs.foldl max 0 = 0 := by
  induction xs with
  | nil => rfl
  | cons y ys ih =>
    have hy : y = 0 := h y (List.mem_cons_self _ _)
    rw [List.foldl_cons, hy, max_self]
    exact ih (fun z hz => h z (List.mem_cons_of_mem _ hz))

theorem maxOfList_zero (xs : List Int) (hne : xs ≠ []) (h : ∀ y ∈ xs, y = 0) :
    maxOfList xs = some 0 := by
  cases xs with
  | nil => exact absurd rfl hne
  | cons x rest =>
    have hx : x = 0 := h x (List.mem_cons_self _ _)
    rw [maxOfList, hx, foldl_max_zero rest (fun z hz => h z (List.mem_cons_of_mem _ hz))]

/-- On the empty result set `calculateMetrics` does not return zero-valued
metrics: the two averages and `totalExecutionTime` are not `0`. -/
theorem calculateMetrics_empty_not_zero :
    (calculateMetrics []).averageWaitingTime ≠ JSNumber.finite 0 ∧
    (calculateMetrics []).averageTurnaroundTime ≠ JSNumber.finite 0 ∧
    (calculateMetrics []).totalExecutionTime ≠ JSNumber.finite 0 := by
  simp [calculateMetrics, jsDivide, maxOfList]

/-- C16 (amended): `calculateMetrics` is a total function, so no division
raises an error.  For `results = []` it returns `cpuUtilization = 0` and
`throughput = 0`, while `averageWaitingTime` and `averageTurnaroundTime` are
`NaN` (`0 / 0`) and `totalExecutionTime` is `-Infinity` (`Math.max` of no
argument); and for a non-empty result set whose finish times are all `0` it
returns `cpuUtilization = 0`, `throughput = 0` and `totalExecutionTime = 0`. -/
theorem calculateMetrics_degenerate (results : List ProcessRecord)
    (hne : results ≠ []) (hzero : ∀ r ∈ results, r.finishTime = some 0) :
    calculateMetrics [] =
      { averageWaitingTime := JSNumber.nan, averageTurnaroundTime := JSNumber.nan,
        cpuUtilization := JSNumber.finite 0, throughput := JSNumber.finite 0,
        totalProcesses := 0, totalExecutionTime := JSNumber.negInfinity } ∧
    (calculateMetrics results).cpuUtilization = JSNumber.finite 0 ∧
    (calculateMetrics results).throughput = JSNumber.finite 0 ∧
    (calculateMetrics results).totalExecutionTime = JSNumber.finite 0 := by
  have hmax : maxOfList (results.map fun p => p.finishTime.getD 0) = some 0 := by
    apply maxOfList_zero
    · simpa using hne
    · intro y hy
      obtain ⟨r, hr, rfl⟩ := List.mem_map.1 hy
      rw [hzero r hr]; rfl
  refine ⟨by simp [calculateMetrics, jsDivide, maxOfList], ?_, ?_, ?_⟩
  · simp [calculateMetrics, hmax]
  · simp [calculateMetrics, hmax]
  · simp [calculateMetrics, hmax]

/-- Instance of `calculateMetrics_degenerate` on a result set of one record
with finish time `0`. -/
theorem calculateMetrics_degenerate_witness :
    zeroFinishResults ≠ [] ∧ (∀ r ∈ zeroFinishResults, r.finishTime = some 0) ∧
    calculateMetrics [] =
      { averageWaitingTime := JSNumber.nan, averageTurnaroundTime := JSNumber.nan,
        cpuUtilization := JSNumber.finite 0, throughput := JSNumber.finite 0,
        totalProcesses := 0, totalExecutionTime := JSNumber.negInfinity } ∧
    (calculateMetrics zeroFinishResults).cpuUtilization = JSNumber.finite 0 ∧
    (calculateMetrics zeroFinishResults).throughput = JSNumber.finite 0 ∧
    (calculateMetrics zeroFinishResults).totalExecutionTime = JSNumber.finite 0 :=
  ⟨by decide, by decide,
    calculateMetrics_degenerate zeroFinishResults (by decide) (by decide)⟩

theorem jsTrim_empty : jsTrim "" = "" := rfl

theorem truthy_iff (text : Option String) : truthy text = true ↔ TextGiven text := by
  cases text with
  | none => simp [truthy, TextGiven]
  | some s => simp [truthy, TextGiven]

theorem name_rejected_iff (name : Option String) :
    (truthy name = false ∨ jsTrim (name.getD "") = "") ↔ ¬ NameGiven name := by
  cases name with
  | none => simp [truthy, NameGiven, jsTrim_empty]
  | some s =>
    simp only [truthy, NameGiven, Option.getD_some, Option.some.injEq, exists_eq_left',
      decide_eq_false_iff_not, not_not]
    constructor
    · rintro (h | h)
      · rw [h]; simp [jsTrim_empty]
      · simp [h]
    · intro h
      right
      simpa using h

theorem nanOr_false_iff (x : Option Int) (bad : Int → Bool) :
    nanOr x bad = false ↔ ∃ v, x = some v ∧ bad v = false := by
  cases x with
  | none => simp [nanOr]
  | some v => simp [nanOr]

/-- C18: `validateProcessData` accepts a record under the operation
`detection` if and only if its `processName` is non-empty after trimming and
both `resourcesHeld` and `resourcesRequested` are non-empty texts (arrival and
burst are not looked at); under every other operation it accepts if and only
if `processName` is non-empty after trimming, `arrivalTime` is a number `≥ 0`,
`burstTime` is a number `> 0`, `priority` is a number in `1..10` when the
operation is `priority`, and `memorySize` is a number `> 0` when the operation
is `firstfit`, `bestfit` or `worstfit`. -/
theorem validateProcessData_accepts_iff (data : FormData) :
    (validateProcessData Operation.detection data = true ↔
      NameGiven data.processName ∧ TextGiven data.resourcesHeld ∧
        TextGiven data.resourcesRequested) ∧
    ∀ op : Operation, op ≠ Operation.detection →
      (validateProcessData op data = true ↔
        NameGiven data.processName ∧
        (∃ a, data.arrivalTime = some a ∧ 0 ≤ a) ∧
        (∃ b, data.burstTime = some b ∧ 0 < b) ∧
        (op = Operation.priority → ∃ p, data.priority = some p ∧ 1 ≤ p ∧ p ≤ 10) ∧
        (op = Operation.firstfit ∨ op = Operation.bestfit ∨ op = Operation.worstfit →
          ∃ m, data.memorySize = some m ∧ 0 < m)) := by
  have hname := name_rejected_iff data.processName
  constructor
  · unfold validateProcessData
    by_cases hn : truthy data.processName = false ∨ jsTrim (data.processName.getD "") = ""
    · rw [if_pos hn]
      have := hname.1 hn
      simp [this]
    · rw [if_neg hn]
      have hgiven : NameGiven data.processName := by
        by_contra h; exact hn (hname.2 h)
      simp [hgiven, truthy_iff]
  · intro op hop
    unfold validateProcessData
    by_cases hn : truthy data.processName = false ∨ jsTrim (data.processName.getD "") = ""
    · rw [if_pos hn]
      have := hname.1 hn
      simp [this]
    · rw [if_neg hn, if_neg hop]
      have hgiven : NameGiven data.processName := by
        by_contra h; exact hn (hname.2 h)
      cases ha : nanOr data.arrivalTime (fun v => decide (v < 0)) with
      | true =>
        have : ¬ ∃ a, data.arrivalTime = some a ∧ 0 ≤ a := by
          rintro ⟨a, h1, h2⟩
          rw [h1] at ha
          simp [nanOr] at ha
          omega
        simp [this]
      | false =>
        obtain ⟨a, ha1, ha2⟩ := (nanOr_false_iff _ _).1 ha
        have harr : ∃ a, data.arrivalTime = some a ∧ 0 ≤ a :=
          ⟨a, ha1, by simpa using ha2⟩
        cases hb : nanOr data.burstTime (fun v => decide (v ≤ 0)) with
        | true =>
          have : ¬ ∃ b, data.burstTime = some b ∧ 0 < b := by
            rintro ⟨b, h1, h2⟩
            rw [h1] at hb
            simp [nanOr] at hb
            omega
          simp [this]
        | false =>
          obtain ⟨b, hb1, hb2⟩ := (nanOr_false_iff _ _).1 hb
          have hburst : ∃ b, data.burstTime = some b ∧ 0 < b :=
            ⟨b, hb1, by simpa using hb2⟩
          simp only [Bool.false_eq_true, if_false, hgiven, harr, hburst, true_and]
          cases op with
          | detection => exact absurd rfl hop
          | priority =>
            cases hp : data.priority with
            | none => simp [nanOr]
            | some p =>
              simp only [nanOr, Bool.or_eq_true, decide_eq_true_eq]
              by_cases hbad : p < 1 ∨ p > 10
              · simp [hbad]; omega
              · simp [hbad]; omega
          | firstfit =>
            cases hm : data.memorySize with
            | none => simp [nanOr]
            | some m =>
              simp only [nanOr, decide_eq_true_eq]
              by_cases hbad : m ≤ 0
              · simp [hbad]
              · simp [hbad]; omega
          | bestfit =>
            cases hm : data.memorySize with
            | none => simp [nanOr]
            | some m =>
              simp only [nanOr, decide_eq_true_eq]
              by_cases hbad : m ≤ 0
              · simp [hbad]
              · simp [hbad]; omega
          | worstfit =>
            cases hm : data.memorySize with
            | none => simp [nanOr]
            | some m =>
              simp only [nanOr, decide_eq_true_eq]
              by_cases hbad : m ≤ 0
              · simp [hbad]
              · simp [hbad]; omega
          | fcfs => simp
          | sjf => simp
          | srtf => simp
          | rr => simp

/-! ## Round robin ignores arrival times -/

/-- C21: `executeRoundRobin` ignores arrival times when it builds its queue.
The single process P1 with `arrivalTime = 10` and `burstTime = 1` passes
`validateProcessData` under the operation `rr`, and `executeRoundRobin` gives it
`startTime = 0`, which is before its arrival, `finishTime = 1` and
`waitingTime = -10`, which is negative. -/
theorem roundRobin_ignores_arrival :
    validateProcessData Operation.rr arrivesAtTenForm = true ∧
    (arrivesAtTen.map fun p => (some p.processName, some p.arrivalTime, some p.burstTime)) =
      [(arrivesAtTenForm.processName, arrivesAtTenForm.arrivalTime,
        arrivesAtTenForm.burstTime)] ∧
    (executeRoundRobin arrivesAtTen).map
        (fun out => out.results.map fun r =>
          (r.arrivalTime, r.startTime, r.finishTime, r.waitingTime)) =
      some [(10, some 0, some 1, some (-10))] ∧
    ∃ out : ScheduleOutput, executeRoundRobin arrivesAtTen = some out ∧
      ∃ r ∈ out.results, ∃ s w : Int, r.startTime = some s ∧ s < r.arrivalTime ∧
        r.waitingTime = some w ∧ w < 0 := by
  have hrun : (executeRoundRobin arrivesAtTen).map
      (fun out => out.results.map fun r =>
        (r.arrivalTime, r.startTime, r.finishTime, r.waitingTime)) =
      some [(10, some 0, some 1, some (-10))] := by decide!
  refine ⟨by decide!, by decide!, hrun, ?_⟩
  cases hout : executeRoundRobin arrivesAtTen with
  | none => rw [hout] at hrun; simp at hrun
  | some out =>
    rw [hout] at hrun
    simp only [Option.map_some', Option.some.injEq] at hrun
    refine ⟨out, rfl, ?_⟩
    cases hres : out.results with
    | nil => rw [hres] at hrun; simp at hrun
    | cons r rest =>
      rw [hres] at hrun
      simp only [List.map_cons, List.cons.injEq, Prod.mk.injEq] at hrun
      obtain ⟨⟨ha, hs, _, hw⟩, _⟩ := hrun
      exact ⟨r, List.mem_cons_self _ _, 0, -10, hs, by rw [ha]; decide, hw, by decide⟩

/-! ## Number of scan-rounds of the deadlock detection -/

theorem detectLoopRounds_fst (allocation request : List (List Int)) (resources fuel : Nat) :
    ∀ (work : List Int) (finish : List Bool),
      (detectLoopRounds allocation request resources fuel work finish).map Prod.fst =
        detectLoop allocation request resources fuel work finish := by
  induction fuel with
  | zero => intro work finish; rfl
  | succ fuel ih =>
    intro work finish
    rw [detectLoopRounds, detectLoop]
    by_cases hfound : (scanRound allocation request resources work finish).found = true
    · rw [if_pos hfound, if_pos hfound, ← ih]
      cases detectLoopRounds allocation request resources fuel
          (scanRound allocation request resources work finish).work
          (scanRound allocation request resources work finish).finish with
      | none => rfl
      | some out => rfl
    · rw [if_neg hfound, if_neg hfound]
      rfl

theorem detectLoopRounds_more_fuel (allocation request : List (List Int))
    (resources fuel : Nat) :
    ∀ (work : List Int) (finish : List Bool) (out : List Bool × Nat),
      detectLoopRounds allocation request resources fuel work finish = some out →
      ∀ extra : Nat,
        detectLoopRounds allocation request resources (fuel + extra) work finish = some out := by
  induction fuel with
  | zero => intro work finish out h; simp [detectLoopRounds] at h
  | succ fuel ih =>
    intro work finish out h extra
    rw [show fuel + 1 + extra = (fuel + extra) + 1 by omega, detectLoopRounds]
    rw [detectLoopRounds] at h
    by_cases hfound : (scanRound allocation request resources work finish).found = true
    · rw [if_pos hfound] at h ⊢
      cases hrec : detectLoopRounds allocation request resources fuel
          (scanRound allocation request resources work finish).work
          (scanRound allocation request resources work finish).finish with
      | none => rw [hrec] at h; simp at h
      | some out2 =>
        rw [hrec] at h
        rw [ih _ _ out2 hrec extra]
        exact h
    · rw [if_neg hfound] at h ⊢
      exact h

theorem detectLoopRounds_spec (allocation request : List (List Int)) (available : List Int)
    (fuel : Nat) :
    ∀ (work : List Int) (finish : List Bool) (order : List Nat),
      DetectInv allocation request available work finish order →
      allocation.length < fuel + order.length →
      ∃ (finishF : List Bool) (rounds : Nat),
        detectLoopRounds allocation request available.length fuel work finish =
          some (finishF, rounds) ∧
        1 ≤ rounds ∧ rounds + order.length ≤ allocation.length + 1 := by
  induction fuel with
  | zero =>
    intro work finish order hinv hfuel
    have := hinv.2.2.2.2.length_le
    omega
  | succ fuel ih =>
    intro work finish order hinv hfuel
    obtain ⟨o2, hinv2, hle, hf⟩ :=
      scanFold_inv allocation request available (List.range allocation.length)
        (fun i hi => List.mem_range.1 hi)
        { work := work, finish := finish, found := false } order hinv
    rw [detectLoopRounds]
    by_cases hfound : (scanRound allocation request available.length work finish).found = true
    · rw [if_pos hfound]
      have hlt : order.length < o2.length := by
        rcases hf hfound with h | h
        · simp at h
        · exact h
      obtain ⟨finishF, rounds, heq, h1, h2⟩ := ih _ _ o2 hinv2 (by omega)
      refine ⟨finishF, rounds + 1, ?_, by omega, by omega⟩
      have heq2 : detectLoopRounds allocation request available.length fuel
          (scanRound allocation request available.length work finish).work
          (scanRound allocation request available.length work finish).finish =
          some (finishF, rounds) := heq
      rw [heq2]
      rfl
    · rw [if_neg hfound]
      have := hinv.2.2.2.2.length_le
      exact ⟨_, 1, rfl, le_refl _, by omega⟩

/-- For two processes of which the first needs the unit released by the
second, `detectDeadlock` makes three scan-rounds: one per process and a last
one that finds nothing. -/
theorem detectDeadlock_three_rounds :
    chainAllocation.length = 2 ∧
    detectLoopRounds chainAllocation chainRequest chainAvailable.length
        (chainAllocation.length + 1) chainAvailable
        (List.replicate chainAllocation.length false) =
      some ([true, true], 3) ∧
    detectDeadlock chainAllocation chainRequest chainAvailable =
      some { deadlocked := false, deadlockedProcesses := [] } := by
  decide!

/-- C23 (amended): for every input with `P` processes the loop of
`detectDeadlock` is deterministic and terminates in at most `P + 1`
scan-rounds: there are a final `finish` and a number of rounds, with
`1 ≤ rounds ≤ P + 1`, that the loop reaches under every step budget of at least
`P + 1` rounds, and `finish` is what the loop of `detectDeadlock` answers. -/
theorem detectDeadlock_rounds_bound (allocation request : List (List Int))
    (available : List Int) :
    ∃ (finish : List Bool) (rounds : Nat),
      1 ≤ rounds ∧ rounds ≤ allocation.length + 1 ∧
      (∀ extra : Nat,
        detectLoopRounds allocation request available.length (allocation.length + 1 + extra)
          available (List.replicate allocation.length false) = some (finish, rounds)) ∧
      detectLoop allocation request available.length (allocation.length + 1) available
        (List.replicate allocation.length false) = some finish := by
  obtain ⟨finish, rounds, heq, h1, h2⟩ :=
    detectLoopRounds_spec allocation request available (allocation.length + 1) available
      (List.replicate allocation.length false) [] (detectInv_init _ _ _) (by simp)
  refine ⟨finish, rounds, h1, by simpa using h2, ?_, ?_⟩
  · exact detectLoopRounds_more_fuel allocation request available.length _ _ _ _ heq
  · rw [← detectLoopRounds_fst, heq]
    rfl

/-! ## CPU utilization of the schedulers -/

theorem foldl_add_eq_sum (f : ProcessRecord → Int) (l : List ProcessRecord) :
    ∀ a : Int, l.foldl (fun sum p => sum + f p) a = a + (l.map f).sum := by
  induction l with
  | nil => intro a; simp
  | cons p ps ih =>
    intro a
    rw [List.foldl_cons, ih, List.map_cons, List.sum_cons]
    omega

theorem totalBurst_eq_sum (results : List ProcessRecord) :
    totalBurst results = (results.map fun p => p.burstTime).sum := by
  unfold totalBurst
  rw [foldl_add_eq_sum (fun p => p.burstTime) results 0]
  omega

theorem foldl_max_spec (xs : List Int) :
    ∀ x : Int, (xs.foldl max x = x ∨ xs.foldl max x ∈ xs) ∧ x ≤ xs.foldl max x ∧
      ∀ y ∈ xs, y ≤ xs.foldl max x := by
  induction xs with
  | nil => intro x; simp
  | cons z zs ih =>
    intro x
    obtain ⟨h1, h2, h3⟩ := ih (max x z)
    rw [List.foldl_cons]
    refine ⟨?_, le_trans (le_max_left x z) h2, ?_⟩
    · rcases h1 with h | h
      · rcases max_choice x z with hm | hm
        · left; rw [h, hm]
        · right; rw [h, hm]; exact List.mem_cons_self _ _
      · right; exact List.mem_cons_of_mem _ h
    · intro y hy
      rcases List.mem_cons.1 hy with rfl | hy
      · exact le_trans (le_max_right x y) h2
      · exact h3 y hy

theorem maxOfList_spec (xs : List Int) (hne : xs ≠ []) :
    ∃ m : Int, maxOfList xs = some m ∧ m ∈ xs ∧ ∀ y ∈ xs, y ≤ m := by
  cases xs with
  | nil => exact absurd rfl hne
  | cons x rest =>
    obtain ⟨h1, h2, h3⟩ := foldl_max_spec rest x
    refine ⟨rest.foldl max x, rfl, ?_, ?_⟩
    · rcases h1 with h | h
      · rw [h]; exact List.mem_cons_self _ _
      · exact List.mem_cons_of_mem _ h
    · intro y hy
      rcases List.mem_cons.1 hy with rfl | hy
      · exact h2
      · exact h3 y hy

theorem burstSum_of_perm (rs ps : List ProcessRecord)
    (h : (rs.map ProcessRecord.inputFields).Perm (ps.map ProcessRecord.inputFields)) :
    (rs.map fun p => p.burstTime).sum = (ps.map fun p => p.burstTime).sum := by
  have := (h.map fun x => x.2.2.2.1).sum_eq
  simpa [List.map_map, Function.comp_def, ProcessRecord.inputFields] using this

theorem finalClock_mem (rs : List ProcessRecord) :
    ∀ clock : Int, rs ≠ [] →
      finalClock clock rs ∈ rs.map fun r => r.finishTime.getD 0 := by
  induction rs with
  | nil => intro clock h; exact absurd rfl h
  | cons r rest ih =>
    intro clock _
    rw [finalClock]
    cases rest with
    | nil => simp [finalClock]
    | cons r2 rest2 =>
      exact List.mem_cons_of_mem _ (ih (r.finishTime.getD 0) (by simp))

theorem fcfs_final_clock (qs : List ProcessRecord) :
    ∀ t : Int, t + (qs.map fun p => p.burstTime).sum ≤ finalClock t (fcfsResults t qs) := by
  induction qs with
  | nil => intro t; simp [fcfsResults, finalClock]
  | cons p ps ih =>
    intro t
    have hfin : (completedAt (max t p.arrivalTime) p).finishTime.getD 0 =
        max t p.arrivalTime + p.burstTime := rfl
    have := ih (max t p.arrivalTime + p.burstTime)
    have hmax := le_max_left t p.arrivalTime
    rw [fcfsResults, finalClock, hfin, List.map_cons, List.sum_cons]
    omega

theorem burstSum_pos (ps : List ProcessRecord) (hne : ps ≠ [])
    (hpos : ∀ p ∈ ps, 0 < p.burstTime) : 0 < (ps.map fun p => p.burstTime).sum := by
  cases ps with
  | nil => exact absurd rfl hne
  | cons p rest =>
    have hp := hpos p (List.mem_cons_self _ _)
    have hrest : 0 ≤ (rest.map fun p => p.burstTime).sum := by
      apply List.sum_nonneg
      intro x hx
      obtain ⟨q, hq, rfl⟩ := List.mem_map.1 hx
      exact le_of_lt (hpos q (List.mem_cons_of_mem _ hq))
    rw [List.map_cons, List.sum_cons]
    omega

/-! ## The number arithmetic is exact on integers up to `2 ^ 53` -/

theorem Binary64.bitLengthAux_le (steps : Nat) :
    ∀ n b : Nat, n ≤ steps → n < 2 ^ b → Binary64.bitLengthAux steps n ≤ b := by
  induction steps with
  | zero => intro n b _ _; simp [Binary64.bitLengthAux]
  | succ steps ih =>
    intro n b hn hb
    rw [Binary64.bitLengthAux]
    by_cases h0 : n = 0
    · rw [if_pos h0]; exact Nat.zero_le _
    · rw [if_neg h0]
      cases b with
      | zero => simp at hb; exact absurd hb h0
      | succ b =>
        have h2 : n / 2 < 2 ^ b := by
          rw [Nat.div_lt_iff_lt_mul (by decide)]
          rw [pow_succ] at hb
          exact hb
        have h3 : n / 2 ≤ steps := by omega
        have := ih (n / 2) b h3 h2
        omega

theorem Binary64.roundHalfEven_of_dvd (n d : Nat) (hd : 0 < d) (hdvd : d ∣ n) :
    Binary64.roundHalfEven n d * d = n := by
  have hr : n % d = 0 := Nat.mod_eq_zero_of_dvd hdvd
  unfold Binary64.roundHalfEven
  simp only [hr, Nat.mul_zero, if_pos hd]
  exact Nat.div_mul_cancel hdvd

theorem Binary64.roundNat_exact (k : Nat) (hk : k ≤ 2 ^ 53) :
    Binary64.roundNat (k * Binary64.unitsOfOne) 1 = k * Binary64.unitsOfOne := by
  obtain ⟨u, hU⟩ : ∃ u : Nat, Binary64.unitsOfOne = 2 ^ u := ⟨1074, rfl⟩
  unfold Binary64.roundNat
  simp only [Nat.div_one, Nat.one_mul]
  apply Binary64.roundHalfEven_of_dvd _ _ (Nat.pos_pow_of_pos _ (by decide))
  generalize hn : k * Binary64.unitsOfOne = n
  rcases Nat.lt_or_ge k (2 ^ 53) with hlt | hge
  · have hlt2 : n < 2 ^ (53 + u) := by
      rw [← hn, hU, Nat.pow_add]
      exact Nat.mul_lt_mul_of_lt_of_le hlt (le_refl _) (Nat.pos_pow_of_pos _ (by decide))
    have hlen : Binary64.bitLength n ≤ 53 + u :=
      Binary64.bitLengthAux_le n n _ (le_refl _) hlt2
    have he : Binary64.bitLength n - 53 ≤ u := by omega
    have hd : 2 ^ u ∣ n := ⟨k, by rw [← hn, hU, Nat.mul_comm]⟩
    exact Nat.dvd_trans (Nat.pow_dvd_pow 2 he) hd
  · have hk2 : k = 2 ^ 53 := le_antisymm hk hge
    have hn2 : n = 2 ^ (53 + u) := by
      rw [← hn, hk2, hU, Nat.pow_add]
    have hlt2 : n < 2 ^ (53 + u + 1) := by
      rw [hn2]
      exact Nat.pow_lt_pow_right (by decide) (Nat.lt_succ_self _)
    have hlen : Binary64.bitLength n ≤ 53 + u + 1 :=
      Binary64.bitLengthAux_le n n _ (le_refl _) hlt2
    have he : Binary64.bitLength n - 53 ≤ 53 + u := by omega
    have hd : 2 ^ (53 + u) ∣ n := by rw [hn2]
    exact Nat.dvd_trans (Nat.pow_dvd_pow 2 he) hd

theorem Binary64.round_exact (k : Int) (hlow : -(2 ^ 53) ≤ k) (hhigh : k ≤ 2 ^ 53) :
    Binary64.round (k * Binary64.unitsOfOne) 1 = k * Binary64.unitsOfOne := by
  have hU : (0 : Int) < (Binary64.unitsOfOne : Int) := by
    obtain ⟨u, hu⟩ : ∃ u : Nat, Binary64.unitsOfOne = 2 ^ u := ⟨1074, rfl⟩
    have : 0 < Binary64.unitsOfOne := by
      rw [hu]
      exact Nat.pos_pow_of_pos _ (by decide)
    exact_mod_cast this
  unfold Binary64.round
  by_cases hk : 0 ≤ k
  · have hn : 0 ≤ k * (Binary64.unitsOfOne : Int) := mul_nonneg hk (le_of_lt hU)
    rw [if_pos hn]
    have hcast : (k * (Binary64.unitsOfOne : Int)).toNat = k.toNat * Binary64.unitsOfOne := by
      zify
      rw [Int.toNat_of_nonneg hn, Int.toNat_of_nonneg hk]
    rw [hcast, Binary64.roundNat_exact k.toNat (by zify; rw [Int.toNat_of_nonneg hk]; exact hhigh)]
    push_cast
    rw [Int.toNat_of_nonneg hk]
  · have hk2 : k < 0 := not_le.1 hk
    have hn : ¬ 0 ≤ k * (Binary64.unitsOfOne : Int) := by
      have := mul_neg_of_neg_of_pos hk2 hU
      omega
    rw [if_neg hn]
    have hnk : 0 ≤ -k := by omega
    have hcast : (-(k * (Binary64.unitsOfOne : Int))).toNat =
        (-k).toNat * Binary64.unitsOfOne := by
      zify
      rw [Int.toNat_of_nonneg (by rw [← neg_mul]; exact mul_nonneg hnk (le_of_lt hU)),
        Int.toNat_of_nonneg hnk, neg_mul]
    rw [hcast, Binary64.roundNat_exact (-k).toNat
      (by zify; rw [Int.toNat_of_nonneg hnk]; omega)]
    push_cast
    rw [Int.toNat_of_nonneg hnk]
    ring

/-- On integers the sum and the difference of the number arithmetic are the
sum and the difference of the integers, as long as the result lies between
`-2 ^ 53` and `2 ^ 53`; the integer literals in that range are exact. -/
theorem Binary64.exact_on_safe_integers (a b : Int) :
    (-(2 ^ 53) ≤ a → a ≤ 2 ^ 53 → Binary64.ofInt a = a * Binary64.unitsOfOne) ∧
    (-(2 ^ 53) ≤ a + b → a + b ≤ 2 ^ 53 →
      Binary64.add (a * Binary64.unitsOfOne) (b * Binary64.unitsOfOne) =
        (a + b) * Binary64.unitsOfOne) ∧
    (-(2 ^ 53) ≤ a - b → a - b ≤ 2 ^ 53 →
      Binary64.sub (a * Binary64.unitsOfOne) (b * Binary64.unitsOfOne) =
        (a - b) * Binary64.unitsOfOne) := by
  refine ⟨fun h1 h2 => Binary64.round_exact a h1 h2, fun h1 h2 => ?_, fun h1 h2 => ?_⟩
  · unfold Binary64.add
    rw [← add_mul]
    exact Binary64.round_exact (a + b) h1 h2
  · unfold Binary64.sub
    rw [← sub_mul]
    exact Binary64.round_exact (a - b) h1 h2

theorem Binary64.lt_pow_bitLengthAux (steps : Nat) :
    ∀ n : Nat, n ≤ steps → n < 2 ^ Binary64.bitLengthAux steps n := by
  induction steps with
  | zero =>
    intro n hn
    have : n = 0 := Nat.le_zero.1 hn
    rw [this]
    simp [Binary64.bitLengthAux]
  | succ steps ih =>
    intro n hn
    rw [Binary64.bitLengthAux]
    by_cases h0 : n = 0
    · rw [if_pos h0, h0]; simp
    · rw [if_neg h0]
      have h3 : n / 2 ≤ steps := by omega
      have := ih (n / 2) h3
      rw [Nat.pow_succ]
      omega

theorem Binary64.bitLength_mono (a b : Nat) (h : a ≤ b) :
    Binary64.bitLength a ≤ Binary64.bitLength b :=
  Binary64.bitLengthAux_le a a _ (le_refl _)
    (lt_of_le_of_lt h (Binary64.lt_pow_bitLengthAux b b (le_refl _)))

theorem Binary64.roundHalfEven_le (n d c : Nat) (hd : 0 < d) (h : n ≤ c * d) :
    Binary64.roundHalfEven n d ≤ c := by
  have hq : n / d ≤ c := Nat.div_le_of_le_mul (by rw [Nat.mul_comm]; exact h)
  have hdm := Nat.div_add_mod n d
  unfold Binary64.roundHalfEven
  simp only
  rcases Nat.lt_or_ge (n / d) c with hlt | hge
  · split_ifs <;> omega
  · have hqc : n / d = c := le_antisymm hq hge
    have hr : n % d = 0 := by
      rw [hqc, Nat.mul_comm] at hdm
      omega
    rw [hr]
    simp only [Nat.mul_zero, if_pos hd]
    exact hq

theorem Binary64.roundNat_le (n d c : Nat) (hd : 0 < d) (hle : n ≤ c * d)
    (hc : 2 ^ (Binary64.bitLength c - 53) ∣ c) : Binary64.roundNat n d ≤ c := by
  have hq : n / d ≤ c := Nat.div_le_of_le_mul (by rw [Nat.mul_comm]; exact hle)
  have hmono := Binary64.bitLength_mono _ _ hq
  have he : Binary64.bitLength (n / d) - 53 ≤ Binary64.bitLength c - 53 := by omega
  obtain ⟨c2, hc2⟩ := Nat.dvd_trans (Nat.pow_dvd_pow 2 he) hc
  unfold Binary64.roundNat
  simp only
  generalize Binary64.bitLength (n / d) - 53 = e at hc2 ⊢
  have hpos : 0 < 2 ^ e := Nat.pos_pow_of_pos _ (by decide)
  have h1 : Binary64.roundHalfEven n (d * 2 ^ e) ≤ c2 := by
    apply Binary64.roundHalfEven_le _ _ _ (Nat.mul_pos hd hpos)
    calc n ≤ c * d := hle
      _ = c2 * (d * 2 ^ e) := by rw [hc2]; ring
  calc Binary64.roundHalfEven n (d * 2 ^ e) * 2 ^ e ≤ c2 * 2 ^ e := Nat.mul_le_mul_right _ h1
    _ = c := by rw [hc2, Nat.mul_comm]

theorem Binary64.roundNat_mul_exact (c d : Nat) (hd : 0 < d)
    (hc : 2 ^ (Binary64.bitLength c - 53) ∣ c) : Binary64.roundNat (c * d) d = c := by
  unfold Binary64.roundNat
  simp only [Nat.mul_div_cancel _ hd]
  generalize Binary64.bitLength c - 53 = e at hc ⊢
  obtain ⟨c2, hc2⟩ := hc
  have hpos : 0 < 2 ^ e := Nat.pos_pow_of_pos _ (by decide)
  have hdvd : d * 2 ^ e ∣ c * d := ⟨c2, by rw [hc2]; ring⟩
  have h1 := Binary64.roundHalfEven_of_dvd (c * d) (d * 2 ^ e) (Nat.mul_pos hd hpos) hdvd
  have h2 : Binary64.roundHalfEven (c * d) (d * 2 ^ e) * 2 ^ e * d = c * d := by
    calc Binary64.roundHalfEven (c * d) (d * 2 ^ e) * 2 ^ e * d
        = Binary64.roundHalfEven (c * d) (d * 2 ^ e) * (d * 2 ^ e) := by ring
      _ = c * d := h1
  exact Nat.eq_of_mul_eq_mul_right hd h2

theorem Binary64.representable_scaled (k u : Nat) (hk : k < 2 ^ 53) :
    2 ^ (Binary64.bitLength (k * 2 ^ u) - 53) ∣ k * 2 ^ u := by
  have hlt2 : k * 2 ^ u < 2 ^ (53 + u) := by
    rw [Nat.pow_add]
    exact Nat.mul_lt_mul_of_lt_of_le hk (le_refl _) (Nat.pos_pow_of_pos _ (by decide))
  have hlen : Binary64.bitLength (k * 2 ^ u) ≤ 53 + u :=
    Binary64.bitLengthAux_le _ _ _ (le_refl _) hlt2
  have he : Binary64.bitLength (k * 2 ^ u) - 53 ≤ u := by omega
  exact Nat.dvd_trans (Nat.pow_dvd_pow 2 he) ⟨k, Nat.mul_comm _ _⟩

theorem Binary64.round_of_nonneg (n : Int) (d : Nat) (hn : 0 ≤ n) :
    Binary64.round n d = (Binary64.roundNat n.toNat d : Int) := by
  unfold Binary64.round
  rw [if_pos hn]

theorem Binary64.ofInt_100 : Binary64.ofInt 100 = 100 * Binary64.unitsOfOne :=
  Binary64.round_exact 100 (by norm_num) (by norm_num)

/-- The expression `(totalBurstTime / totalTime) * 100` of `calculateMetrics`
in the arithmetic of the code is at most `100` whenever
`0 ≤ totalBurstTime ≤ totalTime` and `0 < totalTime`, and it is `100` when the
two are equal. -/
theorem Binary64.utilizationOf_le (a b : Int) (ha : 0 ≤ a) (hab : a ≤ b) (hb : 0 < b) :
    Binary64.utilizationOf a b ≤ Binary64.ofInt 100 ∧
    Binary64.utilizationOf b b = Binary64.ofInt 100 := by
  obtain ⟨u, hU⟩ : ∃ u : Nat, Binary64.unitsOfOne = 2 ^ u := ⟨1074, rfl⟩
  have hUpos : 0 < Binary64.unitsOfOne := by
    rw [hU]; exact Nat.pos_pow_of_pos _ (by decide)
  have hrepU : 2 ^ (Binary64.bitLength Binary64.unitsOfOne - 53) ∣ Binary64.unitsOfOne := by
    have := Binary64.representable_scaled 1 u (by norm_num)
    rwa [Nat.one_mul, ← hU] at this
  have hrepC : 2 ^ (Binary64.bitLength (100 * Binary64.unitsOfOne) - 53) ∣
      100 * Binary64.unitsOfOne := by
    have := Binary64.representable_scaled 100 u (by norm_num)
    rwa [← hU] at this
  have hbn : 0 < b.toNat := by omega
  have hbcast : (b.toNat : Int) = b := Int.toNat_of_nonneg (le_of_lt hb)
  have hacast : (a.toNat : Int) = a := Int.toNat_of_nonneg ha
  -- the quotient is at most one
  have hdiv : ∀ x : Int, 0 ≤ x → x ≤ b → ∃ q : Nat, Binary64.div x b = (q : Int) ∧
      q ≤ Binary64.unitsOfOne ∧ (x = b → q = Binary64.unitsOfOne) := by
    intro x hx hxb
    have hxcast : (x.toNat : Int) = x := Int.toNat_of_nonneg hx
    have hn : 0 ≤ x * (Binary64.unitsOfOne : Int) :=
      mul_nonneg hx (by exact_mod_cast le_of_lt hUpos)
    have htn : (x * (Binary64.unitsOfOne : Int)).toNat = x.toNat * Binary64.unitsOfOne := by
      zify
      rw [Int.toNat_of_nonneg hn, hxcast]
    refine ⟨Binary64.roundNat (x.toNat * Binary64.unitsOfOne) b.toNat, ?_, ?_, ?_⟩
    · unfold Binary64.div
      rw [if_pos (le_of_lt hb), Binary64.round_of_nonneg _ _ hn, htn]
    · apply Binary64.roundNat_le _ _ _ hbn _ hrepU
      rw [Nat.mul_comm]
      apply Nat.mul_le_mul_left
      omega
    · intro hxb2
      rw [hxb2, Nat.mul_comm]
      exact Binary64.roundNat_mul_exact _ _ hbn hrepU
  have hmul : ∀ q : Nat, Binary64.mul (q : Int) (Binary64.ofInt 100) =
      (Binary64.roundNat (q * (100 * Binary64.unitsOfOne)) Binary64.unitsOfOne : Int) := by
    intro q
    unfold Binary64.mul
    rw [Binary64.ofInt_100]
    generalize Binary64.unitsOfOne = U
    have hcast : (q : Int) * (100 * (U : Int)) = ((q * (100 * U) : Nat) : Int) := by
      push_cast
      rfl
    rw [hcast, Binary64.round_of_nonneg _ _ (Int.ofNat_nonneg _), Int.toNat_ofNat]
  constructor
  · obtain ⟨q, hq, hle, _⟩ := hdiv a ha hab
    unfold Binary64.utilizationOf
    rw [hq, hmul, Binary64.ofInt_100]
    have := Binary64.roundNat_le (q * (100 * Binary64.unitsOfOne)) Binary64.unitsOfOne
      (100 * Binary64.unitsOfOne) hUpos
      (by rw [Nat.mul_comm]; exact Nat.mul_le_mul_left _ hle) hrepC
    exact_mod_cast this
  · obtain ⟨q, hq, _, heq⟩ := hdiv b (le_of_lt hb) (le_refl _)
    unfold Binary64.utilizationOf
    rw [hq, hmul, Binary64.ofInt_100, heq rfl,
      Nat.mul_comm Binary64.unitsOfOne (100 * Binary64.unitsOfOne),
      Binary64.roundNat_mul_exact _ _ hUpos hrepC]
    generalize Binary64.unitsOfOne = U
    push_cast
    rfl

theorem Binary64.unitsOfOne_pos : (0 : Int) < (Binary64.unitsOfOne : Int) := by
  obtain ⟨u, hU⟩ : ∃ u : Nat, Binary64.unitsOfOne = 2 ^ u := ⟨1074, rfl⟩
  have : 0 < Binary64.unitsOfOne := by
    rw [hU]; exact Nat.pos_pow_of_pos _ (by decide)
  exact_mod_cast this

theorem Binary64.utilizationOf_scaled (s m : Int) (hs : 0 ≤ s) (hsm : s ≤ m) (hm : 0 < m) :
    Binary64.utilizationOf (s * Binary64.unitsOfOne) (m * Binary64.unitsOfOne) ≤
      Binary64.ofInt 100 ∧
    Binary64.utilizationOf (m * Binary64.unitsOfOne) (m * Binary64.unitsOfOne) =
      Binary64.ofInt 100 :=
  Binary64.utilizationOf_le _ _ (mul_nonneg hs (le_of_lt Binary64.unitsOfOne_pos))
    (mul_le_mul_of_nonneg_right hsm (le_of_lt Binary64.unitsOfOne_pos))
    (mul_pos hm Binary64.unitsOfOne_pos)

theorem cpuUtilization_eq (results : List ProcessRecord) (m : Int)
    (hmax : maxFinish results = some m) (hm : 0 < m) :
    (calculateMetrics results).cpuUtilization =
      JSNumber.finite ((totalBurst results : ℚ) / (m : ℚ) * 100) := by
  have hmax2 : maxOfList (results.map fun p => p.finishTime.getD 0) = some m := hmax
  show (match maxOfList (results.map fun p => p.finishTime.getD 0) with
    | some t =>
      if 0 < t then JSNumber.finite (((totalBurst results : ℚ) / (t : ℚ)) * 100)
      else JSNumber.finite 0
    | none => JSNumber.finite 0) = _
  rw [hmax2]
  simp only [if_pos hm]

theorem utilizationAtMost100_of_le (results : List ProcessRecord) (m : Int)
    (hmax : maxFinish results = some m) (hpos : 0 < totalBurst results)
    (hle : totalBurst results ≤ m) : UtilizationAtMost100 results := by
  have hm : 0 < m := lt_of_lt_of_le hpos hle
  refine ⟨m, hmax, hle, ⟨_, cpuUtilization_eq results m hmax hm, rfl, ?_⟩,
    (Binary64.utilizationOf_scaled _ m (le_of_lt hpos) hle hm).1⟩
  have hmq : (0 : ℚ) < (m : ℚ) := by exact_mod_cast hm
  have hleq : (totalBurst results : ℚ) ≤ (m : ℚ) := by exact_mod_cast hle
  have hdiv : (totalBurst results : ℚ) / (m : ℚ) ≤ 1 := (div_le_one hmq).2 hleq
  linarith

theorem utilizationExactly100_of_eq (results : List ProcessRecord) (m : Int)
    (hmax : maxFinish results = some m) (hpos : 0 < totalBurst results)
    (heq : totalBurst results = m) : UtilizationExactly100 results := by
  have hm : 0 < m := by omega
  refine ⟨m, hmax, heq, ⟨_, cpuUtilization_eq results m hmax hm, rfl, ?_⟩, ?_⟩
  swap
  · rw [heq]
    exact (Binary64.utilizationOf_scaled m m (le_of_lt hm) (le_refl _) hm).2
  have hmq : (m : ℚ) ≠ 0 := by
    have : (0 : ℚ) < (m : ℚ) := by exact_mod_cast hm
    exact ne_of_gt this
  rw [heq, div_self hmq]
  norm_num

theorem utilizationAtMost100_of_clock (processes results : List ProcessRecord)
    (hne : processes ≠ []) (hpos : ∀ p ∈ processes, 0 < p.burstTime)
    (hperm : (results.map ProcessRecord.inputFields).Perm
      (processes.map ProcessRecord.inputFields))
    (hclock : (processes.map fun p => p.burstTime).sum ≤ finalClock 0 results) :
    UtilizationAtMost100 results := by
  have hsum := burstSum_of_perm results processes hperm
  have hps := burstSum_pos processes hne hpos
  have hrne : results ≠ [] := by
    intro h
    rw [h] at hsum
    simp at hsum
    omega
  obtain ⟨m, hmax, _, hall⟩ :=
    maxOfList_spec (results.map fun r => r.finishTime.getD 0) (by simpa using hrne)
  have hfin := hall _ (finalClock_mem results 0 hrne)
  have htb := totalBurst_eq_sum results
  exact utilizationAtMost100_of_le results m hmax (by omega) (by omega)

theorem RRTrace.finish_bound {t : Int} {q : List RRItem} {sl : List (Nat × TimelineEntry)}
    {rs : List ProcessRecord} (h : RRTrace t q sl rs)
    (hpos : ∀ c ∈ q, 0 < c.remainingTime) :
    (∀ r ∈ rs, r.finishTime.getD 0 ≤ t + (q.map fun c => c.remainingTime).sum) ∧
    (q ≠ [] → ∃ r ∈ rs, r.finishTime.getD 0 = t + (q.map fun c => c.remainingTime).sum) := by
  have hq : quantum = 3 := rfl
  induction h with
  | done t => simp
  | again t c rest sl rs hmore hrest ih =>
    have hpos2 : ∀ c2 ∈ rest ++ [rrRequeued t c], 0 < c2.remainingTime := by
      intro c2 hc2
      rcases List.mem_append.1 hc2 with h | h
      · exact hpos c2 (List.mem_cons_of_mem _ h)
      · rw [List.mem_singleton.1 h, rrRequeued_remainingTime]; exact hmore
    obtain ⟨ih1, ih2⟩ := ih hpos2
    have hsum : t + min quantum c.remainingTime +
        ((rest ++ [rrRequeued t c]).map fun c => c.remainingTime).sum =
        t + ((c :: rest).map fun c => c.remainingTime).sum := by
      simp only [List.map_append, List.sum_append, List.map_cons, List.map_nil, List.sum_cons,
        List.sum_nil, rrRequeued_remainingTime]
      omega
    rw [hsum] at ih1 ih2
    exact ⟨ih1, fun _ => ih2 (by simp)⟩
  | finished t c rest sl rs hdone hrest ih =>
    obtain ⟨ih1, ih2⟩ := ih (fun c2 hc2 => hpos c2 (List.mem_cons_of_mem _ hc2))
    have hc := hpos c (List.mem_cons_self _ _)
    have hfin : (rrResult t c).finishTime.getD 0 = t + min quantum c.remainingTime := by
      rw [(rrResult_spec t c).2.2.2.1]
      rfl
    have hrest0 : 0 ≤ (rest.map fun c => c.remainingTime).sum := by
      apply List.sum_nonneg
      intro x hx
      obtain ⟨c2, hc2, rfl⟩ := List.mem_map.1 hx
      exact le_of_lt (hpos c2 (List.mem_cons_of_mem _ hc2))
    have hmin : min quantum c.remainingTime = c.remainingTime := by
      rw [hq] at hdone ⊢
      omega
    rw [hmin] at ih1 ih2 hfin
    refine ⟨?_, ?_⟩
    · intro r hr
      rw [List.map_cons, List.sum_cons]
      rcases List.mem_cons.1 hr with rfl | hr
      · rw [hfin]; omega
      · have := ih1 r hr
        omega
    · intro _
      rw [List.map_cons, List.sum_cons]
      cases rest with
      | nil => exact ⟨rrResult t c, List.mem_cons_self _ _, by rw [hfin]; simp⟩
      | cons c2 rest2 =>
        obtain ⟨r, hr, hrf⟩ := ih2 (by simp)
        exact ⟨r, List.mem_cons_of_mem _ hr, by rw [hrf]; omega⟩

theorem executeFCFS_utilization (processes : List ProcessRecord) (hne : processes ≠ [])
    (hpos : ∀ p ∈ processes, 0 < p.burstTime) :
    UtilizationAtMost100 (executeFCFS processes).results := by
  have hperm := sortByArrival_perm processes
  have hne2 : sortByArrival processes ≠ [] := by
    intro h
    rw [h] at hperm
    exact hne (List.perm_nil.1 hperm.symm)
  have hpos2 : ∀ p ∈ sortByArrival processes, 0 < p.burstTime :=
    fun p hp => hpos p (hperm.mem_iff.1 hp)
  rw [executeFCFS_results]
  apply utilizationAtMost100_of_clock (sortByArrival processes) _ hne2 hpos2
    (fcfsResults_spec 0 (sortByArrival processes)).1.1
  have := fcfs_final_clock (sortByArrival processes) 0
  omega

theorem SelectionTrace.utilization {key : ProcessRecord → Int}
    {processes results : List ProcessRecord} (h : SelectionTrace key 0 processes results)
    (hne : processes ≠ []) (hpos : ∀ p ∈ processes, 0 < p.burstTime) :
    UtilizationAtMost100 results := by
  obtain ⟨h1, h2⟩ := h.clock_account
  apply utilizationAtMost100_of_clock processes results hne hpos h.selection_results_spec.1.1
  have hgaps : 0 ≤ (idleGaps 0 results).sum := List.sum_nonneg h2
  rw [h1]
  omega

theorem executeRoundRobin_utilization (processes : List ProcessRecord) (hne : processes ≠ [])
    (hpos : ∀ p ∈ processes, 0 < p.burstTime) :
    ∃ out : ScheduleOutput, executeRoundRobin processes = some out ∧
      UtilizationExactly100 out.results := by
  obtain ⟨t, cs, sl, rs, hrun, _, htrace⟩ := roundRobinRun_spec processes
  refine ⟨_, executeRoundRobin_of_run processes _ hrun, ?_⟩
  show UtilizationExactly100 rs
  have hqpos : ∀ c ∈ processQueue processes, 0 < c.remainingTime := by
    intro c hc
    obtain ⟨p, hp, _, hrem⟩ := (mem_processQueue processes c).1 hc
    rw [hrem]
    exact hpos p (List.mem_iff_getElem?.2 ⟨_, hp⟩)
  have hqne : processQueue processes ≠ [] := by
    intro h
    have hlen := processQueue_length processes
    rw [h] at hlen
    exact hne (List.length_eq_zero.1 hlen.symm)
  obtain ⟨hle, hex⟩ := htrace.finish_bound hqpos
  obtain ⟨r, hr, hrf⟩ := hex hqne
  have hrem : ((processQueue processes).map fun c => c.remainingTime).sum =
      (processes.map fun p => p.burstTime).sum := by
    rw [processQueue_remaining]
  rw [hrem] at hle hrf
  have hperm : (rs.map ProcessRecord.inputFields).Perm
      (processes.map ProcessRecord.inputFields) := by
    have := htrace.rr_results_spec.1
    rwa [processQueue_inputFields] at this
  have hsum := burstSum_of_perm rs processes hperm
  have hps := burstSum_pos processes hne hpos
  have htb := totalBurst_eq_sum rs
  obtain ⟨m, hmax, hmem, hall⟩ :=
    maxOfList_spec (rs.map fun r => r.finishTime.getD 0)
      (by intro h; rw [List.map_eq_nil_iff] at h; rw [h] at hr; simp at hr)
  have h1 : r.finishTime.getD 0 ≤ m :=
    hall _ (List.mem_map.2 ⟨r, hr, rfl⟩)
  obtain ⟨r2, hr2, hr2f⟩ := List.mem_map.1 hmem
  have h2 := hle r2 hr2
  exact utilizationExactly100_of_eq rs m hmax (by omega) (by omega)

/-! ## Runs on times that the number arithmetic holds exactly -/

theorem safeSum_nonneg (qs : List ProcessRecord)
    (hpos : ∀ p ∈ qs, 0 ≤ p.arrivalTime ∧ 0 < p.burstTime) :
    0 ≤ (qs.map fun p => p.arrivalTime + p.burstTime).sum := by
  apply List.sum_nonneg
  intro x hx
  obtain ⟨q, hq, rfl⟩ := List.mem_map.1 hx
  have := hpos q hq
  omega

theorem fcfsResults_range (qs : List ProcessRecord) :
    ∀ t : Int, 0 ≤ t → (∀ p ∈ qs, 0 ≤ p.arrivalTime ∧ 0 < p.burstTime) →
      ∀ r ∈ fcfsResults t qs, ∃ f : Int, r.finishTime = some f ∧ t ≤ f ∧
        f ≤ t + (qs.map fun p => p.arrivalTime + p.burstTime).sum := by
  induction qs with
  | nil => intro t _ _ r hr; simp [fcfsResults] at hr
  | cons p ps ih =>
    intro t ht hpos r hr
    have hp := hpos p (List.mem_cons_self _ _)
    have hrest := safeSum_nonneg ps (fun q hq => hpos q (List.mem_cons_of_mem _ hq))
    have hmax1 := le_max_left t p.arrivalTime
    have hmax2 : max t p.arrivalTime ≤ t + p.arrivalTime := max_le (by omega) (by omega)
    rw [fcfsResults] at hr
    rw [List.map_cons, List.sum_cons]
    rcases List.mem_cons.1 hr with rfl | hr
    · exact ⟨max t p.arrivalTime + p.burstTime, rfl, by omega, by omega⟩
    · obtain ⟨f, hf, h1, h2⟩ := ih (max t p.arrivalTime + p.burstTime) (by omega)
        (fun q hq => hpos q (List.mem_cons_of_mem _ hq)) r hr
      exact ⟨f, hf, by omega, by omega⟩

theorem SelectionTrace.finish_range {key : ProcessRecord → Int} {clock : Int}
    {remaining results : List ProcessRecord} (h : SelectionTrace key clock remaining results)
    (hclock : 0 ≤ clock) (hpos : ∀ p ∈ remaining, 0 ≤ p.arrivalTime ∧ 0 < p.burstTime) :
    ∀ r ∈ results, ∃ f : Int, r.finishTime = some f ∧ clock ≤ f ∧
      f ≤ clock + (remaining.map fun p => p.arrivalTime + p.burstTime).sum := by
  induction h with
  | done clock => intro r hr; simp at hr
  | run clock t notYetRun i p later hstart hsel harr hsm hea hlater ih =>
    have hpmem : p ∈ notYetRun := List.mem_iff_getElem?.2 ⟨i, hsel⟩
    have hp := hpos p hpmem
    have hsum : (notYetRun.map fun q => q.arrivalTime + q.burstTime).sum =
        (p.arrivalTime + p.burstTime) +
          ((notYetRun.eraseIdx i).map fun q => q.arrivalTime + q.burstTime).sum := by
      have := ((perm_cons_eraseIdx notYetRun i p hsel).map
        fun q => q.arrivalTime + q.burstTime).sum_eq
      simpa using this
    have hpos2 : ∀ q ∈ notYetRun.eraseIdx i, 0 ≤ q.arrivalTime ∧ 0 < q.burstTime :=
      fun q hq => hpos q (List.mem_of_mem_eraseIdx hq)
    have hrest := safeSum_nonneg _ hpos2
    have hgap : clock ≤ t ∧ t - p.arrivalTime ≤ clock := by
      rcases hstart with ⟨_, ht⟩ | ⟨hall, _, hmin⟩
      · omega
      · have h1 := hall p hpmem
        have h2 := hmin p hpmem
        omega
    intro r hr
    rcases List.mem_cons.1 hr with rfl | hr
    · exact ⟨t + p.burstTime, rfl, by omega, by omega⟩
    · obtain ⟨f, hf, h1, h2⟩ := ih (by omega) hpos2 r hr
      exact ⟨f, hf, by omega, by omega⟩

theorem RRTrace.finish_lower {t : Int} {q : List RRItem} {sl : List (Nat × TimelineEntry)}
    {rs : List ProcessRecord} (h : RRTrace t q sl rs)
    (hpos : ∀ c ∈ q, 0 < c.remainingTime) :
    ∀ r ∈ rs, ∃ f : Int, r.finishTime = some f ∧ t ≤ f := by
  have hq : quantum = 3 := rfl
  induction h with
  | done t => intro r hr; simp at hr
  | again t c rest sl rs hmore hrest ih =>
    have hpos2 : ∀ c2 ∈ rest ++ [rrRequeued t c], 0 < c2.remainingTime := by
      intro c2 hc2
      rcases List.mem_append.1 hc2 with h | h
      · exact hpos c2 (List.mem_cons_of_mem _ h)
      · rw [List.mem_singleton.1 h, rrRequeued_remainingTime]; exact hmore
    have hc := hpos c (List.mem_cons_self _ _)
    intro r hr
    obtain ⟨f, hf, h1⟩ := ih hpos2 r hr
    refine ⟨f, hf, ?_⟩
    rw [hq] at h1
    omega
  | finished t c rest sl rs hdone hrest ih =>
    have hc := hpos c (List.mem_cons_self _ _)
    intro r hr
    rcases List.mem_cons.1 hr with rfl | hr
    · refine ⟨_, (rrResult_spec t c).2.2.2.1, ?_⟩
      rw [hq]
      omega
    · obtain ⟨f, hf, h1⟩ := ih (fun c2 hc2 => hpos c2 (List.mem_cons_of_mem _ hc2)) r hr
      refine ⟨f, hf, ?_⟩
      rw [hq] at h1
      omega

theorem burstSum_le_safeSum (qs : List ProcessRecord)
    (hpos : ∀ p ∈ qs, 0 ≤ p.arrivalTime ∧ 0 < p.burstTime) :
    (qs.map fun p => p.burstTime).sum ≤ (qs.map fun p => p.arrivalTime + p.burstTime).sum := by
  apply List.sum_le_sum
  intro p hp
  have := hpos p hp
  show p.burstTime ≤ p.arrivalTime + p.burstTime
  omega

theorem executeFCFS_safe_range (processes : List ProcessRecord)
    (hsafe : SafeIntegerTimes processes) :
    ∀ r ∈ (executeFCFS processes).results, FinishInSafeRange r := by
  obtain ⟨hpos, hsum⟩ := hsafe
  have hperm := sortByArrival_perm processes
  have hsum2 := (hperm.map fun p => p.arrivalTime + p.burstTime).sum_eq
  rw [executeFCFS_results]
  intro r hr
  obtain ⟨f, hf, h1, h2⟩ := fcfsResults_range (sortByArrival processes) 0 (le_refl 0)
    (fun p hp => hpos p (hperm.mem_iff.1 hp)) r hr
  exact ⟨f, hf, h1, by omega⟩

theorem SelectionTrace.selection_safe_range {key : ProcessRecord → Int}
    {processes results : List ProcessRecord} (h : SelectionTrace key 0 processes results)
    (hsafe : SafeIntegerTimes processes) :
    ∀ r ∈ results, FinishInSafeRange r := by
  obtain ⟨hpos, hsum⟩ := hsafe
  intro r hr
  obtain ⟨f, hf, h1, h2⟩ := h.finish_range (le_refl 0) hpos r hr
  exact ⟨f, hf, h1, by omega⟩

theorem RRTrace.rr_safe_range {processes : List ProcessRecord} {sl : List (Nat × TimelineEntry)}
    {rs : List ProcessRecord} (h : RRTrace 0 (processQueue processes) sl rs)
    (hsafe : SafeIntegerTimes processes) :
    ∀ r ∈ rs, FinishInSafeRange r := by
  obtain ⟨hpos, hsum⟩ := hsafe
  have hqpos : ∀ c ∈ processQueue processes, 0 < c.remainingTime := by
    intro c hc
    obtain ⟨p, hp, _, hrem⟩ := (mem_processQueue processes c).1 hc
    rw [hrem]
    exact (hpos p (List.mem_iff_getElem?.2 ⟨_, hp⟩)).2
  have hrem : ((processQueue processes).map fun c => c.remainingTime).sum =
      (processes.map fun p => p.burstTime).sum := by
    rw [processQueue_remaining]
  have hle := burstSum_le_safeSum processes hpos
  intro r hr
  obtain ⟨f, hf, h1⟩ := h.finish_lower hqpos r hr
  have h2 := (h.finish_bound hqpos).1 r hr
  rw [hf, hrem] at h2
  have h3 : f ≤ (processes.map fun p => p.burstTime).sum := by
    simpa using h2
  exact ⟨f, hf, h1, by omega⟩

/-- With arrival time `0.1` and burst time `0.2`, `executeFCFS` in the
arithmetic of the code gives the process `finishTime = 0.30000000000000004`,
`waitingTime = 0` and `turnaroundTime = 0.20000000000000004`, and
`turnaroundTime - burstTime` is `2.7755575615628914e-17`, not the waiting
time. -/
theorem fcfs_waiting_differs_on_fractions :
    (Binary64.executeFCFS fractionalProcess).results.map
        (fun r => (r.arrivalTime, r.burstTime, r.startTime, r.finishTime)) =
      [(Binary64.ofDecimal 1 10, Binary64.ofDecimal 2 10, some (Binary64.ofDecimal 1 10),
        some (Binary64.ofDecimal 30000000000000004 (10 ^ 17)))] ∧
    (Binary64.executeFCFS fractionalProcess).results.map
        (fun r => (r.waitingTime, r.turnaroundTime,
          r.turnaroundTime.map fun ta => Binary64.sub ta r.burstTime)) =
      [(some 0, some (Binary64.ofDecimal 20000000000000004 (10 ^ 17)),
        some (Binary64.ofDecimal 27755575615628914 (10 ^ 33)))] ∧
    Binary64.ofDecimal 27755575615628914 (10 ^ 33) ≠ 0 ∧
    Binary64.ofDecimal 20000000000000004 (10 ^ 17) - Binary64.ofDecimal 2 10 ≠ 0 := by
  decide!

/-! ## Clock account of the selection schedulers -/

theorem arrivals_perm (rs ps : List ProcessRecord)
    (h : (rs.map ProcessRecord.inputFields).Perm (ps.map ProcessRecord.inputFields)) :
    (rs.map fun p => p.arrivalTime).Perm (ps.map fun p => p.arrivalTime) := by
  have := h.map fun x => x.2.2.1
  simpa [List.map_map, Function.comp_def, ProcessRecord.inputFields] using this

theorem exists_arrival_iff (rs ps : List ProcessRecord)
    (h : (rs.map ProcessRecord.inputFields).Perm (ps.map ProcessRecord.inputFields))
    (P : Int → Prop) :
    (∃ q ∈ rs, P q.arrivalTime) ↔ (∃ q ∈ ps, P q.arrivalTime) := by
  have hperm := arrivals_perm rs ps h
  constructor
  · rintro ⟨q, hq, hP⟩
    obtain ⟨q2, hq2, heq⟩ :=
      List.mem_map.1 (hperm.mem_iff.1 (List.mem_map.2 ⟨q, hq, rfl⟩))
    exact ⟨q2, hq2, by rw [heq]; exact hP⟩
  · rintro ⟨q, hq, hP⟩
    obtain ⟨q2, hq2, heq⟩ :=
      List.mem_map.1 (hperm.mem_iff.2 (List.mem_map.2 ⟨q, hq, rfl⟩))
    exact ⟨q2, hq2, by rw [heq]; exact hP⟩

theorem forall_arrival_iff (rs ps : List ProcessRecord)
    (h : (rs.map ProcessRecord.inputFields).Perm (ps.map ProcessRecord.inputFields))
    (P : Int → Prop) :
    (∀ q ∈ rs, P q.arrivalTime) ↔ (∀ q ∈ ps, P q.arrivalTime) := by
  have hperm := arrivals_perm rs ps h
  constructor
  · intro hall q hq
    obtain ⟨q2, hq2, heq⟩ :=
      List.mem_map.1 (hperm.mem_iff.2 (List.mem_map.2 ⟨q, hq, rfl⟩))
    have := hall q2 hq2
    rwa [heq] at this
  · intro hall q hq
    obtain ⟨q2, hq2, heq⟩ :=
      List.mem_map.1 (hperm.mem_iff.1 (List.mem_map.2 ⟨q, hq, rfl⟩))
    have := hall q2 hq2
    rwa [heq] at this

theorem SelectionTrace.idle_only {key : ProcessRecord → Int} {clock : Int}
    {remaining results : List ProcessRecord} (h : SelectionTrace key clock remaining results) :
    IdleOnlyWhenNoneArrived clock results := by
  induction h with
  | done clock => exact True.intro
  | run clock t notYetRun i p later hstart hsel harr hsm hea hlater ih =>
    have hperm := (SelectionTrace.run clock t notYetRun i p later hstart hsel harr hsm hea
      hlater).selection_results_spec.1.1
    refine ⟨?_, ih⟩
    rcases hstart with ⟨hex, ht⟩ | ⟨hall, hex, hmin⟩
    · left
      refine ⟨(exists_arrival_iff _ _ hperm (fun a => a ≤ clock)).2 hex, ?_⟩
      rw [ht]
      rfl
    · right
      refine ⟨(forall_arrival_iff _ _ hperm (fun a => clock < a)).2 hall, t, rfl, ?_, ?_⟩
      · exact (exists_arrival_iff _ _ hperm (fun a => a = t)).2 hex
      · exact (forall_arrival_iff _ _ hperm (fun a => t ≤ a)).2 hmin

theorem SelectionTrace.no_idle {key : ProcessRecord → Int} {clock : Int}
    {remaining results : List ProcessRecord} (h : SelectionTrace key clock remaining results)
    (harrived : ∀ p ∈ remaining, p.arrivalTime ≤ clock ∧ 0 ≤ p.burstTime) :
    finalClock clock results = clock + (remaining.map fun p => p.burstTime).sum := by
  induction h with
  | done clock => simp [finalClock]
  | run clock t notYetRun i p later hstart hsel harr hsm hea hlater ih =>
    have hpmem : p ∈ notYetRun := List.mem_iff_getElem?.2 ⟨i, hsel⟩
    have hp := harrived p hpmem
    have ht : t = clock := by
      rcases hstart with ⟨_, ht⟩ | ⟨hall, _, _⟩
      · exact ht
      · have := hall p hpmem
        omega
    have hsum : (notYetRun.map fun q => q.burstTime).sum =
        p.burstTime + ((notYetRun.eraseIdx i).map fun q => q.burstTime).sum := by
      have := ((perm_cons_eraseIdx notYetRun i p hsel).map fun q => q.burstTime).sum_eq
      simpa using this
    have hfin : (completedAt t p).finishTime.getD 0 = t + p.burstTime := rfl
    have := ih (fun q hq => by
      have := harrived q (List.mem_of_mem_eraseIdx hq)
      omega)
    rw [finalClock, hfin, this, hsum]
    omega

theorem completedAt_startBased (t : Int) (p : ProcessRecord) :
    StartBasedTimes (completedAt t p) :=
  ⟨t, t + p.burstTime, rfl, rfl, rfl, rfl, rfl⟩

theorem fcfsResults_startBased (qs : List ProcessRecord) :
    ∀ t : Int, ∀ r ∈ fcfsResults t qs, StartBasedTimes r := by
  induction qs with
  | nil => intro t r hr; simp [fcfsResults] at hr
  | cons p ps ih =>
    intro t r hr
    rw [fcfsResults] at hr
    rcases List.mem_cons.1 hr with rfl | hr
    · exact completedAt_startBased _ _
    · exact ih _ r hr

theorem SelectionTrace.startBased {key : ProcessRecord → Int} {clock : Int}
    {remaining results : List ProcessRecord} (h : SelectionTrace key clock remaining results) :
    ∀ r ∈ results, StartBasedTimes r := by
  induction h with
  | done clock => intro r hr; simp at hr
  | run clock t notYetRun i p later hstart hsel harr hsm hea hlater ih =>
    intro r hr
    rcases List.mem_cons.1 hr with rfl | hr
    · exact completedAt_startBased _ _
    · exact ih r hr

theorem SelectionTrace.dispatch_account {key : ProcessRecord → Int}
    {processes results : List ProcessRecord} (h : SelectionTrace key 0 processes results) :
    DispatchAccount processes results :=
  ⟨h.selection_results_spec.1.1, h.startBased, h.idle_only⟩

theorem SelectionTrace.clock_summary {key : ProcessRecord → Int}
    {processes results : List ProcessRecord} (h : SelectionTrace key 0 processes results)
    (hsafe : SafeIntegerTimes processes) : ClockAccount processes results := by
  obtain ⟨h1, h2⟩ := h.clock_account
  refine ⟨by rw [h1]; omega, h2, ?_, ?_⟩
  · cases hres : results with
    | nil => simp [finalClock]
    | cons r rs =>
      have hne : results ≠ [] := by rw [hres]; simp
      obtain ⟨r2, hr2, heq⟩ := List.mem_map.1 (finalClock_mem results 0 hne)
      obtain ⟨f, hf, _, hle⟩ := h.selection_safe_range hsafe r2 hr2
      rw [← hres, ← heq, hf]
      exact hle
  · intro hzero
    have := h.no_idle (fun p hp => by
      have h0 := hzero p hp
      have hb := (hsafe.1 p hp).2
      omega)
    rw [this]
    omega

/-- C12 (amended): for every process list `executeSJF` and `executePriority`
return, their results hold every process once, every process finishes at its
start time plus its burst time, and the processor idles only while no process
has arrived: a process starts at the previous finish time (`0` initially) when
some process not yet run has arrived by then, and otherwise at the earliest
arrival time of the processes not yet run.  When the times are integers that
the number arithmetic of the code holds exactly (arrival times at least `0`,
burst times above `0`, all together at most `2 ^ 53`), the final clock value
(the finish time of the last scheduled process) equals the sum of the burst
times of all processes plus the sum of the idle gaps, no idle gap is negative,
the final clock is at most `2 ^ 53`, and when every process arrives at time
`0` the final clock equals the sum of the burst times. -/
theorem selection_final_clock (processes : List ProcessRecord) :
    (∃ out : ScheduleOutput, executeSJF processes = some out ∧
      DispatchAccount processes out.results ∧
      (SafeIntegerTimes processes → ClockAccount processes out.results)) ∧
    (∃ out : ScheduleOutput, executePriority processes = some out ∧
      DispatchAccount processes out.results ∧
      (SafeIntegerTimes processes → ClockAccount processes out.results)) := by
  constructor
  · obtain ⟨out, heq, htrace⟩ := executeSJF_trace processes
    exact ⟨out, heq, htrace.dispatch_account, htrace.clock_summary⟩
  · obtain ⟨out, heq, htrace⟩ := executePriority_trace processes
    exact ⟨out, heq, htrace.dispatch_account, htrace.clock_summary⟩

/-- Instance of `selection_final_clock` on the sample process list, whose
times are integers that the arithmetic holds exactly. -/
theorem selection_final_clock_witness :
    SafeIntegerTimes sampleProcesses ∧
    (∃ out : ScheduleOutput, executeSJF sampleProcesses = some out ∧
      DispatchAccount sampleProcesses out.results ∧
      ClockAccount sampleProcesses out.results) ∧
    (∃ out : ScheduleOutput, executePriority sampleProcesses = some out ∧
      DispatchAccount sampleProcesses out.results ∧
      ClockAccount sampleProcesses out.results) := by
  have hsafe : SafeIntegerTimes sampleProcesses := ⟨by decide, by decide⟩
  obtain ⟨⟨o1, h1, d1, c1⟩, ⟨o2, h2, d2, c2⟩⟩ := selection_final_clock sampleProcesses
  exact ⟨hsafe, ⟨o1, h1, d1, c1 hsafe⟩, ⟨o2, h2, d2, c2 hsafe⟩⟩

/-! ## CPU utilization on exact times -/

/-- With the burst times `0.3` and `3.9`, `executeRoundRobin` in the arithmetic
of the code finishes the processes at `0.3` and `4.199999999999999`, while
`calculateMetrics` adds the burst times to `4.2`: the sum is above the maximum
finish time and the utilization is `100.00000000000003`, above `100`. -/
theorem roundRobin_utilization_above_100 :
    (Binary64.executeRoundRobin fractionalBursts).map
        (fun out => (out.results.map fun r => (r.burstTime, r.finishTime),
          Binary64.totalBurstTime out.results, Binary64.totalTime out.results,
          Binary64.cpuUtilization out.results)) =
      some ([(Binary64.ofDecimal 3 10, some (Binary64.ofDecimal 3 10)),
             (Binary64.ofDecimal 39 10, some (Binary64.ofDecimal 4199999999999999 (10 ^ 15)))],
            Binary64.ofDecimal 42 10, some (Binary64.ofDecimal 4199999999999999 (10 ^ 15)),
            Binary64.ofDecimal 10000000000000003 (10 ^ 14)) ∧
    Binary64.ofDecimal 4199999999999999 (10 ^ 15) < Binary64.ofDecimal 42 10 ∧
    Binary64.ofInt 100 < Binary64.ofDecimal 10000000000000003 (10 ^ 14) := by
  decide!

/-- C22 (amended): for every non-empty process list whose times are integers
that the number arithmetic of the code holds exactly (arrival times at least
`0`, burst times above `0`, all together at most `2 ^ 53`), `executeFCFS`,
`executeSJF` and `executePriority` return results whose burst times sum to at
most the maximum finish time, so the CPU utilization computed by
`calculateMetrics` (total burst ÷ max finish × 100, before rounding) is at most
`100`; `executeRoundRobin` returns results whose burst times sum to exactly the
maximum finish time, so its utilization is exactly `100`.  Every finish time
lies between `0` and `2 ^ 53`. -/
theorem cpuUtilization_bounds (processes : List ProcessRecord) (hne : processes ≠ [])
    (hsafe : SafeIntegerTimes processes) :
    (UtilizationAtMost100 (executeFCFS processes).results ∧
      ∀ r ∈ (executeFCFS processes).results, FinishInSafeRange r) ∧
    (∃ out : ScheduleOutput, executeSJF processes = some out ∧
      UtilizationAtMost100 out.results ∧ ∀ r ∈ out.results, FinishInSafeRange r) ∧
    (∃ out : ScheduleOutput, executePriority processes = some out ∧
      UtilizationAtMost100 out.results ∧ ∀ r ∈ out.results, FinishInSafeRange r) ∧
    (∃ out : ScheduleOutput, executeRoundRobin processes = some out ∧
      UtilizationExactly100 out.results ∧ ∀ r ∈ out.results, FinishInSafeRange r) := by
  have hpos : ∀ p ∈ processes, 0 < p.burstTime := fun p hp => (hsafe.1 p hp).2
  refine ⟨⟨executeFCFS_utilization processes hne hpos,
    executeFCFS_safe_range processes hsafe⟩, ?_, ?_, ?_⟩
  · obtain ⟨out, heq, htrace⟩ := executeSJF_trace processes
    exact ⟨out, heq, htrace.utilization hne hpos, htrace.selection_safe_range hsafe⟩
  · obtain ⟨out, heq, htrace⟩ := executePriority_trace processes
    exact ⟨out, heq, htrace.utilization hne hpos, htrace.selection_safe_range hsafe⟩
  · obtain ⟨out, heq, hu⟩ := executeRoundRobin_utilization processes hne hpos
    obtain ⟨t, cs, sl, rs, hrun, _, htrace⟩ := roundRobinRun_spec processes
    have heq2 := executeRoundRobin_of_run processes _ hrun
    rw [heq] at heq2
    have hout : out.results = rs := by
      have := Option.some.inj heq2
      rw [this]
    exact ⟨out, heq, hu, by rw [hout]; exact htrace.rr_safe_range hsafe⟩

/-- Instance of `cpuUtilization_bounds` on the sample process list. -/
theorem cpuUtilization_bounds_witness :
    sampleProcesses ≠ [] ∧
    SafeIntegerTimes sampleProcesses ∧
    (UtilizationAtMost100 (executeFCFS sampleProcesses).results ∧
      ∀ r ∈ (executeFCFS sampleProcesses).results, FinishInSafeRange r) ∧
    (∃ out : ScheduleOutput, executeSJF sampleProcesses = some out ∧
      UtilizationAtMost100 out.results ∧ ∀ r ∈ out.results, FinishInSafeRange r) ∧
    (∃ out : ScheduleOutput, executePriority sampleProcesses = some out ∧
      UtilizationAtMost100 out.results ∧ ∀ r ∈ out.results, FinishInSafeRange r) ∧
    (∃ out : ScheduleOutput, executeRoundRobin sampleProcesses = some out ∧
      UtilizationExactly100 out.results ∧ ∀ r ∈ out.results, FinishInSafeRange r) :=
  ⟨by decide, ⟨by decide, by decide⟩,
    cpuUtilization_bounds sampleProcesses (by decide) ⟨by decide, by decide⟩⟩

/-! ## Turnaround and waiting times -/

/-- C5 (amended): for every process list the four schedulers return and every
process in their results has `turnaroundTime = finishTime - arrivalTime`.
`executeRoundRobin` computes `waitingTime = turnaroundTime - burstTime`;
`executeFCFS`, `executeSJF` and `executePriority` compute
`finishTime = startTime + burstTime` and `waitingTime = startTime - arrivalTime`.
When the times are integers that the number arithmetic of the code holds
exactly (arrival times at least `0`, burst times above `0`, all together at
most `2 ^ 53`), every process in the results of all four has
`waitingTime = turnaroundTime - burstTime`, and its finish time lies between
`0` and `2 ^ 53`. -/
theorem turnaround_and_waiting_times (processes : List ProcessRecord) :
    ((∀ r ∈ (executeFCFS processes).results, StartBasedTimes r) ∧
      (∃ out : ScheduleOutput, executeSJF processes = some out ∧
        ∀ r ∈ out.results, StartBasedTimes r) ∧
      (∃ out : ScheduleOutput, executePriority processes = some out ∧
        ∀ r ∈ out.results, StartBasedTimes r) ∧
      (∃ out : ScheduleOutput, executeRoundRobin processes = some out ∧
        ∀ r ∈ out.results, TimesConsistent r)) ∧
    (SafeIntegerTimes processes →
      (∀ r ∈ (executeFCFS processes).results, TimesConsistent r ∧ FinishInSafeRange r) ∧
      (∃ out : ScheduleOutput, executeSJF processes = some out ∧
        ∀ r ∈ out.results, TimesConsistent r ∧ FinishInSafeRange r) ∧
      (∃ out : ScheduleOutput, executePriority processes = some out ∧
        ∀ r ∈ out.results, TimesConsistent r ∧ FinishInSafeRange r) ∧
      (∃ out : ScheduleOutput, executeRoundRobin processes = some out ∧
        ∀ r ∈ out.results, TimesConsistent r ∧ FinishInSafeRange r)) := by
  obtain ⟨o1, h1, t1⟩ := executeSJF_trace processes
  obtain ⟨o2, h2, t2⟩ := executePriority_trace processes
  obtain ⟨t, cs, sl, rs, heq, hlen, htrace⟩ := roundRobinRun_spec processes
  have hrr : ∀ r ∈ rs, TimesConsistent r := by
    intro r hr
    obtain ⟨_, _, f, h3, h4, h5⟩ := htrace.rr_results_spec.2 r hr
    exact ⟨f, f - r.arrivalTime, f - r.arrivalTime - r.burstTime, h3, h4, h5, rfl, rfl⟩
  refine ⟨⟨?_, ⟨o1, h1, t1.startBased⟩, ⟨o2, h2, t2.startBased⟩,
    ⟨_, executeRoundRobin_of_run processes _ heq, hrr⟩⟩, ?_⟩
  · rw [executeFCFS_results]
    exact fcfsResults_startBased _ 0
  · intro hsafe
    refine ⟨?_, ⟨o1, h1, fun r hr =>
        ⟨t1.selection_results_spec.2 r hr, t1.selection_safe_range hsafe r hr⟩⟩,
      ⟨o2, h2, fun r hr =>
        ⟨t2.selection_results_spec.2 r hr, t2.selection_safe_range hsafe r hr⟩⟩,
      ⟨_, executeRoundRobin_of_run processes _ heq, fun r hr =>
        ⟨hrr r hr, htrace.rr_safe_range hsafe r hr⟩⟩⟩
    intro r hr
    refine ⟨?_, executeFCFS_safe_range processes hsafe r hr⟩
    rw [executeFCFS_results] at hr
    exact (fcfsResults_spec 0 (sortByArrival processes)).2 r hr

/-- Instance of `turnaround_and_waiting_times` on the sample process list,
whose times are integers that the arithmetic holds exactly. -/
theorem turnaround_and_waiting_times_witness :
    SafeIntegerTimes sampleProcesses ∧
    (∀ r ∈ (executeFCFS sampleProcesses).results, TimesConsistent r ∧ FinishInSafeRange r) ∧
    (∃ out : ScheduleOutput, executeSJF sampleProcesses = some out ∧
      ∀ r ∈ out.results, TimesConsistent r ∧ FinishInSafeRange r) ∧
    (∃ out : ScheduleOutput, executePriority sampleProcesses = some out ∧
      ∀ r ∈ out.results, TimesConsistent r ∧ FinishInSafeRange r) ∧
    (∃ out : ScheduleOutput, executeRoundRobin sampleProcesses = some out ∧
      ∀ r ∈ out.results, TimesConsistent r ∧ FinishInSafeRange r) :=
  ⟨⟨by decide, by decide⟩,
    (turnaround_and_waiting_times sampleProcesses).2 ⟨by decide, by decide⟩⟩

end OSDashboard
